import Mathlib

/-!
# MariaDB operator: the reconcile pass

A shallow embedding of `MariaDBReconciler.Reconcile`
(`controllers/mariadb_controller.go`), of `MariaDB.IsReady` and
`MariaDB.RbacResourceName` (`api/v1beta1/mariadb_types.go`) and of the pod builder
(`pkg/pod.go`).

The reconciler talks to the API server and to library collaborators (the RBAC
reconciler, create-or-patch, the config-map templater, the secret fetcher, the job
runner).  Each such call is a field of `Env`: what the call answers.  A pass is then a
function of `Env`; it returns what Go's `Reconcile` returns, the in-memory resource at
exit, and the list of calls it issued, in order.

What is not modelled: the clock (`LastTransitionTime`), the order in which
`Conditions.Set` leaves the list (it sorts after every change; the list is read by
condition type only), logging.

The file has two parts: the definitions (library types, the resource, the builders, the
environment, the steps of `Reconcile`, sample environments), then the theorems (facts
about single steps, how far a pass gets, and the claims C1 to C20).  The account
rotation protocol of the test harness (claim C18) is modelled from the spec: the consumer
side of it is not among the source files.
-/

namespace MariaDBOperator

set_option autoImplicit false

/-! ## Library types: errors, results, string maps -/

/-- The reason carried by an API status error (`metav1.StatusReason`), as far as the
reconciler tells reasons apart. -/
inductive StatusReason
  | NotFound
  | Conflict
  | Other
  deriving DecidableEq, Repr

/-- A Go `error` value. -/
inductive Err
  | status (reason : StatusReason) (text : String)
  | errorf (text : String)
  | wrapped (text : String) (inner : Err)
  deriving DecidableEq, Repr

/-- The text of `err.Error()`. -/
def Err.Error : Err → String
  | .status _ t => t
  | .errorf t => t
  | .wrapped t _ => t

/-- The reason `k8s_errors.ReasonForError` finds, looking through wrapping. -/
def Err.reason : Err → StatusReason
  | .status r _ => r
  | .errorf _ => StatusReason.Other
  | .wrapped _ inner => inner.reason

def IsNotFound (e : Err) : Bool := e.reason = StatusReason.NotFound

def IsConflict (e : Err) : Bool := e.reason = StatusReason.Conflict

/-- Nanoseconds in `time.Second`. -/
def Second : Nat := 1000000000

/-- The result type `ctrl.Result`; `RequeueAfter` is a `time.Duration` in nanoseconds. -/
structure Result where
  Requeue : Bool := false
  RequeueAfter : Nat := 0
  deriving DecidableEq, Repr

/-- A Go `map[string]string`, kept as an association list read at the first match. -/
abbrev StrMap := List (String × String)

def StrMap.get? (m : StrMap) (k : String) : Option String :=
  (m.find? (fun kv => kv.1 = k)).map (fun kv => kv.2)

/-- The assignment `m[k] = v`. -/
def StrMap.set : StrMap → String → String → StrMap
  | [], k, v => [(k, v)]
  | kv :: rest, k, v => if kv.1 = k then (k, v) :: rest else kv :: StrMap.set rest k v

/-- The function `labels.Merge(labels1, labels2)` of apimachinery: a fresh map holding
`labels1`, then `labels2` written over it. -/
def Merge (labels1 labels2 : StrMap) : StrMap :=
  labels2.foldl (fun m kv => m.set kv.1 kv.2) (labels1.foldl (fun m kv => m.set kv.1 kv.2) [])

/-! ## The lib-common `condition` package -/

inductive ConditionStatus
  | ConditionTrue
  | ConditionFalse
  | ConditionUnknown
  deriving DecidableEq, Repr

inductive Severity
  | SeverityError
  | SeverityWarning
  | SeverityInfo
  | SeverityNone
  deriving DecidableEq, Repr

abbrev ConditionType := String

abbrev Reason := String

def ReadyCondition : ConditionType := "Ready"
def ExposeServiceReadyCondition : ConditionType := "ExposeServiceReady"
def ServiceConfigReadyCondition : ConditionType := "ServiceConfigReady"
def DeploymentReadyCondition : ConditionType := "DeploymentReady"
def ServiceAccountReadyCondition : ConditionType := "ServiceAccountReady"
def RoleReadyCondition : ConditionType := "RoleReady"
def RoleBindingReadyCondition : ConditionType := "RoleBindingReady"

/-- The condition type declared in `api/v1beta1/conditions.go`. -/
def MariaDBInitializedCondition : ConditionType := "MariaDBInitialized"

def InitReason : Reason := "Init"
def ErrorReason : Reason := "Error"
def RequestedReason : Reason := "Requested"
def ReadyReason : Reason := "Ready"

/-- The message format constants the reconciler names; their text lives in lib-common
and in `api/v1beta1/conditions.go`, so a format is kept by name.  `Text` is any other
message (one left by the RBAC reconciler or by an earlier version). -/
inductive MessageFormat
  | ReadyInitMessage
  | ReadyMessage
  | ExposeServiceReadyInitMessage
  | ExposeServiceReadyErrorMessage
  | ExposeServiceReadyMessage
  | ServiceConfigReadyInitMessage
  | ServiceConfigReadyErrorMessage
  | ServiceConfigReadyMessage
  | MariaDBInitializedInitMessage
  | MariaDBInitializedRunningMessage
  | MariaDBInitializedErrorMessage
  | MariaDBInitializedReadyMessage
  | DeploymentReadyInitMessage
  | DeploymentReadyErrorMessage
  | DeploymentReadyRunningMessage
  | DeploymentReadyMessage
  | ServiceAccountReadyInitMessage
  | RoleReadyInitMessage
  | RoleBindingReadyInitMessage
  | Text (s : String)
  deriving DecidableEq, Repr

/-- A condition message: `fmt.Sprintf(format, args...)`, kept unrendered. -/
structure Message where
  format : MessageFormat
  args : List String := []
  deriving DecidableEq, Repr

structure Condition where
  CondType : ConditionType
  Status : ConditionStatus
  Reason : Reason
  Severity : Severity
  Message : Message
  deriving DecidableEq, Repr

abbrev Conditions := List Condition

open ConditionStatus Severity MessageFormat

def TrueCondition (t : ConditionType) (format : MessageFormat) (args : List String) :
    Condition :=
  { CondType := t, Status := ConditionTrue, Reason := ReadyReason, Severity := SeverityNone,
    Message := { format := format, args := args } }

def FalseCondition (t : ConditionType) (reason : Reason) (severity : Severity)
    (format : MessageFormat) (args : List String) : Condition :=
  { CondType := t, Status := ConditionFalse, Reason := reason, Severity := severity,
    Message := { format := format, args := args } }

def UnknownCondition (t : ConditionType) (reason : Reason) (format : MessageFormat)
    (args : List String) : Condition :=
  { CondType := t, Status := ConditionUnknown, Reason := reason, Severity := SeverityNone,
    Message := { format := format, args := args } }

/-- The first condition of type `t`. -/
def Conditions.Get (conditions : Conditions) (t : ConditionType) : Option Condition :=
  conditions.find? (fun c => c.CondType = t)

def Conditions.Has (conditions : Conditions) (t : ConditionType) : Bool :=
  (conditions.Get t).isSome

def Conditions.IsTrue (conditions : Conditions) (t : ConditionType) : Bool :=
  match conditions.Get t with
  | some c => c.Status = ConditionTrue
  | none => false

/-- The method `Conditions.Set`: the entry of the same type is replaced, a new type is
appended. -/
def Conditions.Set : Conditions → Condition → Conditions
  | [], c => [c]
  | existing :: rest, c =>
    if existing.CondType = c.CondType then c :: rest else existing :: Conditions.Set rest c

def Conditions.MarkTrue (conditions : Conditions) (t : ConditionType)
    (format : MessageFormat) (args : List String) : Conditions :=
  conditions.Set (TrueCondition t format args)

def CreateList (conditions : List Condition) : Conditions := conditions

/-- The method `Conditions.Init`: the overall Ready condition is set to Unknown, then
every condition of `cl` is set.  The reconciler calls it on an empty list only. -/
def Conditions.Init (conditions : Conditions) (cl : Conditions) : Conditions :=
  cl.foldl Conditions.Set
    (conditions.Set (UnknownCondition ReadyCondition InitReason ReadyInitMessage []))

/-! ## The MariaDB resource (`api/v1beta1/mariadb_types.go`) -/

structure TLSSpec where
  SecretName : String := ""
  CaSecretName : String := ""
  deriving DecidableEq, Repr

structure AdoptionRedirectSpec where
  Host : String := ""
  deriving DecidableEq, Repr

structure MariaDBSpec where
  Secret : String := ""
  StorageClass : String := ""
  StorageRequest : String := ""
  ContainerImage : String := ""
  AdoptionRedirect : AdoptionRedirectSpec := {}
  TLS : TLSSpec := {}
  deriving DecidableEq, Repr

/-- The status; `Conditions = none` is Go's nil slice. -/
structure MariaDBStatus where
  DbInitHash : String := ""
  Conditions : Option Conditions := none
  deriving DecidableEq, Repr

structure MariaDB where
  Name : String := ""
  Namespace : String := ""
  Spec : MariaDBSpec := {}
  Status : MariaDBStatus := {}
  deriving DecidableEq, Repr

/-- The condition list as the methods of `Conditions` read it: a nil slice reads as the
empty list. -/
def MariaDB.conds (db : MariaDB) : Conditions := db.Status.Conditions.getD []

def MariaDB.withConds (db : MariaDB) (cs : Conditions) : MariaDB :=
  { db with Status := { db.Status with Conditions := some cs } }

/-- IsReady - returns true if service is ready to serve requests. -/
def MariaDB.IsReady (db : MariaDB) : Bool :=
  db.conds.IsTrue DeploymentReadyCondition

/-- The method `RbacConditionsSet`.  Its receiver is a copy of the resource, so it
shares the backing array of the condition slice but not the slice header: replacing an
existing entry is seen by the caller, appending a new one is not.  (After the
initialisation of the status every RBAC condition type is in the list, so the RBAC
reconciler only ever replaces.) -/
def MariaDB.RbacConditionsSet (db : MariaDB) (c : Condition) : MariaDB :=
  if db.conds.Has c.CondType then db.withConds (db.conds.Set c) else db

def MariaDB.RbacNamespace (db : MariaDB) : String := db.Namespace

def MariaDB.RbacResourceName (db : MariaDB) : String := "mariadb-" ++ db.Name

/-! ## The pod builder (`pkg/pod.go`) -/

structure EnvVar where
  Name : String
  Value : String := ""
  deriving DecidableEq, Repr

structure Container where
  Name : String
  Image : String
  Env : List EnvVar
  VolumeMounts : List String
  deriving DecidableEq, Repr

structure Pod where
  Name : String
  Namespace : String
  Labels : StrMap
  ServiceAccountName : String
  Containers : List Container
  Volumes : List String
  deriving DecidableEq, Repr

/-- The helpers of package `mariadb` that `Pod` calls and that live in other files:
`GetLabels`, `getVolumeMounts`, `getVolumes`.  Volumes and mounts are kept by name. -/
structure Builders where
  GetLabels : String → StrMap
  getVolumeMounts : MariaDB → List String
  getVolumes : MariaDB → List String

/-- The builder `Pod` of package `mariadb`. -/
def mariadb.Pod (b : Builders) (db : MariaDB) (configHash : String) : Pod :=
  { Name := "mariadb-" ++ db.Name
    Namespace := db.Namespace
    Labels := b.GetLabels db.Name
    ServiceAccountName := db.RbacResourceName
    Containers :=
      [ { Name := "mariadb"
          Image := db.Spec.ContainerImage
          Env :=
            [ { Name := "KOLLA_CONFIG_STRATEGY", Value := "COPY_ALWAYS" },
              { Name := "CONFIG_HASH", Value := configHash } ]
          VolumeMounts := b.getVolumeMounts db } ]
    Volumes := b.getVolumes db }

/-! ## The environment of a pass -/

inductive OperationResult
  | OperationResultNone
  | OperationResultCreated
  | OperationResultUpdated
  | OperationResultUpdatedStatus
  | OperationResultUpdatedStatusOnly
  deriving DecidableEq, Repr

/-- What a call of `controllerutil.CreateOrPatch` does: its `Get` fails with an error
other than not-found, and the mutate function is never called; or the mutate function
is called and then it, `Create` or `Patch` fails; or the call goes through and reports
an operation. -/
inductive CreateOrPatchOutcome
  | getFailed (e : Err)
  | failed (e : Err)
  | done (op : OperationResult)
  deriving DecidableEq, Repr

inductive PodPhase
  | PodPending
  | PodRunning
  | PodSucceeded
  | PodFailed
  | PodUnknown
  | PodPhaseEmpty
  deriving DecidableEq, Repr

/-- The conditions that `common_rbac.ReconcileRbac` reports on. -/
inductive RbacObject
  | ServiceAccount
  | Role
  | RoleBinding
  deriving DecidableEq, Repr

def RbacObject.conditionType : RbacObject → ConditionType
  | .ServiceAccount => ServiceAccountReadyCondition
  | .Role => RoleReadyCondition
  | .RoleBinding => RoleBindingReadyCondition

/-- A condition that `common_rbac.ReconcileRbac` hands to `RbacConditionsSet`. -/
structure RbacReport where
  object : RbacObject
  Status : ConditionStatus
  Reason : Reason
  Severity : Severity
  Message : Message
  deriving DecidableEq, Repr

def RbacReport.condition (r : RbacReport) : Condition :=
  { CondType := r.object.conditionType, Status := r.Status, Reason := r.Reason,
    Severity := r.Severity, Message := r.Message }

/-- What `common_rbac.ReconcileRbac` does: the conditions it hands to
`RbacConditionsSet`, in order, and what it returns. -/
structure RbacOutcome where
  reports : List RbacReport
  result : Result
  err : Option Err

/-- What `secret.GetSecret` returns: an error, or the labels of the secret and the hash
of its content. -/
inductive GetSecretOutcome
  | failed (e : Err)
  | found (labels : StrMap) (hash : String)

/-- What the job runner answers: the return values of `DoJob`, then of `HasChanged` and
`GetHash`. -/
structure JobOutcome where
  result : Result
  err : Option Err
  HasChanged : Bool
  GetHash : String

/-- The pod as `CreateOrPatch` leaves it. -/
structure PodOutcome where
  outcome : CreateOrPatchOutcome
  Phase : PodPhase

structure Secret where
  Name : String
  Namespace : String
  Labels : StrMap
  deriving DecidableEq, Repr

/-- The answers of the API server and of the library collaborators during one pass. -/
structure Env where
  /-- The fetch of the resource, `r.Client.Get`. -/
  Get : Except Err MariaDB
  /-- The status update that follows the initialisation of the conditions. -/
  StatusUpdateInit : Option Err
  NewHelper : Option Err
  ReconcileRbac : RbacOutcome
  /-- The error of `resource.ParseQuantity`, if any; `MustParse` panics on it. -/
  ParseQuantity : String → Option Err
  PvcCreateOrPatch : CreateOrPatchOutcome
  ServiceCreateOrPatch : CreateOrPatchOutcome
  /-- Whether the builder `mariadb.Endpoints` returns an object. -/
  Endpoints : MariaDB → Bool
  EndpointsCreateOrPatch : CreateOrPatchOutcome
  /-- The templater `configmap.EnsureConfigMaps`: an error, or the hash it stores under
  the name of the config map. -/
  EnsureConfigMaps : Except Err String
  GetSecretTLS : GetSecretOutcome
  UpdateSecretTLS : Secret → Option Err
  GetSecretCA : GetSecretOutcome
  UpdateSecretCA : Secret → Option Err
  /-- The order in which Go ranges over the map of env setters: smaller rank first. -/
  mapRank : String → Nat
  /-- The job runner, given the previous hash. -/
  DoJob : String → JobOutcome
  /-- The status update that stores the job hash. -/
  StatusUpdateJob : Option Err
  PodCreateOrPatch : Pod → PodOutcome
  SetAfter : Option Err
  StatusPatch : Option Err
  builders : Builders

/-- A call issued by the pass, one constructor for each call site of `Reconcile`, with
the arguments the claims are about. -/
inductive Step
  | Get
  | StatusUpdateInit (status : MariaDBStatus)
  | NewHelper
  | ReconcileRbac
  | PvcCreateOrPatch
  | ServiceCreateOrPatch
  | EndpointsCreateOrPatch
  | EnsureConfigMaps
  | GetSecretTLS (name : String)
  | UpdateSecretTLS (secret : Secret)
  | GetSecretCA (name : String)
  | UpdateSecretCA (secret : Secret)
  | DoJob (beforeHash : String)
  | StatusUpdateJob (status : MariaDBStatus)
  | PodCreateOrPatch (pod : Pod)
  | SetAfter
  | StatusPatch (status : MariaDBStatus)
  deriving DecidableEq, Repr

/-- The position of a call site in the text of `Reconcile`. -/
def Step.rank : Step → Nat
  | .Get => 0
  | .StatusUpdateInit _ => 1
  | .NewHelper => 2
  | .ReconcileRbac => 3
  | .PvcCreateOrPatch => 4
  | .ServiceCreateOrPatch => 5
  | .EndpointsCreateOrPatch => 6
  | .EnsureConfigMaps => 7
  | .GetSecretTLS _ => 8
  | .UpdateSecretTLS _ => 9
  | .GetSecretCA _ => 10
  | .UpdateSecretCA _ => 11
  | .DoJob _ => 12
  | .StatusUpdateJob _ => 13
  | .PodCreateOrPatch _ => 14
  | .SetAfter => 15
  | .StatusPatch _ => 16

/-- How the body of `Reconcile` ends: it returns, or it panics. -/
inductive Return
  | ret (result : Result) (err : Option Err)
  | panic (value : String)
  deriving DecidableEq, Repr

/-- The in-memory resource and the calls issued so far. -/
structure PassState where
  inst : MariaDB
  trace : List Step
  deriving DecidableEq, Repr

def PassState.log (s : PassState) (step : Step) : PassState :=
  { s with trace := s.trace ++ [step] }

/-- The statement `instance.Status.Conditions.Set(c)`. -/
def PassState.Set (s : PassState) (c : Condition) : PassState :=
  { s with inst := s.inst.withConds (s.inst.conds.Set c) }

/-- The statement `instance.Status.Conditions.MarkTrue(t, format)`. -/
def PassState.MarkTrue (s : PassState) (t : ConditionType) (format : MessageFormat) :
    PassState :=
  { s with inst := s.inst.withConds (s.inst.conds.MarkTrue t format []) }

/-! ## The lib-common `env` package and the configuration hash -/

/-- The body of the loop of `env.MergeEnvs` for one map entry whose setter is
`env.SetValue(value)`: the variable of that name is updated, or appended. -/
def setEnv : List EnvVar → String → String → List EnvVar
  | [], name, value => [{ Name := name, Value := value }]
  | e :: rest, name, value =>
    if e.Name = name then { e with Value := value } :: rest else e :: setEnv rest name value

/-- The entries of a Go map in the order a `range` visits them, the order being given
by `rank` (Go leaves it unspecified). -/
def rangeOrder (rank : String → Nat) (m : StrMap) : StrMap :=
  m.insertionSort (fun a b => rank a.1 ≤ rank b.1)

/-- The function `env.MergeEnvs(envs, newEnvs)`, every setter being a `SetValue`. -/
def MergeEnvs (rank : String → Nat) (envs : List EnvVar) (newEnvs : StrMap) : List EnvVar :=
  (rangeOrder rank newEnvs).foldl (fun es kv => setEnv es kv.1 kv.2) envs

/-- The loop `configHash = configHash + hashEnv.Value` over the merged variables. -/
def configHashOf (mergedMapVars : List EnvVar) : String :=
  mergedMapVars.foldl (fun configHash hashEnv => configHash ++ hashEnv.Value) ""

def mariaDBReconcileLabel : String := "mariadb-ref"

/-! ## The steps of `Reconcile`, last step first -/

abbrev Outcome := Return × PassState

/-- The pod step (lines 378-428). -/
def podStep (env : Env) (s : PassState) (configHash : String) : Outcome :=
  let pod := mariadb.Pod env.builders s.inst configHash
  let o := env.PodCreateOrPatch pod
  let s := s.log (Step.PodCreateOrPatch pod)
  match o.outcome with
  | .getFailed e =>
    (.ret {} (some e),
      s.Set (FalseCondition DeploymentReadyCondition ErrorReason SeverityWarning
        DeploymentReadyErrorMessage [e.Error]))
  | .failed e =>
    (.ret {} (some e),
      s.Set (FalseCondition DeploymentReadyCondition ErrorReason SeverityWarning
        DeploymentReadyErrorMessage [e.Error]))
  | .done op =>
    let s :=
      if op ≠ OperationResult.OperationResultNone then
        s.Set (FalseCondition DeploymentReadyCondition RequestedReason SeverityInfo
          DeploymentReadyRunningMessage [])
      else s
    let s :=
      if o.Phase = PodPhase.PodRunning then
        s.MarkTrue DeploymentReadyCondition DeploymentReadyMessage
      else s
    (.ret {} none, s)

/-- The init job step (lines 336-376). -/
def jobStep (env : Env) (s : PassState) (configHash : String) : Outcome :=
  let job := env.DoJob s.inst.Status.DbInitHash
  let s := s.log (Step.DoJob s.inst.Status.DbInitHash)
  if job.result ≠ {} then
    (.ret job.result none,
      s.Set (FalseCondition MariaDBInitializedCondition RequestedReason SeverityInfo
        MariaDBInitializedRunningMessage []))
  else
    match job.err with
    | some e =>
      (.ret {} (some e),
        s.Set (FalseCondition MariaDBInitializedCondition ErrorReason SeverityWarning
          MariaDBInitializedErrorMessage [e.Error]))
    | none =>
      if job.HasChanged then
        let s := { s with inst := { s.inst with Status := { s.inst.Status with DbInitHash := job.GetHash } } }
        let s := s.log (Step.StatusUpdateJob s.inst.Status)
        match env.StatusUpdateJob with
        | some e => (.ret {} (some e), s)
        | none =>
          podStep env (s.MarkTrue MariaDBInitializedCondition MariaDBInitializedReadyMessage)
            configHash
      else
        podStep env (s.MarkTrue MariaDBInitializedCondition MariaDBInitializedReadyMessage)
          configHash

/-- The end of the configuration step (lines 327-334). -/
def hashStep (env : Env) (s : PassState) (configMapVars : StrMap) : Outcome :=
  let mergedMapVars := MergeEnvs env.mapRank [] configMapVars
  let configHash := configHashOf mergedMapVars
  jobStep env (s.MarkTrue ServiceConfigReadyCondition ServiceConfigReadyMessage) configHash

/-- The labelling of a fetched secret (lines 276-292 and 306-322): `none` when the pass
goes on, the return values when the update fails; `call` is the call site. -/
def labelSecret (update : Secret → Option Err) (call : Secret → Step) (s : PassState)
    (secret : Secret) : Option Return × PassState :=
  if secret.Labels.get? mariaDBReconcileLabel ≠ some s.inst.Name then
    let secret := { secret with Labels := Merge secret.Labels [(mariaDBReconcileLabel, s.inst.Name)] }
    let s := s.log (call secret)
    match update secret with
    | some e =>
      if IsConflict e || IsNotFound e then (some (.ret { Requeue := true } (some e)), s)
      else (some (.ret {} (some e)), s)
    | none => (none, s)
  else (none, s)

/-- The CA secret (lines 297-325). -/
def caStep (env : Env) (s : PassState) (configMapVars : StrMap) : Outcome :=
  if s.inst.Spec.TLS.CaSecretName ≠ "" then
    let s := s.log (Step.GetSecretCA s.inst.Spec.TLS.CaSecretName)
    match env.GetSecretCA with
    | .failed e =>
      if IsNotFound e then
        (.ret { RequeueAfter := Second * 10 }
          (some (.errorf ("TLS CA secret " ++ s.inst.Spec.TLS.CaSecretName ++ " not found"))), s)
      else (.ret {} (some e), s)
    | .found labels caHash =>
      let caSecret : Secret :=
        { Name := s.inst.Spec.TLS.CaSecretName, Namespace := s.inst.Namespace, Labels := labels }
      match labelSecret env.UpdateSecretCA Step.UpdateSecretCA s caSecret with
      | (some r, s) => (r, s)
      | (none, s) => hashStep env s (configMapVars.set caSecret.Name caHash)
  else hashStep env s configMapVars

/-- The TLS secret (lines 264-295). -/
def tlsStep (env : Env) (s : PassState) (configMapVars : StrMap) : Outcome :=
  if s.inst.Spec.TLS.SecretName ≠ "" then
    let s := s.log (Step.GetSecretTLS s.inst.Spec.TLS.SecretName)
    match env.GetSecretTLS with
    | .failed e =>
      if IsNotFound e then
        (.ret { RequeueAfter := Second * 10 }
          (some (.errorf ("TLS secret " ++ s.inst.Spec.TLS.SecretName ++ " not found"))), s)
      else (.ret {} (some e), s)
    | .found labels tlsHash =>
      let tlsSecret : Secret :=
        { Name := s.inst.Spec.TLS.SecretName, Namespace := s.inst.Namespace, Labels := labels }
      match labelSecret env.UpdateSecretTLS Step.UpdateSecretTLS s tlsSecret with
      | (some r, s) => (r, s)
      | (none, s) => caStep env s (configMapVars.set tlsSecret.Name tlsHash)
  else caStep env s configMapVars

/-- The config maps (lines 251-262, with `generateServiceConfigMaps`): the templater
stores the hash of the config map `mariadb-<name>` under that name. -/
def configStep (env : Env) (s : PassState) : Outcome :=
  let s := s.log Step.EnsureConfigMaps
  match env.EnsureConfigMaps with
  | .error e =>
    (.ret {} (some (.wrapped ("error calculating configmap hash: " ++ e.Error) e)),
      s.Set (FalseCondition ServiceConfigReadyCondition ErrorReason SeverityWarning
        ServiceConfigReadyErrorMessage [e.Error]))
  | .ok hash => tlsStep env s (StrMap.set [] ("mariadb-" ++ s.inst.Name) hash)

/-- The exit taken when create-or-patch of the service or of the endpoints fails. -/
def exposeError (s : PassState) (e : Err) : Outcome :=
  (.ret {} (some e),
    s.Set (FalseCondition ExposeServiceReadyCondition ErrorReason SeverityWarning
      ExposeServiceReadyErrorMessage [e.Error]))

/-- The endpoints (lines 221-249). -/
def endpointsStep (env : Env) (s : PassState) : Outcome :=
  if env.Endpoints s.inst then
    let s := s.log Step.EndpointsCreateOrPatch
    match env.EndpointsCreateOrPatch with
    | .getFailed e => exposeError s e
    | .failed e => exposeError s e
    | .done _ => configStep env (s.MarkTrue ExposeServiceReadyCondition ExposeServiceReadyMessage)
  else configStep env (s.MarkTrue ExposeServiceReadyCondition ExposeServiceReadyMessage)

/-- The service (lines 195-219). -/
def serviceStep (env : Env) (s : PassState) : Outcome :=
  let s := s.log Step.ServiceCreateOrPatch
  match env.ServiceCreateOrPatch with
  | .getFailed e => exposeError s e
  | .failed e => exposeError s e
  | .done _ => endpointsStep env s

/-- The persistent volume claim (lines 169-193).  The mutate function calls
`resource.MustParse(instance.Spec.StorageRequest)`, which panics when the quantity does
not parse. -/
def pvcStep (env : Env) (s : PassState) : Outcome :=
  let s := s.log Step.PvcCreateOrPatch
  match env.PvcCreateOrPatch with
  | .getFailed e => (.ret {} (some e), s)
  | .failed e =>
    match env.ParseQuantity s.inst.Spec.StorageRequest with
    | some pe => (.panic ("cannot parse " ++ s.inst.Spec.StorageRequest ++ ": " ++ pe.Error), s)
    | none => (.ret {} (some e), s)
  | .done op =>
    match env.ParseQuantity s.inst.Spec.StorageRequest with
    | some pe => (.panic ("cannot parse " ++ s.inst.Spec.StorageRequest ++ ": " ++ pe.Error), s)
    | none =>
      if op ≠ OperationResult.OperationResultNone then
        (.ret { RequeueAfter := 5 * Second } none, s)
      else serviceStep env s

/-- The RBAC objects (lines 149-167). -/
def rbacStep (env : Env) (s : PassState) : Outcome :=
  let s := s.log Step.ReconcileRbac
  let s :=
    { s with
      inst := env.ReconcileRbac.reports.foldl (fun db r => db.RbacConditionsSet r.condition) s.inst }
  match env.ReconcileRbac.err with
  | some e => (.ret env.ReconcileRbac.result (some e), s)
  | none =>
    if env.ReconcileRbac.result ≠ {} then (.ret env.ReconcileRbac.result none, s)
    else pvcStep env s

/-- The deferred function (lines 129-147); `before` is the resource as the helper saw
it when it was built. -/
def deferredStatus (env : Env) (before : MariaDB) (s : PassState) : PassState :=
  let s := if s.inst.IsReady then s.MarkTrue ReadyCondition ReadyMessage else s
  let s := s.log Step.SetAfter
  if env.SetAfter.isNone ∧ s.inst.Status ≠ before.Status then
    s.log (Step.StatusPatch s.inst.Status)
  else s

/-- The helper and, under the deferred function, the rest of the pass
(lines 118-429). -/
def helperStep (env : Env) (s : PassState) : Outcome :=
  let s := s.log Step.NewHelper
  match env.NewHelper with
  | some e => (.ret {} (some e), s)
  | none =>
    let out := rbacStep env s
    (out.1, deferredStatus env s.inst out.2)

/-- The seven conditions of lines 100-108. -/
def initialConditions : Conditions :=
  CreateList
    [ UnknownCondition ExposeServiceReadyCondition InitReason ExposeServiceReadyInitMessage [],
      UnknownCondition ServiceConfigReadyCondition InitReason ServiceConfigReadyInitMessage [],
      UnknownCondition MariaDBInitializedCondition InitReason MariaDBInitializedInitMessage [],
      UnknownCondition DeploymentReadyCondition InitReason DeploymentReadyInitMessage [],
      UnknownCondition ServiceAccountReadyCondition InitReason ServiceAccountReadyInitMessage [],
      UnknownCondition RoleReadyCondition InitReason RoleReadyInitMessage [],
      UnknownCondition RoleBindingReadyCondition InitReason RoleBindingReadyInitMessage [] ]

/-- The initialisation of the status (lines 94-116). -/
def initStep (env : Env) (s : PassState) : Outcome :=
  if s.inst.Status.Conditions = none then
    let s := { s with inst := s.inst.withConds (Conditions.Init [] initialConditions) }
    let s := s.log (Step.StatusUpdateInit s.inst.Status)
    match env.StatusUpdateInit with
    | some e => (.ret {} (some e), s)
    | none => helperStep env s
  else helperStep env s

/-- Reconcile reconcile mariadb API requests. -/
def Reconcile (env : Env) : Outcome :=
  let s : PassState := { inst := {}, trace := [Step.Get] }
  match env.Get with
  | .error e => if IsNotFound e then (.ret {} none, s) else (.ret {} (some e), s)
  | .ok inst => initStep env { s with inst := inst }

/-! ## What a pass keeps of the resource it started from -/

/-- The state `s` of a pass that started from the resource `b`: the name, namespace,
spec and job hash are those of `b`, the conditions of a type outside `touched` are
those of `b`, and the calls issued so far are in the order of the text, all before call
site `n`. -/
structure Keeps (touched : List ConditionType) (n : Nat) (b : MariaDB) (s : PassState) :
    Prop where
  name : s.inst.Name = b.Name
  ns : s.inst.Namespace = b.Namespace
  spec : s.inst.Spec = b.Spec
  hash : s.inst.Status.DbInitHash = b.Status.DbInitHash
  conds : ∀ t, t ∉ touched → s.inst.conds.Get t = b.conds.Get t
  sorted : (s.trace.map Step.rank).Pairwise (· < ·)
  below : ∀ x ∈ s.trace, x.rank < n

/-! ## The condition types each step sets, and the map of env setters -/

def rbacTypes : List ConditionType :=
  [ServiceAccountReadyCondition, RoleReadyCondition, RoleBindingReadyCondition]

def exposeTypes : List ConditionType := ExposeServiceReadyCondition :: rbacTypes

def configTypes : List ConditionType := ServiceConfigReadyCondition :: exposeTypes

def jobTypes : List ConditionType := MariaDBInitializedCondition :: configTypes

def podTypes : List ConditionType := DeploymentReadyCondition :: jobTypes

/-- The map of env setters after the config maps: one entry, the hash of the config map
under its name. -/
def cmVars (env : Env) (db : MariaDB) : StrMap :=
  match env.EnsureConfigMaps with
  | .ok hash => StrMap.set [] ("mariadb-" ++ db.Name) hash
  | .error _ => []

/-- The map of env setters after the TLS secret. -/
def tlsVars (env : Env) (db : MariaDB) : StrMap :=
  if db.Spec.TLS.SecretName ≠ "" then
    match env.GetSecretTLS with
    | .found _ tlsHash => (cmVars env db).set db.Spec.TLS.SecretName tlsHash
    | .failed _ => cmVars env db
  else cmVars env db

/-- The map of env setters after the CA secret: what `MergeEnvs` receives. -/
def configMapVarsOf (env : Env) (db : MariaDB) : StrMap :=
  if db.Spec.TLS.CaSecretName ≠ "" then
    match env.GetSecretCA with
    | .found _ caHash => (tlsVars env db).set db.Spec.TLS.CaSecretName caHash
    | .failed _ => tlsVars env db
  else tlsVars env db

/-- The configuration hash of a pass that gets as far as computing it. -/
def configHashFor (env : Env) (db : MariaDB) : String :=
  configHashOf (MergeEnvs env.mapRank [] (configMapVarsOf env db))

/-- The resource the job runner leaves in memory when it completes: the job hash is
stored when the runner says it changed. -/
def jobResource (env : Env) (b : MariaDB) : MariaDB :=
  if (env.DoJob b.Status.DbInitHash).HasChanged then
    { b with Status := { b.Status with DbInitHash := (env.DoJob b.Status.DbInitHash).GetHash } }
  else b

/-! ## The deferred function -/

/-- The pass from the helper on: the steps run, then the deferred function. -/
def finish (env : Env) (before : MariaDB) (out : Outcome) : Outcome :=
  (out.1, deferredStatus env before out.2)

/-! ## How far a pass gets -/

/-- The resource after the initialisation of the status (lines 94-116). -/
def afterInit (inst0 : MariaDB) : MariaDB :=
  if inst0.Status.Conditions = none then
    inst0.withConds (Conditions.Init [] initialConditions)
  else inst0

/-- The pass issues no call at a call site from `n` on, the deferred function apart. -/
def Stops (env : Env) (n : Nat) : Prop :=
  ∀ x ∈ (Reconcile env).2.trace, x.rank < n ∨ 15 ≤ x.rank

/-- The pass stops before call site `n`, or it is the step `f`, run from a state `s`
with `K`, followed by the deferred function. -/
def Reach (env : Env) (n : Nat) (f : MariaDB → PassState → Outcome)
    (K : MariaDB → PassState → Prop) : Prop :=
  Stops env n ∨
    ∃ inst0 s, env.Get = .ok inst0 ∧
      Reconcile env = finish env (afterInit inst0) (f (afterInit inst0) s) ∧
      K (afterInit inst0) s

/-! ## Sample resources and environments -/

def sampleBuilders : Builders :=
  { GetLabels := fun name => [("app", "mariadb"), ("cr", "mariadb-" ++ name)]
    getVolumeMounts := fun _ => ["kolla-config", "lib-data"]
    getVolumes := fun _ => ["kolla-config", "lib-data"] }

/-- The RBAC reconciler when the service account, role and role binding are in place. -/
def rbacReady : RbacOutcome :=
  { reports :=
      [ { object := .ServiceAccount, Status := ConditionTrue, Reason := ReadyReason,
          Severity := SeverityNone, Message := { format := .Text "ServiceAccount created" } },
        { object := .Role, Status := ConditionTrue, Reason := ReadyReason,
          Severity := SeverityNone, Message := { format := .Text "Role created" } },
        { object := .RoleBinding, Status := ConditionTrue, Reason := ReadyReason,
          Severity := SeverityNone, Message := { format := .Text "RoleBinding created" } } ]
    result := {}
    err := none }

/-- A quantity parser for the samples: digits, then one of the unit suffixes. -/
def sampleParseQuantity (str : String) : Option Err :=
  let digits := str.toList.takeWhile Char.isDigit
  let suffix := String.mk (str.toList.dropWhile Char.isDigit)
  if digits ≠ [] ∧ suffix ∈ ["", "Ki", "Mi", "Gi", "Ti", "k", "M", "G", "T"] then none
  else some (.errorf "quantities must match the regular expression")

/-- A cluster in which every object of `inst` is in place and unchanged, the init job
`dbinit-1` has completed and the pod runs; the secrets are `cert-mariadb` and
`ca-mariadb`. -/
def sampleEnv (inst : MariaDB) : Env :=
  { Get := .ok inst
    StatusUpdateInit := none
    NewHelper := none
    ReconcileRbac := rbacReady
    ParseQuantity := sampleParseQuantity
    PvcCreateOrPatch := .done .OperationResultNone
    ServiceCreateOrPatch := .done .OperationResultNone
    Endpoints := fun db => db.Spec.AdoptionRedirect.Host ≠ ""
    EndpointsCreateOrPatch := .done .OperationResultNone
    EnsureConfigMaps := .ok "n5d4h64fh"
    GetSecretTLS := .found [(mariaDBReconcileLabel, inst.Name)] "n66bh5c8"
    UpdateSecretTLS := fun _ => none
    GetSecretCA := .found [(mariaDBReconcileLabel, inst.Name)] "n7fh9dq"
    UpdateSecretCA := fun _ => none
    mapRank := fun name => name.length
    DoJob := fun beforeHash =>
      { result := {}, err := none, HasChanged := decide (beforeHash ≠ "dbinit-1"),
        GetHash := "dbinit-1" }
    StatusUpdateJob := none
    PodCreateOrPatch := fun _ => { outcome := .done .OperationResultNone, Phase := .PodRunning }
    SetAfter := none
    StatusPatch := none
    builders := sampleBuilders }

/-- A resource that has not been reconciled yet. -/
def freshDb : MariaDB :=
  { Name := "openstack", Namespace := "openstack"
    Spec := { Secret := "osp-secret", StorageClass := "local-storage", StorageRequest := "500M",
              ContainerImage := "quay.io/tripleozedcentos9/openstack-mariadb:current-tripleo" } }

/-- The resource as a converged pass leaves it: every condition True. -/
def convergedDb : MariaDB := (Reconcile (sampleEnv freshDb)).2.inst

/-- The job runner finds the init job still running. -/
def envJobRunning : Env :=
  { sampleEnv convergedDb with
    DoJob := fun _ =>
      { result := { RequeueAfter := 5 * Second }, err := none, HasChanged := true,
        GetHash := "dbinit-2" } }

/-- The pod is unchanged but has failed. -/
def envPodFailed : Env :=
  { sampleEnv convergedDb with
    PodCreateOrPatch := fun _ => { outcome := .done .OperationResultNone, Phase := .PodFailed } }

/-- A resource that names a TLS secret. -/
def tlsDb : MariaDB :=
  { freshDb with Spec := { freshDb.Spec with TLS := { SecretName := "cert-mariadb" } } }

/-- The TLS secret does not exist. -/
def envTLSMissing : Env :=
  { sampleEnv tlsDb with
    GetSecretTLS := .failed (.status .NotFound "secrets cert-mariadb not found") }

/-- A resource that names a CA secret only. -/
def caDb : MariaDB :=
  { freshDb with Spec := { freshDb.Spec with TLS := { CaSecretName := "ca-mariadb" } } }

/-- The CA secret does not exist. -/
def envCAMissing : Env :=
  { sampleEnv caDb with
    GetSecretCA := .failed (.status .NotFound "secrets ca-mariadb not found") }

/-- A resource whose storage request is left empty. -/
def noStorageDb : MariaDB :=
  { freshDb with Spec := { freshDb.Spec with StorageRequest := "" } }

/-- The claim does not exist yet and the storage request is empty. -/
def envNoStorage : Env :=
  { sampleEnv noStorageDb with PvcCreateOrPatch := .done .OperationResultCreated }

/-- The job runner returns a requeue together with an error. -/
def envJobRequeueError : Env :=
  { sampleEnv convergedDb with
    DoJob := fun _ =>
      { result := { RequeueAfter := 5 * Second }, err := some (.errorf "job dbinit failed"),
        HasChanged := true, GetHash := "dbinit-2" } }

/-- The job runner returns an error and an empty result. -/
def envJobError : Env :=
  { sampleEnv convergedDb with
    DoJob := fun _ =>
      { result := {}, err := some (.errorf "job dbinit failed"), HasChanged := true,
        GetHash := "dbinit-2" } }

/-- The seven conditions that the overall Ready condition stands for. -/
def constituentTypes : List ConditionType :=
  [ExposeServiceReadyCondition, ServiceConfigReadyCondition, MariaDBInitializedCondition,
    DeploymentReadyCondition, ServiceAccountReadyCondition, RoleReadyCondition,
    RoleBindingReadyCondition]

/-- The state in which the job hash is stored and the status update is issued. -/
def storeHash (env : Env) (s : PassState) : PassState :=
  PassState.log
    { inst := { s.inst with
        Status := { s.inst.Status with
          DbInitHash := (env.DoJob s.inst.Status.DbInitHash).GetHash } },
      trace := s.trace ++ [Step.DoJob s.inst.Status.DbInitHash] }
    (Step.StatusUpdateJob { s.inst.Status with
      DbInitHash := (env.DoJob s.inst.Status.DbInitHash).GetHash })

/-! ## The configuration hash: reading it off a pod, comparing two passes -/

/-- The value of the environment variable `name` of the first container of a pod. -/
def Pod.env (p : Pod) (name : String) : Option String :=
  match p.Containers with
  | c :: _ => (c.Env.find? (fun e => e.Name = name)).map (fun e => e.Value)
  | [] => none

/-- Two map entries of two passes that differ in the hash stored under `k` only: the
same key, and the same value unless the key is `k`, where the values are `h1` and
`h2`. -/
def DiffersAt (k h1 h2 : String) (x y : String × String) : Prop :=
  x.1 = y.1 ∧ (x.1 ≠ k → x.2 = y.2) ∧ (x.1 = k → x.2 = h1 ∧ y.2 = h2)

/-- The relation `DiffersAt`, read on environment variables. -/
def EnvDiffersAt (k h1 h2 : String) (e1 e2 : EnvVar) : Prop :=
  DiffersAt k h1 h2 (e1.Name, e1.Value) (e2.Name, e2.Value)

/-- A resource that names a TLS secret and a CA secret. -/
def bothDb : MariaDB :=
  { freshDb with
    Spec := { freshDb.Spec with
      TLS := { SecretName := "cert-mariadb", CaSecretName := "ca-mariadb" } } }

/-- The sample cluster of `bothDb`, the TLS secret having hash `tlsHash` and the CA
secret hash `caHash`. -/
def envHashes (tlsHash caHash : String) : Env :=
  { sampleEnv bothDb with
    GetSecretTLS := .found [(mariaDBReconcileLabel, "openstack")] tlsHash
    GetSecretCA := .found [(mariaDBReconcileLabel, "openstack")] caHash }

/-! ## The secret watch (`SetupWithManager`), the labelling of a secret, the pod mutation -/

/-- A `reconcile.Request`: the namespaced name of the resource to reconcile. -/
structure Request where
  Name : String
  Namespace : String
  deriving DecidableEq, Repr

/-- The map function that `SetupWithManager` hands to the watch on secrets
(lines 475-489). -/
def secretMapFunc (o : Secret) : List Request :=
  match o.Labels.get? mariaDBReconcileLabel with
  | none => []
  | some reconcileCR => [{ Name := reconcileCR, Namespace := o.Namespace }]

/-- The secret as the labelling step (lines 276-284 and 306-314) leaves it for the
resource named `name`: with the merged labels that it hands to `Update`, or as it was
when the label already names the resource. -/
def labelledSecret (name : String) (secret : Secret) : Secret :=
  if secret.Labels.get? mariaDBReconcileLabel ≠ some name then
    { secret with Labels := Merge secret.Labels [(mariaDBReconcileLabel, name)] }
  else secret

/-- The mutate function of the pod step (lines 382-392), the owner reference apart: it
writes the image and the env of container 0; `none` is the index panic on a pod without
containers. -/
def podMutate (inst : MariaDB) (configHash : String) (pod : Pod) : Option Pod :=
  match pod.Containers with
  | [] => none
  | c :: rest =>
    some { pod with
      Containers :=
        { c with
          Image := inst.Spec.ContainerImage
          Env :=
            [ { Name := "KOLLA_CONFIG_STRATEGY", Value := "COPY_ALWAYS" },
              { Name := "CONFIG_HASH", Value := configHash } ] } :: rest }

/-- The two secrets a resource may name. -/
inductive SecretRef
  | TLS
  | CA
  deriving DecidableEq, Repr

/-- The call site that fetches the secret. -/
def SecretRef.fetchStep : SecretRef → String → Step
  | .TLS => Step.GetSecretTLS
  | .CA => Step.GetSecretCA

/-- The call site that updates the secret. -/
def SecretRef.updateStep : SecretRef → Secret → Step
  | .TLS => Step.UpdateSecretTLS
  | .CA => Step.UpdateSecretCA

/-- The answer of the fetch of the secret. -/
def SecretRef.fetch (env : Env) : SecretRef → GetSecretOutcome
  | .TLS => env.GetSecretTLS
  | .CA => env.GetSecretCA

/-- The answer of the update of the secret. -/
def SecretRef.update (env : Env) : SecretRef → Secret → Option Err
  | .TLS => env.UpdateSecretTLS
  | .CA => env.UpdateSecretCA

/-- A secret of the sample cluster that carries labels of its owner and names no
resource yet. -/
def certSecret : Secret :=
  { Name := "cert-mariadb", Namespace := "openstack"
    Labels := [("app.kubernetes.io/managed-by", "cert-manager"), ("service", "mariadb")] }

/-- A second resource in the namespace of `freshDb`. -/
def otherDb : MariaDB := { freshDb with Name := "openstack-cell1" }

/-! ## How the steps change the state of a pass -/

/-- The list `L1` comes from the list `L` by statements `Set` of conditions whose types
are in `T`. -/
inductive SetsOnly (T : List ConditionType) : Conditions → Conditions → Prop
  | refl (L : Conditions) : SetsOnly T L L
  | set {L L1 : Conditions} (c : Condition) :
      SetsOnly T L L1 → c.CondType ∈ T → SetsOnly T L (L1.Set c)

/-- The state `s1` comes from the state `s` by steps that keep the name, the namespace
and the spec of the resource, set conditions of the types in `T` only, and append
calls, all at call sites from `n` on. -/
structure Evolves (T : List ConditionType) (n : Nat) (s s1 : PassState) : Prop where
  name : s1.inst.Name = s.inst.Name
  ns : s1.inst.Namespace = s.inst.Namespace
  spec : s1.inst.Spec = s.inst.Spec
  conds : SetsOnly T s.inst.conds s1.inst.conds
  trace : ∃ l, s1.trace = s.trace ++ l ∧ ∀ x ∈ l, n ≤ x.rank

/-- The condition types set from the pod step on. -/
def podOn : List ConditionType := [DeploymentReadyCondition]

/-- The condition types set from the job step on. -/
def jobOn : List ConditionType := MariaDBInitializedCondition :: podOn

/-- The condition types set from the configuration step on. -/
def configOn : List ConditionType := ServiceConfigReadyCondition :: jobOn

/-- The condition types set from the service step on. -/
def exposeOn : List ConditionType := ExposeServiceReadyCondition :: configOn

/-- The condition types set from the RBAC step on. -/
def rbacOn : List ConditionType := rbacTypes ++ exposeOn

/-- The sample cluster of `bothDb` before any pass: the TLS secret carries the labels of
its owner only, the CA secret has no label and its update meets a conflict. -/
def envUnlabelled : Env :=
  { sampleEnv bothDb with
    GetSecretTLS := .found certSecret.Labels "n66bh5c8"
    GetSecretCA := .found [] "n7fh9dq"
    UpdateSecretCA := fun _ =>
      some (.status .Conflict "the object has been modified; please apply your changes") }

/-- The error of a create-or-patch, if it failed: at its fetch or later. -/
def CreateOrPatchOutcome.error : CreateOrPatchOutcome → Option Err
  | .getFailed e => some e
  | .failed e => some e
  | .done _ => none

/-- The condition types a pass sets after the initialisation of the status. -/
def passTypes : List ConditionType := ReadyCondition :: rbacOn

/-- The persistent volume claim of `freshDb` does not exist yet. -/
def envPvcCreated : Env :=
  { sampleEnv freshDb with PvcCreateOrPatch := .done .OperationResultCreated }

/-- The status update that follows the initialisation of the conditions fails. -/
def envInitUpdateFails : Env :=
  { sampleEnv freshDb with
    StatusUpdateInit := some (.status .Other "etcdserver: request timed out") }

/-- The create-or-patch of the service is refused. -/
def envServiceFails : Env :=
  { sampleEnv freshDb with
    ServiceCreateOrPatch := .failed (.status .Other "services \"openstack\" is forbidden") }

/-- A resource that redirects to an external database, so that endpoints are built. -/
def redirectDb : MariaDB :=
  { freshDb with Spec := { freshDb.Spec with AdoptionRedirect := { Host := "192.168.25.10" } } }

/-- The create-or-patch of the endpoints is refused. -/
def envEndpointsFails : Env :=
  { sampleEnv redirectDb with
    EndpointsCreateOrPatch := .failed (.status .Other "endpoints \"openstack\" is forbidden") }

/-- The helper cannot be built. -/
def envHelperFails : Env :=
  { sampleEnv freshDb with NewHelper := some (.errorf "failed to build scheme") }

/-- The helper cannot take its snapshot of the resource at exit. -/
def envSetAfterFails : Env :=
  { sampleEnv freshDb with SetAfter := some (.errorf "unable to convert to unstructured") }

/-- The status patch of the sample cluster meets a conflict. -/
def envPatchConflict : Env :=
  { sampleEnv freshDb with
    StatusPatch :=
      some (.status .Conflict "the object has been modified; please apply your changes") }

/-! ## The account rotation protocol (spec, sections 3 and 4.2)

The harness `api/test/helpers/harnesses.go` drives a consumer controller and reads the
finalizers of two accounts.  The consumer side of the protocol (the functions of
`api/v1beta1` that ensure an account and move the finalizer, and the test helpers that
read an account and mark it completed) is not among the source files, so it is modelled
from the spec. -/

/-- Modelled from the spec: a database account object, as far as the harness reads it
(the `MariaDBAccount` type is not among the source files): its finalizers, and whether
it "reports completion". -/
structure Account where
  Finalizers : List String := []
  completed : Bool := false
  deriving DecidableEq, Repr

/-- Modelled from the spec: the accounts of a namespace by name, and the account the
consumer CR references, "exactly one account by name at a time"; no reference once the
CR is deleted (the consumer CR and the API objects are not among the source files). -/
structure Cluster where
  accounts : String → Option Account
  ref : Option String

/-- Modelled from the spec: attaching the finalizer that marks an account "in use by
this CR" (the finalizer helpers are not among the source files). -/
def addFinalizer (fin : String) (a : Account) : Account :=
  if fin ∈ a.Finalizers then a else { a with Finalizers := a.Finalizers ++ [fin] }

/-- Modelled from the spec: removing the finalizer from an account (the finalizer
helpers are not among the source files). -/
def removeFinalizer (fin : String) (a : Account) : Account :=
  { a with Finalizers := a.Finalizers.filter (fun f => f ≠ fin) }

/-- Modelled from the spec: one pass of a consumer controller (the consumer side is not
among the source files).  The referenced account is created if it does not exist and
gains the finalizer at once; the finalizer of every other account is retained until the
referenced account reports completion, and removed then; once the CR is deleted, the
finalizer is removed from every account, whatever its completion state. -/
def consumerReconcile (fin : String) (c : Cluster) : Cluster :=
  match c.ref with
  | none => { c with accounts := fun x => (c.accounts x).map (removeFinalizer fin) }
  | some name =>
    let acct := addFinalizer fin ((c.accounts name).getD {})
    if acct.completed then
      { c with
        accounts := fun x =>
          if x = name then some acct else (c.accounts x).map (removeFinalizer fin) }
    else { c with accounts := fun x => if x = name then some acct else c.accounts x }

/-- Modelled from the spec: the harness's `UpdateAccount`, which changes the account
reference of the CR (the function is supplied by the consumer's test suite). -/
def updateAccount (name : String) (c : Cluster) : Cluster := { c with ref := some name }

/-- Modelled from the spec: the helper `SimulateMariaDBAccountCompleted`, after which
the account "reports completion" (the helper is not among the source files). -/
def simulateCompleted (name : String) (c : Cluster) : Cluster :=
  { c with
    accounts := fun x =>
      if x = name then (c.accounts x).map (fun a => { a with completed := true })
      else c.accounts x }

/-- Modelled from the spec: the harness's `DeleteCR`. -/
def deleteCR (c : Cluster) : Cluster := { c with ref := none }

/-- What the harness polls: whether the finalizers of the account contain the finalizer
(`ContainElement(harness.finalizerName)` on `GetMariaDBAccount(name).Finalizers`). -/
def hasFinalizer (fin name : String) (c : Cluster) : Bool :=
  match c.accounts name with
  | some a => decide (fin ∈ a.Finalizers)
  | none => false

/-- Whether the account exists and reports completion. -/
def isCompleted (name : String) (c : Cluster) : Bool :=
  match c.accounts name with
  | some a => a.completed
  | none => false

/-- The state the harness sets up before each rotation test (`BeforeEach`): the CR
references `some-old-account`, which is completed and carries the finalizer. -/
def rotationStart : Cluster :=
  { accounts := fun x =>
      if x = "some-old-account" then
        some { Finalizers := ["openstack.org/keystone"], completed := true }
      else none
    ref := some "some-old-account" }

/-- The state of a rotation under way: the CR references `new`, which is not completed;
`old` carries the finalizer. -/
structure Rotating (fin old new : String) (c : Cluster) : Prop where
  ref : c.ref = some new
  old : hasFinalizer fin old c = true
  pending : isCompleted new c = false

/-- The state of a rotation that can finish: the CR references `new`, which is
completed. -/
structure Adopted (new : String) (c : Cluster) : Prop where
  ref : c.ref = some new
  done : isCompleted new c = true

/-! ## The RBAC conditions of a resource that has them already -/

/-- What `RbacConditionsSet` does to the condition list: the first entry of the type of
`c` is replaced, and a list without such an entry is left as it is. -/
def Conditions.Replace : Conditions → Condition → Conditions
  | [], _ => []
  | existing :: rest, c =>
    if existing.CondType = c.CondType then c :: rest else existing :: Conditions.Replace rest c

/-- The condition list after the RBAC reconciler has handed its conditions over. -/
def rbacList (reports : List RbacReport) (L : Conditions) : Conditions :=
  reports.foldl (fun L r => L.Replace r.condition) L

/-- The condition types a pass sets after the RBAC step, the overall one included. -/
def laterTypes : List ConditionType := ReadyCondition :: exposeOn

/-- The condition list of the state `s` of a pass that started from the list `L0`: the
list is there (not nil), it is what statements `Set` of later steps made of the list the
RBAC reconciler left, and it holds the conditions `got`. -/
structure Settled (reports : List RbacReport) (L0 : Conditions) (got : List Condition)
    (s : PassState) : Prop where
  init : s.inst.Status.Conditions ≠ none
  stable : SetsOnly laterTypes (rbacList reports L0) s.inst.conds
  got : ∀ c ∈ got, s.inst.conds.Get c.CondType = some c

/-! ## A pass that finds everything in place -/

/-- The resource `F` and the cluster `env` have converged: the conditions of `F` are
those the steps of a pass set when every call succeeds, and every call of `env`
succeeds without a change (the secrets carry the label, the job runner reports no
change for the stored hash, the create-or-patch of the claim and of the pod report
"none"). -/
structure Converged (env : Env) (F : MariaDB) : Prop where
  init : F.Status.Conditions ≠ none
  helper : env.NewHelper = none
  rbacErr : env.ReconcileRbac.err = none
  rbacResult : env.ReconcileRbac.result = {}
  rbacFix :
    env.ReconcileRbac.reports.foldl (fun db r => db.RbacConditionsSet r.condition) F = F
  quantity : env.ParseQuantity F.Spec.StorageRequest = none
  pvc : env.PvcCreateOrPatch = .done .OperationResultNone
  service : env.ServiceCreateOrPatch.error = none
  endpoints : env.Endpoints F = true → env.EndpointsCreateOrPatch.error = none
  expose :
    F.conds.Get ExposeServiceReadyCondition =
      some (TrueCondition ExposeServiceReadyCondition ExposeServiceReadyMessage [])
  configMaps : ∃ hash, env.EnsureConfigMaps = .ok hash
  tls : F.Spec.TLS.SecretName ≠ "" →
    ∃ labels hash, env.GetSecretTLS = .found labels hash ∧
      labels.get? mariaDBReconcileLabel = some F.Name
  ca : F.Spec.TLS.CaSecretName ≠ "" →
    ∃ labels hash, env.GetSecretCA = .found labels hash ∧
      labels.get? mariaDBReconcileLabel = some F.Name
  config :
    F.conds.Get ServiceConfigReadyCondition =
      some (TrueCondition ServiceConfigReadyCondition ServiceConfigReadyMessage [])
  jobResult : (env.DoJob F.Status.DbInitHash).result = {}
  jobErr : (env.DoJob F.Status.DbInitHash).err = none
  jobSame : (env.DoJob F.Status.DbInitHash).HasChanged = false
  initialized :
    F.conds.Get MariaDBInitializedCondition =
      some (TrueCondition MariaDBInitializedCondition MariaDBInitializedReadyMessage [])
  podNone :
    (env.PodCreateOrPatch (mariadb.Pod env.builders F (configHashFor env F))).outcome =
      .done .OperationResultNone
  podPhase :
    (env.PodCreateOrPatch (mariadb.Pod env.builders F (configHashFor env F))).Phase =
        .PodRunning →
      F.conds.Get DeploymentReadyCondition =
        some (TrueCondition DeploymentReadyCondition DeploymentReadyMessage [])
  ready : F.IsReady = true →
    F.conds.Get ReadyCondition = some (TrueCondition ReadyCondition ReadyMessage [])

/-- The calls of a pass over a converged resource, from the job step on. -/
def idleJob (env : Env) (F : MariaDB) : List Step :=
  [Step.DoJob F.Status.DbInitHash,
    Step.PodCreateOrPatch (mariadb.Pod env.builders F (configHashFor env F))]

/-- The calls of a pass over a converged resource, from the secrets on. -/
def idleSecrets (env : Env) (F : MariaDB) : List Step :=
  (if F.Spec.TLS.SecretName ≠ "" then [Step.GetSecretTLS F.Spec.TLS.SecretName] else []) ++
    ((if F.Spec.TLS.CaSecretName ≠ "" then [Step.GetSecretCA F.Spec.TLS.CaSecretName]
      else []) ++ idleJob env F)

/-- The calls of a pass over a converged resource, from the service on. -/
def idleExpose (env : Env) (F : MariaDB) : List Step :=
  Step.ServiceCreateOrPatch ::
    ((if env.Endpoints F then [Step.EndpointsCreateOrPatch] else []) ++
      Step.EnsureConfigMaps :: idleSecrets env F)

/-- The calls of a pass over a converged resource: fetches and create-or-patch calls
that change nothing, no update and no patch. -/
def idleTrace (env : Env) (F : MariaDB) : List Step :=
  Step.Get :: Step.NewHelper :: Step.ReconcileRbac :: Step.PvcCreateOrPatch ::
    (idleExpose env F ++ [Step.SetAfter])

/-- The calls that write to an object whatever they are given: the update of a secret,
the update of the status, the patch of the status. -/
def Step.isWrite : Step → Bool
  | .StatusUpdateInit _ => true
  | .UpdateSecretTLS _ => true
  | .UpdateSecretCA _ => true
  | .StatusUpdateJob _ => true
  | .StatusPatch _ => true
  | _ => false

/-- The answer of the fetch of a secret once the labelling step has been over the secret
for the resource `name`. -/
def GetSecretOutcome.labelled (name : String) : GetSecretOutcome → GetSecretOutcome
  | .failed e => .failed e
  | .found labels hash =>
    .found (labelledSecret name { Name := "", Namespace := "", Labels := labels }).Labels hash

/-- The cluster as a pass of `env` leaves it, seen by the next pass: the fetch returns
the resource the pass ended with (what the cluster holds once the status patch of the
deferred function has gone through), the secrets carry the label the pass gave them,
and every other call answers as before.  The next pass ranges over its map of env
setters in an order of its own, `rank`: Go fixes no order between two ranges. -/
def nextPass (env : Env) (rank : String → Nat) : Env :=
  { env with
    Get := .ok (Reconcile env).2.inst
    GetSecretTLS := env.GetSecretTLS.labelled (Reconcile env).2.inst.Name
    GetSecretCA := env.GetSecretCA.labelled (Reconcile env).2.inst.Name
    mapRank := rank }

/-- The state `s` of a pass that started from the resource `b` and goes through: the
condition list is settled, the name, namespace and spec are those of `b`, and no call
at the pod or later has been issued. -/
structure Along (reports : List RbacReport) (got : List Condition) (b : MariaDB)
    (s : PassState) : Prop where
  settled : Settled reports b.conds got s
  name : s.inst.Name = b.Name
  ns : s.inst.Namespace = b.Namespace
  spec : s.inst.Spec = b.Spec
  below : ∀ x ∈ s.trace, x.rank < 14

/-- The sample cluster of `bothDb` before any pass: the secrets exist and do not carry
the label yet, every other object is in place. -/
def envFirst : Env :=
  { sampleEnv bothDb with
    GetSecretTLS := .found certSecret.Labels "n66bh5c8"
    GetSecretCA := .found [] "n7fh9dq" }

/-- The cluster of `envFirst` with a pod that runs under the configuration hash
`n7fh9dqn66bh5c8n5d4h64fh`: the create-or-patch of a pod with that hash changes nothing,
and with another hash it updates the pod, which is then pending. -/
def envRunning : Env :=
  { envFirst with
    PodCreateOrPatch := fun pod =>
      if pod.env "CONFIG_HASH" = some "n7fh9dqn66bh5c8n5d4h64fh" then
        { outcome := .done .OperationResultNone, Phase := .PodRunning }
      else { outcome := .done .OperationResultUpdated, Phase := .PodPending } }

/-- An order of the map range other than that of the sample clusters: longer names
first. -/
def longestFirst (name : String) : Nat := 100 - name.length

/-- An order of the map range that is that of the sample clusters on every map. -/
def shortestFirst (name : String) : Nat := 2 * name.length

/-! # Theorems -/

/-! ## Reading a condition list after `Set` -/

theorem Conditions.Get_Set_same (cs : Conditions) (c : Condition) :
    (cs.Set c).Get c.CondType = some c := by
  induction cs with
  | nil => simp [Conditions.Set, Conditions.Get]
  | cons e rest ih =>
    unfold Conditions.Set
    by_cases h : e.CondType = c.CondType
    · simp [h, Conditions.Get]
    · simp only [h, if_false]
      unfold Conditions.Get at ih ⊢
      simp [List.find?, h, ih]

theorem Conditions.Get_Set_other (cs : Conditions) (c : Condition) (t : ConditionType)
    (h : c.CondType ≠ t) : (cs.Set c).Get t = cs.Get t := by
  induction cs with
  | nil => simp [Conditions.Set, Conditions.Get, h]
  | cons e rest ih =>
    unfold Conditions.Set
    by_cases he : e.CondType = c.CondType
    · have : e.CondType ≠ t := by rw [he]; exact h
      simp [he, Conditions.Get, List.find?, h]
    · simp only [he, if_false]
      unfold Conditions.Get at ih ⊢
      by_cases het : e.CondType = t
      · simp [List.find?, het]
      · simp [List.find?, het, ih]

theorem Conditions.IsTrue_Set_same (cs : Conditions) (c : Condition) :
    (cs.Set c).IsTrue c.CondType = decide (c.Status = ConditionTrue) := by
  simp [Conditions.IsTrue, Conditions.Get_Set_same]

theorem Conditions.IsTrue_Set_other (cs : Conditions) (c : Condition) (t : ConditionType)
    (h : c.CondType ≠ t) : (cs.Set c).IsTrue t = cs.IsTrue t := by
  simp [Conditions.IsTrue, Conditions.Get_Set_other cs c t h]

@[simp] theorem MariaDB.conds_withConds (db : MariaDB) (cs : Conditions) :
    (db.withConds cs).conds = cs := rfl

theorem Keeps.mono {T T1 : List ConditionType} {n n1 : Nat} {b : MariaDB} {s : PassState}
    (h : Keeps T n b s) (hT : T ⊆ T1) (hn : n ≤ n1) : Keeps T1 n1 b s :=
  { name := h.name, ns := h.ns, spec := h.spec, hash := h.hash
    conds := fun t ht => h.conds t (fun hmem => ht (hT hmem))
    sorted := h.sorted
    below := fun x hx => lt_of_lt_of_le (h.below x hx) hn }

theorem Keeps.log {T : List ConditionType} {n : Nat} {b : MariaDB} {s : PassState}
    (h : Keeps T n b s) (x : Step) (hx : n ≤ x.rank) : Keeps T (x.rank + 1) b (s.log x) :=
  { name := h.name, ns := h.ns, spec := h.spec, hash := h.hash, conds := h.conds
    sorted := by
      simp only [PassState.log, List.map_append, List.map_cons, List.map_nil]
      rw [List.pairwise_append]
      refine ⟨h.sorted, by simp, ?_⟩
      intro a ha c hc
      simp only [List.mem_singleton] at hc
      obtain ⟨y, hy, rfl⟩ := List.mem_map.mp ha
      rw [hc]
      exact lt_of_lt_of_le (h.below y hy) hx
    below := by
      intro y hy
      simp only [PassState.log, List.mem_append, List.mem_singleton] at hy
      rcases hy with hy | rfl
      · exact lt_of_lt_of_le (h.below y hy) (by omega)
      · omega }

theorem Keeps.Set {T : List ConditionType} {n : Nat} {b : MariaDB} {s : PassState}
    (h : Keeps T n b s) (c : Condition) (hc : c.CondType ∈ T) : Keeps T n b (s.Set c) :=
  { name := h.name, ns := h.ns, spec := h.spec, hash := h.hash
    conds := by
      intro t ht
      have hne : c.CondType ≠ t := fun heq => ht (heq ▸ hc)
      simp only [PassState.Set, MariaDB.conds_withConds]
      rw [Conditions.Get_Set_other _ _ _ hne]
      exact h.conds t ht
    sorted := h.sorted
    below := h.below }

theorem Keeps.MarkTrue {T : List ConditionType} {n : Nat} {b : MariaDB} {s : PassState}
    (h : Keeps T n b s) (t : ConditionType) (format : MessageFormat) (ht : t ∈ T) :
    Keeps T n b (s.MarkTrue t format) :=
  h.Set (TrueCondition t format []) ht

/-! ## The steps, one at a time: a step stops the pass or hands over to the next -/

theorem RbacObject.conditionType_mem (o : RbacObject) : o.conditionType ∈ rbacTypes := by
  cases o <;> simp [RbacObject.conditionType, rbacTypes]

theorem Keeps.rbacFold {T : List ConditionType} {n : Nat} {b : MariaDB} (hT : rbacTypes ⊆ T)
    (reports : List RbacReport) :
    ∀ s : PassState, Keeps T n b s →
      Keeps T n b
        { s with inst := reports.foldl (fun db r => db.RbacConditionsSet r.condition) s.inst } := by
  induction reports with
  | nil => intro s h; exact h
  | cons r rest ih =>
    intro s h
    simp only [List.foldl_cons]
    have h1 : Keeps T n b { s with inst := s.inst.RbacConditionsSet r.condition } := by
      unfold MariaDB.RbacConditionsSet
      split
      · exact h.Set r.condition (hT (RbacObject.conditionType_mem r.object))
      · exact h
    exact ih _ h1

theorem pvcStep_cases (env : Env) {T : List ConditionType} {b : MariaDB} {s : PassState}
    (h : Keeps T 4 b s) :
    (∀ x ∈ (pvcStep env s).2.trace, x.rank < 5) ∨
      ∃ s1, pvcStep env s = serviceStep env s1 ∧ Keeps T 5 b s1 ∧
        env.ParseQuantity s.inst.Spec.StorageRequest = none ∧
        env.PvcCreateOrPatch = .done .OperationResultNone := by
  have hl := h.log Step.PvcCreateOrPatch (le_refl _)
  unfold pvcStep
  simp only []
  split
  · exact Or.inl hl.below
  · split
    · exact Or.inl hl.below
    · exact Or.inl hl.below
  · split
    · exact Or.inl hl.below
    · split
      · exact Or.inl hl.below
      · rename_i op _ _ hq hop
        refine Or.inr ⟨_, rfl, hl, hq, ?_⟩
        simp only [ne_eq, Decidable.not_not] at hop
        simp_all

theorem rbacStep_cases (env : Env) {T : List ConditionType} {b : MariaDB} {s : PassState}
    (h : Keeps T 3 b s) (hT : rbacTypes ⊆ T) :
    (∀ x ∈ (rbacStep env s).2.trace, x.rank < 4) ∨
      ∃ s1, rbacStep env s = pvcStep env s1 ∧ Keeps T 4 b s1 := by
  have hl := Keeps.rbacFold hT env.ReconcileRbac.reports _ (h.log Step.ReconcileRbac (le_refl _))
  unfold rbacStep
  simp only []
  split
  · exact Or.inl hl.below
  · split
    · exact Or.inl hl.below
    · exact Or.inr ⟨_, rfl, hl⟩

theorem exposeError_below {T : List ConditionType} {n : Nat} {b : MariaDB} {s : PassState}
    (h : Keeps T n b s) (e : Err) : ∀ x ∈ (exposeError s e).2.trace, x.rank < n :=
  h.below

theorem serviceStep_cases (env : Env) {T : List ConditionType} {b : MariaDB} {s : PassState}
    (h : Keeps T 5 b s) :
    (∀ x ∈ (serviceStep env s).2.trace, x.rank < 6) ∨
      ∃ s1, serviceStep env s = endpointsStep env s1 ∧ Keeps T 6 b s1 := by
  have hl := h.log Step.ServiceCreateOrPatch (le_refl _)
  unfold serviceStep
  simp only []
  split
  · exact Or.inl (exposeError_below hl _)
  · exact Or.inl (exposeError_below hl _)
  · exact Or.inr ⟨_, rfl, hl⟩

theorem endpointsStep_cases (env : Env) {T : List ConditionType} {b : MariaDB} {s : PassState}
    (h : Keeps T 6 b s) (hT : ExposeServiceReadyCondition ∈ T) :
    (∀ x ∈ (endpointsStep env s).2.trace, x.rank < 7) ∨
      ∃ s1, endpointsStep env s = configStep env s1 ∧ Keeps T 7 b s1 := by
  have hl := h.log Step.EndpointsCreateOrPatch (le_refl _)
  unfold endpointsStep
  split
  · simp only []
    split
    · exact Or.inl (exposeError_below hl _)
    · exact Or.inl (exposeError_below hl _)
    · exact Or.inr ⟨_, rfl, hl.MarkTrue _ _ hT⟩
  · exact Or.inr ⟨_, rfl, (h.mono (List.Subset.refl _) (by omega)).MarkTrue _ _ hT⟩

theorem configStep_cases (env : Env) {T : List ConditionType} {b : MariaDB} {s : PassState}
    (h : Keeps T 7 b s) :
    (∀ x ∈ (configStep env s).2.trace, x.rank < 8) ∨
      ∃ s1, configStep env s = tlsStep env s1 (cmVars env b) ∧ Keeps T 8 b s1 := by
  have hl := h.log Step.EnsureConfigMaps (le_refl _)
  unfold configStep cmVars
  simp only []
  split
  · exact Or.inl hl.below
  · rename_i hash hok
    refine Or.inr ⟨_, ?_, hl⟩
    simp only [PassState.log, h.name, hok]

theorem labelSecret_keeps (update : Secret → Option Err) (call : Secret → Step) (m : Nat)
    (hcall : ∀ x, (call x).rank = m) {T : List ConditionType} {n : Nat} {b : MariaDB}
    {s : PassState} (h : Keeps T n b s) (hn : n ≤ m) (secret : Secret) :
    Keeps T (m + 1) b (labelSecret update call s secret).2 := by
  have hl : ∀ x, Keeps T (m + 1) b (s.log (call x)) := by
    intro x
    have := h.log (call x) (by rw [hcall]; exact hn)
    rwa [hcall] at this
  unfold labelSecret
  split
  · simp only []
    split
    · split
      · exact hl _
      · exact hl _
    · exact hl _
  · exact h.mono (List.Subset.refl _) (by omega)

theorem tlsStep_cases (env : Env) {T : List ConditionType} {b : MariaDB} {s : PassState}
    (h : Keeps T 8 b s) :
    (∀ x ∈ (tlsStep env s (cmVars env b)).2.trace, x.rank < 10) ∨
      ∃ s1, tlsStep env s (cmVars env b) = caStep env s1 (tlsVars env b) ∧ Keeps T 10 b s1 := by
  have hl := h.log (Step.GetSecretTLS s.inst.Spec.TLS.SecretName) (le_refl _)
  have hl10 := hl.mono (List.Subset.refl _) (show 8 + 1 ≤ 10 by omega)
  unfold tlsStep tlsVars
  rw [← h.spec]
  split
  · simp only []
    split
    · split
      · exact Or.inl hl10.below
      · exact Or.inl hl10.below
    · rename_i labels tlsHash hfound
      have hk := labelSecret_keeps env.UpdateSecretTLS Step.UpdateSecretTLS 9 (fun _ => rfl) hl
        (le_refl _)
        { Name := s.inst.Spec.TLS.SecretName, Namespace := s.inst.Namespace, Labels := labels }
      split
      · rename_i r s2 heq
        have hk2 : Keeps T 10 b s2 := (congrArg (Keeps T 10 b) (congrArg Prod.snd heq)).mp hk
        exact Or.inl hk2.below
      · rename_i s2 heq
        have hk2 : Keeps T 10 b s2 := (congrArg (Keeps T 10 b) (congrArg Prod.snd heq)).mp hk
        refine Or.inr ⟨s2, ?_, hk2⟩
        simp only [hfound, PassState.log]
  · exact Or.inr ⟨s, rfl, h.mono (List.Subset.refl _) (by omega)⟩

theorem caStep_cases (env : Env) {T : List ConditionType} {b : MariaDB} {s : PassState}
    (h : Keeps T 10 b s) :
    (∀ x ∈ (caStep env s (tlsVars env b)).2.trace, x.rank < 12) ∨
      ∃ s1, caStep env s (tlsVars env b) = hashStep env s1 (configMapVarsOf env b) ∧
        Keeps T 12 b s1 := by
  have hl := h.log (Step.GetSecretCA s.inst.Spec.TLS.CaSecretName) (le_refl _)
  have hl12 := hl.mono (List.Subset.refl _) (show 10 + 1 ≤ 12 by omega)
  unfold caStep configMapVarsOf
  rw [← h.spec]
  split
  · simp only []
    split
    · split
      · exact Or.inl hl12.below
      · exact Or.inl hl12.below
    · rename_i labels caHash hfound
      have hk := labelSecret_keeps env.UpdateSecretCA Step.UpdateSecretCA 11 (fun _ => rfl) hl
        (le_refl _)
        { Name := s.inst.Spec.TLS.CaSecretName, Namespace := s.inst.Namespace, Labels := labels }
      split
      · rename_i r s2 heq
        have hk2 : Keeps T 12 b s2 := (congrArg (Keeps T 12 b) (congrArg Prod.snd heq)).mp hk
        exact Or.inl hk2.below
      · rename_i s2 heq
        have hk2 : Keeps T 12 b s2 := (congrArg (Keeps T 12 b) (congrArg Prod.snd heq)).mp hk
        refine Or.inr ⟨s2, ?_, hk2⟩
        simp only [hfound, PassState.log]
  · exact Or.inr ⟨s, rfl, h.mono (List.Subset.refl _) (by omega)⟩

theorem hashStep_eq (env : Env) (b : MariaDB) (s : PassState) :
    hashStep env s (configMapVarsOf env b) =
      jobStep env (s.MarkTrue ServiceConfigReadyCondition ServiceConfigReadyMessage)
        (configHashFor env b) := rfl

theorem jobStep_cases (env : Env) {T : List ConditionType} {b : MariaDB} {s : PassState}
    (configHash : String) (h : Keeps T 12 b s) (hT : MariaDBInitializedCondition ∈ T) :
    (∀ x ∈ (jobStep env s configHash).2.trace, x.rank < 14) ∨
      ∃ s1, jobStep env s configHash = podStep env s1 configHash ∧
        Keeps T 14 (jobResource env b) s1 ∧
        (env.DoJob b.Status.DbInitHash).result = {} ∧
        (env.DoJob b.Status.DbInitHash).err = none := by
  have hl := h.log (Step.DoJob s.inst.Status.DbInitHash) (le_refl _)
  have hl14 := hl.mono (List.Subset.refl _) (show 12 + 1 ≤ 14 by omega)
  have hh := h.hash
  unfold jobStep
  simp only []
  split
  · exact Or.inl (hl14.Set _ hT).below
  · rename_i hres
    split
    · exact Or.inl (hl14.Set _ hT).below
    · rename_i herr
      simp only [ne_eq, Decidable.not_not] at hres
      rw [hh] at hres herr
      split
      · rename_i hch
        rw [hh] at hch
        have hk : Keeps T 13 (jobResource env b)
            { inst := { s.inst with
                Status := { s.inst.Status with
                  DbInitHash := (env.DoJob s.inst.Status.DbInitHash).GetHash } },
              trace := s.trace ++ [Step.DoJob s.inst.Status.DbInitHash] } :=
          { name := by simp [jobResource, hch, h.name]
            ns := by simp [jobResource, hch, h.ns]
            spec := by simp [jobResource, hch, h.spec]
            hash := by simp [jobResource, hch, hh]
            conds := by
              intro t ht
              have := h.conds t ht
              simpa [jobResource, hch, MariaDB.conds] using this
            sorted := hl.sorted
            below := hl.below }
        have hu := hk.log (Step.StatusUpdateJob { s.inst.Status with
                  DbInitHash := (env.DoJob s.inst.Status.DbInitHash).GetHash }) (le_refl _)
        split
        · exact Or.inl hu.below
        · exact Or.inr ⟨_, rfl, hu.MarkTrue _ _ hT, hres, herr⟩
      · rename_i hch
        rw [hh] at hch
        have hb : jobResource env b = b := by simp [jobResource, hch]
        rw [hb]
        exact Or.inr ⟨_, rfl, hl14.MarkTrue _ _ hT, hres, herr⟩

theorem podStep_below (env : Env) {T : List ConditionType} {b : MariaDB} {s : PassState}
    (configHash : String) (h : Keeps T 14 b s) :
    ∀ x ∈ (podStep env s configHash).2.trace, x.rank < 15 := by
  have hl := h.log (Step.PodCreateOrPatch (mariadb.Pod env.builders s.inst configHash))
    (le_refl _)
  unfold podStep
  simp only []
  split
  · exact hl.below
  · exact hl.below
  · split <;> split <;> exact hl.below

/-! ## The deferred function -/

theorem deferredStatus_inst (env : Env) (before : MariaDB) (s : PassState) :
    (deferredStatus env before s).inst =
      if s.inst.IsReady then (s.MarkTrue ReadyCondition ReadyMessage).inst else s.inst := by
  unfold deferredStatus
  simp only []
  split <;> split <;> rfl

theorem deferredStatus_Get (env : Env) (before : MariaDB) (s : PassState) (t : ConditionType)
    (ht : ReadyCondition ≠ t) :
    (deferredStatus env before s).inst.conds.Get t = s.inst.conds.Get t := by
  rw [deferredStatus_inst]
  split
  · simp only [PassState.MarkTrue, MariaDB.conds_withConds, Conditions.MarkTrue]
    exact Conditions.Get_Set_other _ _ _ ht
  · rfl

theorem deferredStatus_hash (env : Env) (before : MariaDB) (s : PassState) :
    (deferredStatus env before s).inst.Status.DbInitHash = s.inst.Status.DbInitHash := by
  rw [deferredStatus_inst]
  split <;> rfl

theorem deferredStatus_trace (env : Env) (before : MariaDB) (s : PassState) :
    ∃ l, (deferredStatus env before s).trace = s.trace ++ Step.SetAfter :: l ∧
      ∀ x ∈ l, ∃ st, x = Step.StatusPatch st := by
  unfold deferredStatus
  simp only []
  split <;> split
  · exact ⟨[Step.StatusPatch ((s.MarkTrue ReadyCondition ReadyMessage).log Step.SetAfter).inst.Status],
      by simp [PassState.log, PassState.MarkTrue], by simp⟩
  · exact ⟨[], by simp [PassState.log, PassState.MarkTrue], by simp⟩
  · exact ⟨[Step.StatusPatch (s.log Step.SetAfter).inst.Status], by simp [PassState.log], by simp⟩
  · exact ⟨[], by simp [PassState.log], by simp⟩

theorem deferredStatus_mem (env : Env) (before : MariaDB) (s : PassState) (x : Step)
    (hx : x ∈ (deferredStatus env before s).trace) : x ∈ s.trace ∨ 15 ≤ x.rank := by
  obtain ⟨l, hl, hp⟩ := deferredStatus_trace env before s
  rw [hl] at hx
  simp only [List.mem_append, List.mem_cons] at hx
  rcases hx with hx | rfl | hx
  · exact Or.inl hx
  · exact Or.inr (by simp [Step.rank])
  · obtain ⟨st, rfl⟩ := hp x hx
    exact Or.inr (by simp [Step.rank])

/-- The overall condition after the deferred function: Ready is marked True as soon as
DeploymentReady reads True. -/
theorem deferredStatus_ready (env : Env) (before : MariaDB) (s : PassState)
    (h : (deferredStatus env before s).inst.conds.IsTrue DeploymentReadyCondition = true) :
    (deferredStatus env before s).inst.conds.IsTrue ReadyCondition = true := by
  have hd : s.inst.conds.IsTrue DeploymentReadyCondition = true := by
    have := deferredStatus_Get env before s DeploymentReadyCondition (by decide)
    simpa [Conditions.IsTrue, this] using h
  rw [deferredStatus_inst]
  have hr : s.inst.IsReady = true := hd
  simp only [hr, if_true, PassState.MarkTrue, MariaDB.conds_withConds, Conditions.MarkTrue]
  have := Conditions.IsTrue_Set_same s.inst.conds (TrueCondition ReadyCondition ReadyMessage [])
  simpa [TrueCondition] using this

/-! ## How far a pass gets -/

theorem Reach.next {env : Env} {n m : Nat} {f g : MariaDB → PassState → Outcome}
    {K K1 : MariaDB → PassState → Prop} (h : Reach env n f K) (hnm : n ≤ m)
    (hstep : ∀ b s, K b s →
      (∀ x ∈ (f b s).2.trace, x.rank < m) ∨ ∃ s1, f b s = g b s1 ∧ K1 b s1) :
    Reach env m g K1 := by
  rcases h with h | ⟨inst0, s, hget, heq, hK⟩
  · left
    intro x hx
    rcases h x hx with h1 | h1
    · exact Or.inl (by omega)
    · exact Or.inr h1
  · rcases hstep _ s hK with hstop | ⟨s1, hfg, hK1⟩
    · left
      intro x hx
      rw [heq] at hx
      rcases deferredStatus_mem env _ _ x hx with h1 | h1
      · exact Or.inl (hstop x h1)
      · exact Or.inr h1
    · right
      exact ⟨inst0, s1, hget, by rw [heq, hfg], hK1⟩

theorem Reach.of_mem {env : Env} {n : Nat} {f : MariaDB → PassState → Outcome}
    {K : MariaDB → PassState → Prop} (h : Reach env n f K) (x : Step)
    (hx : x ∈ (Reconcile env).2.trace) (h1 : n ≤ x.rank) (h2 : x.rank < 15) :
    ∃ inst0 s, env.Get = .ok inst0 ∧
      Reconcile env = finish env (afterInit inst0) (f (afterInit inst0) s) ∧
      K (afterInit inst0) s := by
  rcases h with h | h
  · rcases h x hx with h3 | h3 <;> omega
  · exact h

theorem keeps_start (inst : MariaDB) (trace : List Step)
    (hs : (trace.map Step.rank).Pairwise (· < ·)) (hb : ∀ x ∈ trace, x.rank < 3) :
    Keeps [] 3 inst { inst := inst, trace := trace } :=
  { name := rfl, ns := rfl, spec := rfl, hash := rfl, conds := fun _ _ => rfl
    sorted := hs, below := hb }

theorem Reconcile_cases (env : Env) :
    (∀ x ∈ (Reconcile env).2.trace, x.rank < 3) ∨
      ∃ inst0 s, env.Get = .ok inst0 ∧
        Reconcile env = finish env (afterInit inst0) (rbacStep env s) ∧
        Keeps [] 3 (afterInit inst0) s ∧ s.inst = afterInit inst0 := by
  unfold Reconcile
  cases hget : env.Get with
  | error e =>
    left
    simp only []
    split <;> simp [Step.rank]
  | ok inst =>
    simp only [initStep, helperStep]
    split
    · rename_i hc
      have ha : afterInit inst = inst.withConds (Conditions.Init [] initialConditions) := by
        simp [afterInit, hc]
      split
      · left; simp [PassState.log, Step.rank]
      · split
        · left; simp [PassState.log, Step.rank]
        · right
          refine ⟨inst,
            { inst := inst.withConds (Conditions.Init [] initialConditions),
              trace := [Step.Get,
                Step.StatusUpdateInit (inst.withConds (Conditions.Init [] initialConditions)).Status,
                Step.NewHelper] }, rfl, ?_, ?_, ?_⟩
          · rw [ha]; rfl
          · rw [ha]
            exact keeps_start _ _ (by simp [Step.rank]) (by simp [Step.rank])
          · rw [ha]
    · rename_i hc
      have ha : afterInit inst = inst := by simp [afterInit, hc]
      split
      · left; simp [PassState.log, Step.rank]
      · right
        refine ⟨inst, { inst := inst, trace := [Step.Get, Step.NewHelper] }, rfl, ?_, ?_, ?_⟩
        · rw [ha]; rfl
        · rw [ha]
          exact keeps_start _ _ (by simp [Step.rank]) (by simp [Step.rank])
        · rw [ha]

theorem reach_rbac (env : Env) :
    Reach env 3 (fun _ s => rbacStep env s) (fun b s => Keeps [] 3 b s ∧ s.inst = b) := by
  rcases Reconcile_cases env with h | h
  · exact Or.inl (fun x hx => Or.inl (h x hx))
  · exact Or.inr h

theorem rbacTypes_sub_expose : rbacTypes ⊆ exposeTypes := List.subset_cons_of_subset _ (List.Subset.refl _)

theorem exposeTypes_sub_config : exposeTypes ⊆ configTypes :=
  List.subset_cons_of_subset _ (List.Subset.refl _)

theorem configTypes_sub_job : configTypes ⊆ jobTypes :=
  List.subset_cons_of_subset _ (List.Subset.refl _)

theorem reach_pvc (env : Env) :
    Reach env 4 (fun _ s => pvcStep env s) (fun b s => Keeps rbacTypes 4 b s) :=
  (reach_rbac env).next (by omega) (fun _ _ hK =>
    rbacStep_cases env (hK.1.mono (List.nil_subset _) (le_refl _)) (List.Subset.refl _))

theorem reach_service (env : Env) :
    Reach env 5 (fun _ s => serviceStep env s)
      (fun b s => Keeps rbacTypes 5 b s ∧ env.ParseQuantity b.Spec.StorageRequest = none ∧
        env.PvcCreateOrPatch = .done .OperationResultNone) :=
  (reach_pvc env).next (by omega) (fun b s hK => by
    rcases pvcStep_cases env hK with h | ⟨s1, h1, h2, h3, h4⟩
    · exact Or.inl h
    · exact Or.inr ⟨s1, h1, h2, by rw [← hK.spec]; exact h3, h4⟩)

theorem reach_endpoints (env : Env) :
    Reach env 6 (fun _ s => endpointsStep env s) (fun b s => Keeps rbacTypes 6 b s) :=
  (reach_service env).next (by omega) (fun _ _ hK => serviceStep_cases env hK.1)

theorem reach_config (env : Env) :
    Reach env 7 (fun _ s => configStep env s) (fun b s => Keeps exposeTypes 7 b s) :=
  (reach_endpoints env).next (by omega) (fun _ _ hK =>
    endpointsStep_cases env (hK.mono rbacTypes_sub_expose (le_refl _))
      (List.mem_cons_self _ _))

theorem reach_tls (env : Env) :
    Reach env 8 (fun b s => tlsStep env s (cmVars env b)) (fun b s => Keeps exposeTypes 8 b s) :=
  (reach_config env).next (by omega) (fun _ _ hK => configStep_cases env hK)

theorem reach_ca (env : Env) :
    Reach env 10 (fun b s => caStep env s (tlsVars env b)) (fun b s => Keeps exposeTypes 10 b s) :=
  (reach_tls env).next (by omega) (fun _ _ hK => tlsStep_cases env hK)

theorem reach_job (env : Env) :
    Reach env 12 (fun b s => jobStep env s (configHashFor env b))
      (fun b s => Keeps configTypes 12 b s) :=
  (reach_ca env).next (by omega) (fun b s hK => by
    rcases caStep_cases env hK with h | ⟨s1, h1, h2⟩
    · exact Or.inl h
    · refine Or.inr ⟨_, by rw [h1, hashStep_eq], ?_⟩
      exact (h2.mono exposeTypes_sub_config (le_refl _)).MarkTrue _ _ (List.mem_cons_self _ _))

theorem reach_pod (env : Env) :
    Reach env 14 (fun b s => podStep env s (configHashFor env b))
      (fun b s => Keeps jobTypes 14 (jobResource env b) s ∧
        (env.DoJob b.Status.DbInitHash).result = {} ∧
        (env.DoJob b.Status.DbInitHash).err = none) :=
  (reach_job env).next (by omega) (fun _ _ hK =>
    jobStep_cases env _ (hK.mono configTypes_sub_job (le_refl _)) (List.mem_cons_self _ _))

/-! ## The calls a step adds -/

@[simp] theorem PassState.mem_log (s : PassState) (x y : Step) :
    x ∈ (s.log y).trace ↔ x ∈ s.trace ∨ x = y := by
  simp [PassState.log]

@[simp] theorem PassState.trace_Set (s : PassState) (c : Condition) :
    (s.Set c).trace = s.trace := rfl

@[simp] theorem PassState.trace_MarkTrue (s : PassState) (t : ConditionType)
    (format : MessageFormat) : (s.MarkTrue t format).trace = s.trace := rfl

theorem podStep_trace (env : Env) (s : PassState) (configHash : String) :
    (podStep env s configHash).2.trace =
      s.trace ++ [Step.PodCreateOrPatch (mariadb.Pod env.builders s.inst configHash)] := by
  unfold podStep
  simp only []
  split
  · rfl
  · rfl
  · split <;> split <;> rfl

theorem podStep_adds (env : Env) (s : PassState) (configHash : String) :
    ∀ x ∈ (podStep env s configHash).2.trace, x ∈ s.trace ∨ 14 ≤ x.rank := by
  intro x hx
  rw [podStep_trace] at hx
  simp only [List.mem_append, List.mem_singleton] at hx
  rcases hx with hx | rfl
  · exact Or.inl hx
  · exact Or.inr (le_refl _)

theorem jobStep_adds (env : Env) (s : PassState) (configHash : String) :
    ∀ x ∈ (jobStep env s configHash).2.trace, x ∈ s.trace ∨ 12 ≤ x.rank := by
  intro x
  unfold jobStep
  simp only []
  split
  · simp only [PassState.trace_Set, PassState.mem_log]
    rintro (h | rfl)
    · exact Or.inl h
    · exact Or.inr (le_refl _)
  · split
    · simp only [PassState.trace_Set, PassState.mem_log]
      rintro (h | rfl)
      · exact Or.inl h
      · exact Or.inr (le_refl _)
    · split
      · split
        · simp only [PassState.mem_log]
          rintro ((h | rfl) | rfl)
          · exact Or.inl h
          · exact Or.inr (le_refl _)
          · exact Or.inr (by simp [Step.rank])
        · intro hx
          rcases podStep_adds env _ _ x hx with h | h
          · simp only [PassState.trace_MarkTrue, PassState.mem_log] at h
            rcases h with (h | rfl) | rfl
            · exact Or.inl h
            · exact Or.inr (le_refl _)
            · exact Or.inr (by simp [Step.rank])
          · exact Or.inr (by omega)
      · intro hx
        rcases podStep_adds env _ _ x hx with h | h
        · simp only [PassState.trace_MarkTrue, PassState.mem_log] at h
          rcases h with h | rfl
          · exact Or.inl h
          · exact Or.inr (le_refl _)
        · exact Or.inr (by omega)

theorem hashStep_adds (env : Env) (s : PassState) (configMapVars : StrMap) :
    ∀ x ∈ (hashStep env s configMapVars).2.trace, x ∈ s.trace ∨ 12 ≤ x.rank := by
  intro x hx
  have hx2 : x ∈ (jobStep env (s.MarkTrue ServiceConfigReadyCondition ServiceConfigReadyMessage)
      (configHashOf (MergeEnvs env.mapRank [] configMapVars))).2.trace := hx
  have h := jobStep_adds env _ _ x hx2
  simpa using h

theorem labelSecret_adds (update : Secret → Option Err) (call : Secret → Step) (m : Nat)
    (hcall : ∀ y, (call y).rank = m) (s : PassState) (secret : Secret) :
    ∀ x ∈ (labelSecret update call s secret).2.trace, x ∈ s.trace ∨ m ≤ x.rank := by
  intro x
  unfold labelSecret
  split
  · simp only []
    split
    · split <;>
      · simp only [PassState.mem_log]
        rintro (h | rfl)
        · exact Or.inl h
        · exact Or.inr (by rw [hcall])
    · simp only [PassState.mem_log]
      rintro (h | rfl)
      · exact Or.inl h
      · exact Or.inr (by rw [hcall])
  · exact fun h => Or.inl h

theorem caStep_adds (env : Env) (s : PassState) (configMapVars : StrMap) :
    ∀ x ∈ (caStep env s configMapVars).2.trace, x ∈ s.trace ∨ 10 ≤ x.rank := by
  intro x
  unfold caStep
  split
  · simp only []
    split
    · split <;>
      · simp only [PassState.mem_log]
        rintro (h | rfl)
        · exact Or.inl h
        · exact Or.inr (le_refl _)
    · rename_i labels caHash hfound
      have hlab := labelSecret_adds env.UpdateSecretCA Step.UpdateSecretCA 11 (fun _ => rfl)
        (s.log (Step.GetSecretCA s.inst.Spec.TLS.CaSecretName))
        { Name := s.inst.Spec.TLS.CaSecretName, Namespace := s.inst.Namespace, Labels := labels }
      have hbase : ∀ y, y ∈ (labelSecret env.UpdateSecretCA Step.UpdateSecretCA
          (s.log (Step.GetSecretCA s.inst.Spec.TLS.CaSecretName))
          { Name := s.inst.Spec.TLS.CaSecretName, Namespace := s.inst.Namespace,
            Labels := labels }).2.trace → y ∈ s.trace ∨ 10 ≤ y.rank := by
        intro y hy
        rcases hlab y hy with h | h
        · simp only [PassState.mem_log] at h
          rcases h with h | rfl
          · exact Or.inl h
          · exact Or.inr (le_refl _)
        · exact Or.inr (by omega)
      split
      · rename_i r s2 heq
        have hs2 : (labelSecret env.UpdateSecretCA Step.UpdateSecretCA
            (s.log (Step.GetSecretCA s.inst.Spec.TLS.CaSecretName))
            { Name := s.inst.Spec.TLS.CaSecretName, Namespace := s.inst.Namespace,
              Labels := labels }).2 = s2 := congrArg Prod.snd heq
        intro hx
        exact hbase x (by rw [hs2]; exact hx)
      · rename_i s2 heq
        have hs2 : (labelSecret env.UpdateSecretCA Step.UpdateSecretCA
            (s.log (Step.GetSecretCA s.inst.Spec.TLS.CaSecretName))
            { Name := s.inst.Spec.TLS.CaSecretName, Namespace := s.inst.Namespace,
              Labels := labels }).2 = s2 := congrArg Prod.snd heq
        intro hx
        rcases hashStep_adds env _ _ x hx with h | h
        · exact hbase x (by rw [hs2]; exact h)
        · exact Or.inr (by omega)
  · intro hx
    rcases hashStep_adds env _ _ x hx with h | h
    · exact Or.inl h
    · exact Or.inr (by omega)

/-! ## Facts used by the claims -/

@[simp] theorem finish_fst (env : Env) (b : MariaDB) (out : Outcome) :
    (finish env b out).1 = out.1 := rfl

@[simp] theorem finish_snd (env : Env) (b : MariaDB) (out : Outcome) :
    (finish env b out).2 = deferredStatus env b out.2 := rfl

theorem afterInit_hash (i : MariaDB) :
    (afterInit i).Status.DbInitHash = i.Status.DbInitHash := by
  unfold afterInit
  split <;> rfl

theorem afterInit_spec (i : MariaDB) : (afterInit i).Spec = i.Spec := by
  unfold afterInit
  split <;> rfl

theorem afterInit_name (i : MariaDB) : (afterInit i).Name = i.Name := by
  unfold afterInit
  split <;> rfl

theorem Conditions.IsTrue_mem (cs : Conditions) (t : ConditionType)
    (h : cs.IsTrue t = true) : ∃ c ∈ cs, c.Status = ConditionTrue := by
  unfold Conditions.IsTrue at h
  split at h
  · rename_i c hc
    exact ⟨c, List.mem_of_find?_eq_some hc, by simpa using h⟩
  · simp at h

theorem afterInit_IsTrue (i : MariaDB) (t : ConditionType)
    (h : (afterInit i).conds.IsTrue t = true) : i.conds.IsTrue t = true := by
  unfold afterInit at h
  split at h
  · exfalso
    obtain ⟨c, hc, hs⟩ := Conditions.IsTrue_mem _ _ h
    have hall : ∀ c ∈ Conditions.Init [] initialConditions, c.Status ≠ ConditionTrue := by
      decide
    exact hall c hc hs
  · exact h

theorem jobResource_conds (env : Env) (b : MariaDB) : (jobResource env b).conds = b.conds := by
  unfold jobResource
  split <;> rfl

theorem PassState.isTrue_Set_False (s : PassState) (t : ConditionType) (reason : Reason)
    (severity : Severity) (format : MessageFormat) (args : List String) :
    (s.Set (FalseCondition t reason severity format args)).inst.conds.IsTrue t = false := by
  have := Conditions.IsTrue_Set_same s.inst.conds (FalseCondition t reason severity format args)
  simpa [FalseCondition, PassState.Set] using this

theorem PassState.get_Set (s : PassState) (c : Condition) :
    (s.Set c).inst.conds.Get c.CondType = some c :=
  Conditions.Get_Set_same _ _

theorem podStep_deployment (env : Env) (s : PassState) (configHash : String)
    (h : (podStep env s configHash).2.inst.conds.IsTrue DeploymentReadyCondition = true) :
    (env.PodCreateOrPatch (mariadb.Pod env.builders s.inst configHash)).Phase = .PodRunning ∨
      ((env.PodCreateOrPatch (mariadb.Pod env.builders s.inst configHash)).outcome =
          .done .OperationResultNone ∧
        s.inst.conds.IsTrue DeploymentReadyCondition = true) := by
  unfold podStep at h
  simp only [] at h
  split at h
  · simp [PassState.isTrue_Set_False] at h
  · simp [PassState.isTrue_Set_False] at h
  · rename_i op hop
    by_cases hrun : (env.PodCreateOrPatch (mariadb.Pod env.builders s.inst configHash)).Phase
        = .PodRunning
    · exact Or.inl hrun
    · right
      simp only [hrun, if_false] at h
      by_cases hnone : op = .OperationResultNone
      · subst hnone
        exact ⟨hop, by simpa [PassState.log] using h⟩
      · exfalso
        simp only [ne_eq, hnone, not_false_eq_true, if_true] at h
        simp [PassState.isTrue_Set_False] at h

/-! ## C1: the overall Ready condition -/

/-- C1, as stated, fails.  The resource carries the conditions of a converged pass; in
this pass the job runner finds the init job still running, so MariaDBInitialized turns
False while DeploymentReady keeps its old True.  The deferred function runs and leaves
Ready True although not every constituent condition is True. -/
theorem ready_iff_all_counterexample :
    Step.SetAfter ∈ (Reconcile envJobRunning).2.trace ∧
      ¬ ((Reconcile envJobRunning).2.inst.conds.IsTrue ReadyCondition = true ↔
        ∀ t ∈ constituentTypes, (Reconcile envJobRunning).2.inst.conds.IsTrue t = true) := by
  decide

/-- C1, amended: at the end of every pass that runs the deferred status step, Ready is
True whenever DeploymentReady is True, hence whenever all seven constituent conditions
are True. -/
theorem ready_of_deploymentReady (env : Env)
    (h : Step.SetAfter ∈ (Reconcile env).2.trace) :
    ((Reconcile env).2.inst.conds.IsTrue DeploymentReadyCondition = true →
        (Reconcile env).2.inst.conds.IsTrue ReadyCondition = true) ∧
      ((∀ t ∈ constituentTypes, (Reconcile env).2.inst.conds.IsTrue t = true) →
        (Reconcile env).2.inst.conds.IsTrue ReadyCondition = true) := by
  rcases Reconcile_cases env with hs | ⟨i, s, _, heq, _⟩
  · have := hs _ h
    simp [Step.rank] at this
  · have key : (Reconcile env).2.inst.conds.IsTrue DeploymentReadyCondition = true →
        (Reconcile env).2.inst.conds.IsTrue ReadyCondition = true := by
      rw [heq]
      exact deferredStatus_ready env _ _
    exact ⟨key, fun hall => key (hall _ (by simp [constituentTypes]))⟩

theorem ready_of_deploymentReady_witness :
    Step.SetAfter ∈ (Reconcile (sampleEnv freshDb)).2.trace ∧
      (∀ t ∈ constituentTypes, (Reconcile (sampleEnv freshDb)).2.inst.conds.IsTrue t = true) ∧
      (Reconcile (sampleEnv freshDb)).2.inst.conds.IsTrue ReadyCondition = true :=
  ⟨by decide, by decide,
    (ready_of_deploymentReady (sampleEnv freshDb) (by decide)).2 (by decide)⟩

/-! ## C2: DeploymentReady and the phase of the pod -/

/-- C2, as stated, fails.  The resource carries DeploymentReady True from an earlier
pass; create-or-patch reports no change and the pod it returns has phase Failed.  The
pass leaves DeploymentReady True. -/
theorem deploymentReady_counterexample :
    ∃ p, Step.PodCreateOrPatch p ∈ (Reconcile envPodFailed).2.trace ∧
      (envPodFailed.PodCreateOrPatch p).Phase ≠ .PodRunning ∧
      convergedDb.conds.IsTrue DeploymentReadyCondition = true ∧
      (Reconcile envPodFailed).2.inst.conds.IsTrue DeploymentReadyCondition = true :=
  ⟨mariadb.Pod sampleBuilders convergedDb (configHashFor envPodFailed convergedDb), by decide⟩

/-- C2, amended: in a pass that reaches the pod step, DeploymentReady is True after the
pass only if the pod returned by create-or-patch is Running, or create-or-patch
succeeded with operation "none" and DeploymentReady was already True on the fetched
resource. -/
theorem deploymentReady_only_if (env : Env) (inst0 : MariaDB) (p : Pod)
    (hget : env.Get = .ok inst0)
    (hp : Step.PodCreateOrPatch p ∈ (Reconcile env).2.trace)
    (ht : (Reconcile env).2.inst.conds.IsTrue DeploymentReadyCondition = true) :
    (env.PodCreateOrPatch p).Phase = .PodRunning ∨
      ((env.PodCreateOrPatch p).outcome = .done .OperationResultNone ∧
        inst0.conds.IsTrue DeploymentReadyCondition = true) := by
  obtain ⟨i, s, hg, heq, hK, _, _⟩ :=
    (reach_pod env).of_mem _ hp (le_refl _) (by simp [Step.rank])
  rw [hget] at hg
  cases hg
  have hpod : p = mariadb.Pod env.builders s.inst (configHashFor env (afterInit inst0)) := by
    rw [heq, finish_snd] at hp
    rcases deferredStatus_mem env _ _ _ hp with h1 | h1
    · rw [podStep_trace] at h1
      simp only [List.mem_append, List.mem_singleton] at h1
      rcases h1 with h1 | h1
      · have := hK.below _ h1
        simp [Step.rank] at this
      · exact Step.PodCreateOrPatch.inj h1
    · simp [Step.rank] at h1
  rw [heq, finish_snd] at ht
  have hd : (podStep env s (configHashFor env (afterInit inst0))).2.inst.conds.IsTrue
      DeploymentReadyCondition = true := by
    have := deferredStatus_Get env (afterInit inst0)
      (podStep env s (configHashFor env (afterInit inst0))).2 DeploymentReadyCondition
      (by decide)
    simpa [Conditions.IsTrue, this] using ht
  rcases podStep_deployment env s _ hd with h1 | ⟨h1, h2⟩
  · exact Or.inl (by rw [hpod]; exact h1)
  · refine Or.inr ⟨by rw [hpod]; exact h1, ?_⟩
    apply afterInit_IsTrue
    have hc := hK.conds DeploymentReadyCondition (by decide)
    rw [jobResource_conds] at hc
    simpa [Conditions.IsTrue, hc] using h2

theorem deploymentReady_only_if_witness :
    (sampleEnv freshDb).Get = .ok freshDb ∧
      Step.PodCreateOrPatch
          (mariadb.Pod sampleBuilders freshDb (configHashFor (sampleEnv freshDb) freshDb)) ∈
        (Reconcile (sampleEnv freshDb)).2.trace ∧
      (Reconcile (sampleEnv freshDb)).2.inst.conds.IsTrue DeploymentReadyCondition = true ∧
      (((sampleEnv freshDb).PodCreateOrPatch
          (mariadb.Pod sampleBuilders freshDb
            (configHashFor (sampleEnv freshDb) freshDb))).Phase = .PodRunning ∨
        (((sampleEnv freshDb).PodCreateOrPatch
            (mariadb.Pod sampleBuilders freshDb
              (configHashFor (sampleEnv freshDb) freshDb))).outcome =
            .done .OperationResultNone ∧
          freshDb.conds.IsTrue DeploymentReadyCondition = true)) :=
  ⟨rfl, by decide, by decide,
    deploymentReady_only_if (sampleEnv freshDb) freshDb _ rfl (by decide) (by decide)⟩

/-! ## C3, C4: a missing TLS or CA secret -/

theorem tlsStep_failed (env : Env) {T : List ConditionType} {b : MariaDB} {s : PassState}
    (configMapVars : StrMap) (name : String) (e : Err) (hK : Keeps T 8 b s)
    (hf : env.GetSecretTLS = .failed e)
    (hmem : Step.GetSecretTLS name ∈ (tlsStep env s configMapVars).2.trace) :
    tlsStep env s configMapVars =
      (if IsNotFound e then
          .ret { RequeueAfter := Second * 10 }
            (some (.errorf ("TLS secret " ++ name ++ " not found")))
        else .ret {} (some e),
        s.log (Step.GetSecretTLS name)) := by
  have hnot : Step.GetSecretTLS name ∉ s.trace := by
    intro h
    have := hK.below _ h
    simp [Step.rank] at this
  by_cases hn : s.inst.Spec.TLS.SecretName ≠ ""
  · have hout : tlsStep env s configMapVars =
        (if IsNotFound e then
            .ret { RequeueAfter := Second * 10 }
              (some (.errorf ("TLS secret " ++ s.inst.Spec.TLS.SecretName ++ " not found")))
          else .ret {} (some e),
          s.log (Step.GetSecretTLS s.inst.Spec.TLS.SecretName)) := by
      unfold tlsStep
      rw [if_pos hn]
      simp only [hf]
      by_cases hnf : IsNotFound e = true <;> simp [hnf, PassState.log]
    rw [hout] at hmem
    simp only [PassState.mem_log] at hmem
    rcases hmem with h | h
    · exact absurd h hnot
    · rw [hout, Step.GetSecretTLS.inj h]
  · exfalso
    have hout : tlsStep env s configMapVars = caStep env s configMapVars := by
      unfold tlsStep
      rw [if_neg hn]
    rw [hout] at hmem
    rcases caStep_adds env _ _ _ hmem with h | h
    · exact hnot h
    · simp [Step.rank] at h

theorem caStep_failed (env : Env) {T : List ConditionType} {b : MariaDB} {s : PassState}
    (configMapVars : StrMap) (name : String) (e : Err) (hK : Keeps T 10 b s)
    (hf : env.GetSecretCA = .failed e)
    (hmem : Step.GetSecretCA name ∈ (caStep env s configMapVars).2.trace) :
    caStep env s configMapVars =
      (if IsNotFound e then
          .ret { RequeueAfter := Second * 10 }
            (some (.errorf ("TLS CA secret " ++ name ++ " not found")))
        else .ret {} (some e),
        s.log (Step.GetSecretCA name)) := by
  have hnot : Step.GetSecretCA name ∉ s.trace := by
    intro h
    have := hK.below _ h
    simp [Step.rank] at this
  by_cases hn : s.inst.Spec.TLS.CaSecretName ≠ ""
  · have hout : caStep env s configMapVars =
        (if IsNotFound e then
            .ret { RequeueAfter := Second * 10 }
              (some (.errorf ("TLS CA secret " ++ s.inst.Spec.TLS.CaSecretName ++ " not found")))
          else .ret {} (some e),
          s.log (Step.GetSecretCA s.inst.Spec.TLS.CaSecretName)) := by
      unfold caStep
      rw [if_pos hn]
      simp only [hf]
      by_cases hnf : IsNotFound e = true <;> simp [hnf, PassState.log]
    rw [hout] at hmem
    simp only [PassState.mem_log] at hmem
    rcases hmem with h | h
    · exact absurd h hnot
    · rw [hout, Step.GetSecretCA.inj h]
  · exfalso
    have hout : caStep env s configMapVars = hashStep env s configMapVars := by
      unfold caStep
      rw [if_neg hn]
    rw [hout] at hmem
    rcases hashStep_adds env _ _ _ hmem with h | h
    · exact hnot h
    · simp [Step.rank] at h

/-- A pass whose fetch of the TLS secret (or of the CA secret) fails: the pass ends at
the fetch, with the state it had when it got there. -/
theorem secret_fetch_failed (env : Env) (name what : String) (e : Err)
    (h : (Step.GetSecretTLS name ∈ (Reconcile env).2.trace ∧ env.GetSecretTLS = .failed e ∧
          what = "TLS secret ") ∨
        (Step.GetSecretCA name ∈ (Reconcile env).2.trace ∧ env.GetSecretCA = .failed e ∧
          what = "TLS CA secret ")) :
    ∃ inst0 s, env.Get = .ok inst0 ∧ Keeps exposeTypes 12 (afterInit inst0) s ∧
      Reconcile env =
        finish env (afterInit inst0)
          (if IsNotFound e then
              .ret { RequeueAfter := Second * 10 }
                (some (.errorf (what ++ name ++ " not found")))
            else .ret {} (some e), s) := by
  rcases h with ⟨hmem, hf, rfl⟩ | ⟨hmem, hf, rfl⟩
  · obtain ⟨i, s, hg, heq, hK⟩ :=
      (reach_tls env).of_mem _ hmem (le_refl _) (by simp [Step.rank])
    have hm2 : Step.GetSecretTLS name ∈ (tlsStep env s (cmVars env (afterInit i))).2.trace := by
      rw [heq, finish_snd] at hmem
      rcases deferredStatus_mem env _ _ _ hmem with h1 | h1
      · exact h1
      · simp [Step.rank] at h1
    have hout := tlsStep_failed env _ name e hK hf hm2
    refine ⟨i, s.log (Step.GetSecretTLS name), hg, ?_, by rw [heq, hout]⟩
    exact (hK.log (Step.GetSecretTLS name) (le_refl _)).mono (List.Subset.refl _)
      (by simp [Step.rank])
  · obtain ⟨i, s, hg, heq, hK⟩ :=
      (reach_ca env).of_mem _ hmem (le_refl _) (by simp [Step.rank])
    have hm2 : Step.GetSecretCA name ∈ (caStep env s (tlsVars env (afterInit i))).2.trace := by
      rw [heq, finish_snd] at hmem
      rcases deferredStatus_mem env _ _ _ hmem with h1 | h1
      · exact h1
      · simp [Step.rank] at h1
    have hout := caStep_failed env _ name e hK hf hm2
    refine ⟨i, s.log (Step.GetSecretCA name), hg, ?_, by rw [heq, hout]⟩
    have := hK.log (Step.GetSecretCA name) (le_refl _)
    exact this.mono (List.Subset.refl _) (by simp [Step.rank])

/-- C3, as stated, fails.  The resource names the TLS secret `cert-mariadb`, the fetch
reports not-found, and the pass returns RequeueAfter = 10 seconds together with a
non-nil error. -/
theorem secret_not_found_counterexample :
    tlsDb.Spec.TLS.SecretName = "cert-mariadb" ∧
      Step.GetSecretTLS "cert-mariadb" ∈ (Reconcile envTLSMissing).2.trace ∧
      (∃ e, envTLSMissing.GetSecretTLS = .failed e ∧ IsNotFound e = true) ∧
      (Reconcile envTLSMissing).1 =
        .ret { RequeueAfter := 10 * Second }
          (some (.errorf "TLS secret cert-mariadb not found")) ∧
      ¬ ∃ r, (Reconcile envTLSMissing).1 = .ret r none := by
  refine ⟨rfl, by decide, ⟨_, rfl, rfl⟩, by decide, ?_⟩
  rintro ⟨r, h⟩
  have h2 : (Reconcile envTLSMissing).1 =
      .ret { RequeueAfter := 10 * Second }
        (some (.errorf "TLS secret cert-mariadb not found")) := by decide
  rw [h2] at h
  cases h

/-- C3, amended: when the pass fetches the TLS secret (or the CA secret) and the fetch
reports not-found, Reconcile returns RequeueAfter = 10 seconds together with a non-nil
error, "TLS secret <name> not found" (or "TLS CA secret <name> not found"). -/
theorem secret_not_found_returns (env : Env) (name what : String) (e : Err)
    (h : (Step.GetSecretTLS name ∈ (Reconcile env).2.trace ∧ env.GetSecretTLS = .failed e ∧
          what = "TLS secret ") ∨
        (Step.GetSecretCA name ∈ (Reconcile env).2.trace ∧ env.GetSecretCA = .failed e ∧
          what = "TLS CA secret "))
    (hnf : IsNotFound e = true) :
    (Reconcile env).1 =
      .ret { RequeueAfter := 10 * Second } (some (.errorf (what ++ name ++ " not found"))) := by
  obtain ⟨i, s, _, _, heq⟩ := secret_fetch_failed env name what e h
  rw [heq, finish_fst]
  simp [hnf, Nat.mul_comm]

theorem secret_not_found_returns_witness :
    (Reconcile envTLSMissing).1 =
        .ret { RequeueAfter := 10 * Second }
          (some (.errorf ("TLS secret " ++ "cert-mariadb" ++ " not found"))) ∧
      (Reconcile envCAMissing).1 =
        .ret { RequeueAfter := 10 * Second }
          (some (.errorf ("TLS CA secret " ++ "ca-mariadb" ++ " not found"))) :=
  ⟨secret_not_found_returns envTLSMissing "cert-mariadb" "TLS secret "
      (.status .NotFound "secrets cert-mariadb not found")
      (Or.inl ⟨by decide, rfl, rfl⟩) rfl,
    secret_not_found_returns envCAMissing "ca-mariadb" "TLS CA secret "
      (.status .NotFound "secrets ca-mariadb not found")
      (Or.inr ⟨by decide, rfl, rfl⟩) rfl⟩

/-- C4, as stated, fails.  On a first pass over a resource whose TLS secret is missing,
no condition has status False after the pass, and ServiceConfigReady is Unknown as the
initialisation left it. -/
theorem secret_missing_condition_counterexample :
    Step.GetSecretTLS "cert-mariadb" ∈ (Reconcile envTLSMissing).2.trace ∧
      (∃ e, envTLSMissing.GetSecretTLS = .failed e ∧ IsNotFound e = true) ∧
      (∀ c ∈ (Reconcile envTLSMissing).2.inst.conds, c.Status ≠ ConditionFalse) ∧
      ((Reconcile envTLSMissing).2.inst.conds.Get ServiceConfigReadyCondition).map
          (fun c => c.Status) = some ConditionUnknown :=
  ⟨by decide, ⟨_, rfl, rfl⟩, by decide, by decide⟩

/-- C4, amended: when the fetch of the TLS secret (or of the CA secret) fails, not-found
included, the pass sets no condition for it: every condition other than Ready,
ExposeServiceReady and the three RBAC conditions (so ServiceConfigReady among them)
reads after the pass as it read after the initialisation of the status. -/
theorem secret_missing_sets_no_condition (env : Env) (inst0 : MariaDB) (name what : String)
    (e : Err) (hget : env.Get = .ok inst0)
    (h : (Step.GetSecretTLS name ∈ (Reconcile env).2.trace ∧ env.GetSecretTLS = .failed e ∧
          what = "TLS secret ") ∨
        (Step.GetSecretCA name ∈ (Reconcile env).2.trace ∧ env.GetSecretCA = .failed e ∧
          what = "TLS CA secret "))
    (t : ConditionType) (ht : t ∉ exposeTypes) (hr : t ≠ ReadyCondition) :
    (Reconcile env).2.inst.conds.Get t = (afterInit inst0).conds.Get t := by
  obtain ⟨i, s, hg, hK, heq⟩ := secret_fetch_failed env name what e h
  rw [hget] at hg
  cases hg
  rw [heq, finish_snd, deferredStatus_Get _ _ _ _ (Ne.symm hr)]
  exact hK.conds t ht

theorem secret_missing_sets_no_condition_witness :
    (Reconcile envCAMissing).2.inst.conds.Get ServiceConfigReadyCondition =
        (afterInit caDb).conds.Get ServiceConfigReadyCondition ∧
      (afterInit caDb).conds.Get ServiceConfigReadyCondition =
        some (UnknownCondition ServiceConfigReadyCondition InitReason
          ServiceConfigReadyInitMessage []) :=
  ⟨secret_missing_sets_no_condition envCAMissing caDb "ca-mariadb" "TLS CA secret "
      (.status .NotFound "secrets ca-mariadb not found") rfl
      (Or.inr ⟨by decide, rfl, rfl⟩) ServiceConfigReadyCondition (by decide) (by decide),
    by decide⟩

/-! ## C5: a storage request that does not parse -/

theorem pvcStep_unparseable (env : Env) (s : PassState) (pe : Err)
    (hq : env.ParseQuantity s.inst.Spec.StorageRequest = some pe) :
    (pvcStep env s).2 = s.log Step.PvcCreateOrPatch := by
  unfold pvcStep
  simp only [PassState.log, hq]
  split <;> rfl

/-- C5, as stated, fails.  The storage request is empty, which is no quantity; the
claim is created, so the mutate function runs and `MustParse` panics: the pass returns
nothing, and no condition is set to False. -/
theorem unparseable_storage_counterexample :
    envNoStorage.Get = .ok noStorageDb ∧
      envNoStorage.ParseQuantity noStorageDb.Spec.StorageRequest ≠ none ∧
      Step.PvcCreateOrPatch ∈ (Reconcile envNoStorage).2.trace ∧
      (Reconcile envNoStorage).1 =
        .panic "cannot parse : quantities must match the regular expression" ∧
      (¬ ∃ r e, (Reconcile envNoStorage).1 = .ret r e) ∧
      ∀ c ∈ (Reconcile envNoStorage).2.inst.conds, c.Status ≠ ConditionFalse := by
  refine ⟨rfl, by decide, by decide, by decide, ?_, by decide⟩
  rintro ⟨r, e, h⟩
  have h2 : (Reconcile envNoStorage).1 =
      .panic "cannot parse : quantities must match the regular expression" := by decide
  rw [h2] at h
  cases h

/-- C5, amended: for every resource whose storage request is not a parseable quantity,
a pass that reaches the PVC step performs no later step (service, endpoints, config
maps, secrets, job, pod) and the PVC step sets no condition: every condition other
than Ready and the three RBAC conditions reads as it read after the initialisation of
the status. -/
theorem unparseable_storage_stops (env : Env) (inst0 : MariaDB) (pe : Err)
    (hget : env.Get = .ok inst0)
    (hp : Step.PvcCreateOrPatch ∈ (Reconcile env).2.trace)
    (hq : env.ParseQuantity inst0.Spec.StorageRequest = some pe) :
    (Step.ServiceCreateOrPatch ∉ (Reconcile env).2.trace ∧
      Step.EndpointsCreateOrPatch ∉ (Reconcile env).2.trace ∧
      Step.EnsureConfigMaps ∉ (Reconcile env).2.trace ∧
      (∀ n, Step.GetSecretTLS n ∉ (Reconcile env).2.trace) ∧
      (∀ n, Step.GetSecretCA n ∉ (Reconcile env).2.trace) ∧
      (∀ h, Step.DoJob h ∉ (Reconcile env).2.trace) ∧
      (∀ p, Step.PodCreateOrPatch p ∉ (Reconcile env).2.trace)) ∧
      ∀ t, t ∉ rbacTypes → t ≠ ReadyCondition →
        (Reconcile env).2.inst.conds.Get t = (afterInit inst0).conds.Get t := by
  obtain ⟨i, s, hg, heq, hK⟩ :=
    (reach_pvc env).of_mem _ hp (le_refl _) (by simp [Step.rank])
  rw [hget] at hg
  cases hg
  have hq2 : env.ParseQuantity s.inst.Spec.StorageRequest = some pe := by
    rw [hK.spec, afterInit_spec]; exact hq
  have hs := pvcStep_unparseable env s pe hq2
  have hbound : ∀ x ∈ (Reconcile env).2.trace, x.rank < 5 ∨ 15 ≤ x.rank := by
    intro x hx
    rw [heq, finish_snd, hs] at hx
    rcases deferredStatus_mem env _ _ _ hx with h1 | h1
    · exact Or.inl ((hK.log Step.PvcCreateOrPatch (le_refl _)).below x h1)
    · exact Or.inr h1
  refine ⟨⟨?_, ?_, ?_, ?_, ?_, ?_, ?_⟩, ?_⟩
  · intro h; have := hbound _ h; simp [Step.rank] at this
  · intro h; have := hbound _ h; simp [Step.rank] at this
  · intro h; have := hbound _ h; simp [Step.rank] at this
  · intro n h; have := hbound _ h; simp [Step.rank] at this
  · intro n h; have := hbound _ h; simp [Step.rank] at this
  · intro n h; have := hbound _ h; simp [Step.rank] at this
  · intro n h; have := hbound _ h; simp [Step.rank] at this
  · intro t ht hr
    rw [heq, finish_snd, hs, deferredStatus_Get _ _ _ _ (Ne.symm hr)]
    exact hK.conds t ht

theorem unparseable_storage_stops_witness :
    Step.ServiceCreateOrPatch ∉ (Reconcile envNoStorage).2.trace ∧
      (∀ p, Step.PodCreateOrPatch p ∉ (Reconcile envNoStorage).2.trace) ∧
      (Reconcile envNoStorage).2.inst.conds.Get ExposeServiceReadyCondition =
        (afterInit noStorageDb).conds.Get ExposeServiceReadyCondition :=
  have h := unparseable_storage_stops envNoStorage noStorageDb
    (.errorf "quantities must match the regular expression") rfl (by decide) (by decide)
  ⟨h.1.1, h.1.2.2.2.2.2.2, h.2 ExposeServiceReadyCondition (by decide) (by decide)⟩

/-! ## C6, C7, C8: the init job -/

theorem jobStep_running (env : Env) (s : PassState) (configHash : String)
    (hres : (env.DoJob s.inst.Status.DbInitHash).result ≠ {}) :
    jobStep env s configHash =
      (.ret (env.DoJob s.inst.Status.DbInitHash).result none,
        (s.log (Step.DoJob s.inst.Status.DbInitHash)).Set
          (FalseCondition MariaDBInitializedCondition RequestedReason SeverityInfo
            MariaDBInitializedRunningMessage [])) := by
  unfold jobStep
  simp only []
  rw [if_pos hres]

theorem jobStep_error (env : Env) (s : PassState) (configHash : String) (e : Err)
    (hres : (env.DoJob s.inst.Status.DbInitHash).result = {})
    (herr : (env.DoJob s.inst.Status.DbInitHash).err = some e) :
    jobStep env s configHash =
      (.ret {} (some e),
        (s.log (Step.DoJob s.inst.Status.DbInitHash)).Set
          (FalseCondition MariaDBInitializedCondition ErrorReason SeverityWarning
            MariaDBInitializedErrorMessage [e.Error])) := by
  unfold jobStep
  simp only []
  rw [if_neg (by simpa using hres)]
  simp only [herr]

theorem jobStep_changed (env : Env) (s : PassState) (configHash : String)
    (hres : (env.DoJob s.inst.Status.DbInitHash).result = {})
    (herr : (env.DoJob s.inst.Status.DbInitHash).err = none)
    (hch : (env.DoJob s.inst.Status.DbInitHash).HasChanged = true) :
    jobStep env s configHash =
      match env.StatusUpdateJob with
      | some e => (.ret {} (some e), storeHash env s)
      | none =>
        podStep env
          ((storeHash env s).MarkTrue MariaDBInitializedCondition MariaDBInitializedReadyMessage)
          configHash := by
  unfold jobStep
  simp only []
  rw [if_neg (by simpa using hres)]
  simp only [herr, hch, if_true]
  rfl

theorem jobStep_unchanged (env : Env) (s : PassState) (configHash : String)
    (hres : (env.DoJob s.inst.Status.DbInitHash).result = {})
    (herr : (env.DoJob s.inst.Status.DbInitHash).err = none)
    (hch : (env.DoJob s.inst.Status.DbInitHash).HasChanged = false) :
    jobStep env s configHash =
      podStep env
        ((s.log (Step.DoJob s.inst.Status.DbInitHash)).MarkTrue MariaDBInitializedCondition
          MariaDBInitializedReadyMessage)
        configHash := by
  unfold jobStep
  simp only []
  rw [if_neg (by simpa using hres)]
  simp [herr, hch]

theorem podStep_hash (env : Env) (s : PassState) (configHash : String) :
    (podStep env s configHash).2.inst.Status.DbInitHash = s.inst.Status.DbInitHash := by
  unfold podStep
  simp only []
  split
  · rfl
  · rfl
  · split <;> split <;> rfl

theorem jobStep_head (env : Env) (s : PassState) (configHash : String) :
    ∃ l, (jobStep env s configHash).2.trace =
        s.trace ++ Step.DoJob s.inst.Status.DbInitHash :: l ∧
      ∀ x ∈ l, 13 ≤ x.rank := by
  by_cases hres : (env.DoJob s.inst.Status.DbInitHash).result = {}
  · cases herr : (env.DoJob s.inst.Status.DbInitHash).err with
    | some e =>
      rw [jobStep_error env s _ e hres herr]
      exact ⟨[], by simp [PassState.log], by simp⟩
    | none =>
      by_cases hch : (env.DoJob s.inst.Status.DbInitHash).HasChanged = true
      · rw [jobStep_changed env s _ hres herr hch]
        split
        · refine ⟨[Step.StatusUpdateJob { s.inst.Status with
              DbInitHash := (env.DoJob s.inst.Status.DbInitHash).GetHash }], ?_, ?_⟩
          · simp [storeHash, PassState.log]
          · simp [Step.rank]
        · rw [podStep_trace]
          refine ⟨[Step.StatusUpdateJob { s.inst.Status with
              DbInitHash := (env.DoJob s.inst.Status.DbInitHash).GetHash },
            Step.PodCreateOrPatch (mariadb.Pod env.builders
              ((storeHash env s).MarkTrue MariaDBInitializedCondition
                MariaDBInitializedReadyMessage).inst configHash)], ?_, ?_⟩
          · simp [storeHash, PassState.log]
          · simp [Step.rank]
      · rw [jobStep_unchanged env s _ hres herr (by simpa using hch), podStep_trace]
        refine ⟨[Step.PodCreateOrPatch (mariadb.Pod env.builders
            ((s.log (Step.DoJob s.inst.Status.DbInitHash)).MarkTrue MariaDBInitializedCondition
              MariaDBInitializedReadyMessage).inst configHash)], ?_, ?_⟩
        · simp [PassState.log]
        · simp [Step.rank]
  · rw [jobStep_running env s _ hres]
    exact ⟨[], by simp [PassState.log], by simp⟩

/-- A pass that calls the job runner with previous hash `h` is the job step, run on the
fetched resource with its stored hash `h`, followed by the deferred function. -/
theorem job_reached (env : Env) (h : String)
    (hmem : Step.DoJob h ∈ (Reconcile env).2.trace) :
    ∃ inst0 s, env.Get = .ok inst0 ∧
      Reconcile env =
        finish env (afterInit inst0) (jobStep env s (configHashFor env (afterInit inst0))) ∧
      Keeps configTypes 12 (afterInit inst0) s ∧
      s.inst.Status.DbInitHash = h ∧ inst0.Status.DbInitHash = h := by
  obtain ⟨i, s, hg, heq, hK⟩ :=
    (reach_job env).of_mem _ hmem (le_refl _) (by simp [Step.rank])
  have hsh : s.inst.Status.DbInitHash = h := by
    rw [heq, finish_snd] at hmem
    rcases deferredStatus_mem env _ _ _ hmem with h1 | h1
    · obtain ⟨l, hl, hrank⟩ := jobStep_head env s (configHashFor env (afterInit i))
      rw [hl] at h1
      simp only [List.mem_append, List.mem_cons] at h1
      rcases h1 with h1 | h1 | h1
      · have := hK.below _ h1
        simp [Step.rank] at this
      · exact (Step.DoJob.inj h1).symm
      · have := hrank _ h1
        simp [Step.rank] at this
    · simp [Step.rank] at h1
  refine ⟨i, s, hg, heq, hK, hsh, ?_⟩
  rw [← afterInit_hash, ← hK.hash]
  exact hsh

/-- C6, as stated, fails.  The job runner returns a requeue together with an error; the
pass sets MariaDBInitialized False with reason Requested and severity Info and returns
the requeue with a nil error, so the error is dropped. -/
theorem job_error_counterexample :
    Step.DoJob "dbinit-1" ∈ (Reconcile envJobRequeueError).2.trace ∧
      (envJobRequeueError.DoJob "dbinit-1").err = some (.errorf "job dbinit failed") ∧
      (Reconcile envJobRequeueError).1 = .ret { RequeueAfter := 5 * Second } none ∧
      (Reconcile envJobRequeueError).2.inst.conds.Get MariaDBInitializedCondition =
        some (FalseCondition MariaDBInitializedCondition RequestedReason SeverityInfo
          MariaDBInitializedRunningMessage []) := by
  decide

/-- C6, amended: for every outcome of the init-job runner that carries a non-nil error
and an empty result, Reconcile sets MariaDBInitialized to False with reason Error and
severity Warning, the error text being the argument of the message, and returns that
error with an empty result. -/
theorem job_error_surfaces (env : Env) (h : String) (e : Err)
    (hmem : Step.DoJob h ∈ (Reconcile env).2.trace)
    (hres : (env.DoJob h).result = {})
    (herr : (env.DoJob h).err = some e) :
    (Reconcile env).2.inst.conds.Get MariaDBInitializedCondition =
        some (FalseCondition MariaDBInitializedCondition ErrorReason SeverityWarning
          MariaDBInitializedErrorMessage [e.Error]) ∧
      (Reconcile env).1 = .ret {} (some e) := by
  obtain ⟨i, s, _, heq, _, hsh, _⟩ := job_reached env h hmem
  subst hsh
  rw [heq, jobStep_error env s _ e hres herr]
  refine ⟨?_, rfl⟩
  rw [finish_snd, deferredStatus_Get _ _ _ _ (by decide)]
  exact PassState.get_Set _ _

theorem job_error_surfaces_witness :
    (Reconcile envJobError).2.inst.conds.Get MariaDBInitializedCondition =
        some (FalseCondition MariaDBInitializedCondition ErrorReason SeverityWarning
          MariaDBInitializedErrorMessage [(Err.errorf "job dbinit failed").Error]) ∧
      (Reconcile envJobError).1 = .ret {} (some (.errorf "job dbinit failed")) :=
  job_error_surfaces envJobError "dbinit-1" (.errorf "job dbinit failed") (by decide) rfl rfl

/-- C7: when the init-job runner returns a non-empty result, Reconcile sets
MariaDBInitialized to False with reason Requested and severity Info, returns exactly
that result with a nil error, leaves `status.dbInitHash` as it was fetched, and does
not reach the pod step. -/
theorem job_running_requeues (env : Env) (inst0 : MariaDB) (h : String)
    (hget : env.Get = .ok inst0)
    (hmem : Step.DoJob h ∈ (Reconcile env).2.trace)
    (hres : (env.DoJob h).result ≠ {}) :
    (Reconcile env).2.inst.conds.Get MariaDBInitializedCondition =
        some (FalseCondition MariaDBInitializedCondition RequestedReason SeverityInfo
          MariaDBInitializedRunningMessage []) ∧
      (Reconcile env).1 = .ret (env.DoJob h).result none ∧
      (Reconcile env).2.inst.Status.DbInitHash = inst0.Status.DbInitHash ∧
      ∀ p, Step.PodCreateOrPatch p ∉ (Reconcile env).2.trace := by
  obtain ⟨i, s, hg, heq, hK, hsh, hih⟩ := job_reached env h hmem
  rw [hget] at hg
  cases hg
  subst hsh
  rw [heq, jobStep_running env s _ hres]
  refine ⟨?_, rfl, ?_, ?_⟩
  · rw [finish_snd, deferredStatus_Get _ _ _ _ (by decide)]
    exact PassState.get_Set _ _
  · rw [finish_snd, deferredStatus_hash]
    exact hih.symm
  · intro p hp
    rw [finish_snd] at hp
    rcases deferredStatus_mem env _ _ _ hp with h1 | h1
    · simp only [PassState.trace_Set, PassState.mem_log] at h1
      rcases h1 with h1 | h1
      · have := hK.below _ h1
        simp [Step.rank] at this
      · cases h1
    · simp [Step.rank] at h1

theorem job_running_requeues_witness :
    (Reconcile envJobRunning).2.inst.conds.Get MariaDBInitializedCondition =
        some (FalseCondition MariaDBInitializedCondition RequestedReason SeverityInfo
          MariaDBInitializedRunningMessage []) ∧
      (Reconcile envJobRunning).1 = .ret (envJobRunning.DoJob "dbinit-1").result none ∧
      (Reconcile envJobRunning).2.inst.Status.DbInitHash = convergedDb.Status.DbInitHash ∧
      ∀ p, Step.PodCreateOrPatch p ∉ (Reconcile envJobRunning).2.trace :=
  job_running_requeues envJobRunning convergedDb "dbinit-1" rfl (by decide) (by decide)

/-- C8: the init job is keyed by the stored hash.  The job runner is called with the
fetched `status.dbInitHash` as previous hash.  When the job completes and the runner
says the hash changed, `status.dbInitHash` is the hash of the runner, the status update
that stores it is issued before any pod step, and the pod step is only reached when
that update succeeded.  When the runner says the hash did not change,
`status.dbInitHash` is unchanged and no status update is issued for it. -/
theorem job_hash_keyed (env : Env) (inst0 : MariaDB) (h : String)
    (hget : env.Get = .ok inst0)
    (hmem : Step.DoJob h ∈ (Reconcile env).2.trace)
    (hres : (env.DoJob h).result = {})
    (herr : (env.DoJob h).err = none) :
    h = inst0.Status.DbInitHash ∧
      ((env.DoJob h).HasChanged = true →
        (Reconcile env).2.inst.Status.DbInitHash = (env.DoJob h).GetHash ∧
        (∃ pre st post, (Reconcile env).2.trace = pre ++ Step.StatusUpdateJob st :: post ∧
          st.DbInitHash = (env.DoJob h).GetHash ∧ ∀ p, Step.PodCreateOrPatch p ∉ pre) ∧
        (∀ p, Step.PodCreateOrPatch p ∈ (Reconcile env).2.trace →
          env.StatusUpdateJob = none)) ∧
      ((env.DoJob h).HasChanged = false →
        (Reconcile env).2.inst.Status.DbInitHash = inst0.Status.DbInitHash ∧
        ∀ st, Step.StatusUpdateJob st ∉ (Reconcile env).2.trace) := by
  obtain ⟨i, s, hg, heq, hK, hsh, hih⟩ := job_reached env h hmem
  rw [hget] at hg
  cases hg
  subst hsh
  have hpre : ∀ p, Step.PodCreateOrPatch p ∉ s.trace ++ [Step.DoJob s.inst.Status.DbInitHash] := by
    intro p hp
    simp only [List.mem_append, List.mem_singleton] at hp
    rcases hp with hp | hp
    · have := hK.below _ hp
      simp [Step.rank] at this
    · cases hp
  refine ⟨hih.symm, ?_, ?_⟩
  · intro hch
    rw [heq, jobStep_changed env s _ hres herr hch]
    cases hup : env.StatusUpdateJob with
    | some e =>
      simp only [finish_snd]
      obtain ⟨l, hl, hpatch⟩ := deferredStatus_trace env (afterInit inst0) (storeHash env s)
      refine ⟨?_, ⟨s.trace ++ [Step.DoJob s.inst.Status.DbInitHash],
        { s.inst.Status with DbInitHash := (env.DoJob s.inst.Status.DbInitHash).GetHash },
        Step.SetAfter :: l, ?_, rfl, hpre⟩, ?_⟩
      · rw [deferredStatus_hash]
        rfl
      · rw [hl]
        simp [storeHash, PassState.log]
      · intro p hp
        exfalso
        rw [hl] at hp
        simp [storeHash, PassState.log] at hp
        rcases hp with hp | hp
        · exact hpre p (List.mem_append_left _ hp)
        · obtain ⟨st, hst⟩ := hpatch _ hp
          cases hst
    | none =>
      simp only [finish_snd]
      obtain ⟨l, hl, _⟩ := deferredStatus_trace env (afterInit inst0)
        (podStep env ((storeHash env s).MarkTrue MariaDBInitializedCondition
          MariaDBInitializedReadyMessage) (configHashFor env (afterInit inst0))).2
      refine ⟨?_, ⟨s.trace ++ [Step.DoJob s.inst.Status.DbInitHash],
        { s.inst.Status with DbInitHash := (env.DoJob s.inst.Status.DbInitHash).GetHash },
        Step.PodCreateOrPatch (mariadb.Pod env.builders
          ((storeHash env s).MarkTrue MariaDBInitializedCondition
            MariaDBInitializedReadyMessage).inst (configHashFor env (afterInit inst0))) ::
          Step.SetAfter :: l, ?_, rfl, hpre⟩,
        fun _ _ => trivial⟩
      · rw [deferredStatus_hash, podStep_hash]
        rfl
      · rw [hl, podStep_trace]
        simp [storeHash, PassState.log]
  · intro hch
    rw [heq, jobStep_unchanged env s _ hres herr hch]
    refine ⟨?_, ?_⟩
    · rw [finish_snd, deferredStatus_hash, podStep_hash]
      exact hih.symm
    · intro st hst
      rw [finish_snd] at hst
      rcases deferredStatus_mem env _ _ _ hst with h1 | h1
      · rw [podStep_trace] at h1
        simp only [PassState.trace_MarkTrue, PassState.log, List.mem_append,
          List.mem_singleton] at h1
        rcases h1 with (h1 | h1) | h1
        · have := hK.below _ h1
          simp [Step.rank] at this
        · cases h1
        · cases h1
      · simp [Step.rank] at h1

theorem job_hash_keyed_witness :
    "" = freshDb.Status.DbInitHash ∧
      ((Reconcile (sampleEnv freshDb)).2.inst.Status.DbInitHash = "dbinit-1") ∧
      ((sampleEnv convergedDb).DoJob "dbinit-1").HasChanged = false ∧
      ∀ st, Step.StatusUpdateJob st ∉ (Reconcile (sampleEnv convergedDb)).2.trace :=
  ⟨(job_hash_keyed (sampleEnv freshDb) freshDb "" rfl (by decide) rfl rfl).1,
    ((job_hash_keyed (sampleEnv freshDb) freshDb "" rfl (by decide) rfl rfl).2.1 rfl).1,
    rfl,
    ((job_hash_keyed (sampleEnv convergedDb) convergedDb "dbinit-1" rfl (by decide) rfl
      rfl).2.2 rfl).2⟩

/-! ## C9, C10: the configuration hash -/

theorem StrMap.set_differs {k h1 h2 : String} {m1 m2 : StrMap}
    (h : List.Forall₂ (DiffersAt k h1 h2) m1 m2) (c v1 v2 : String)
    (hc : DiffersAt k h1 h2 (c, v1) (c, v2)) :
    List.Forall₂ (DiffersAt k h1 h2) (m1.set c v1) (m2.set c v2) := by
  induction h with
  | nil => exact List.Forall₂.cons hc List.Forall₂.nil
  | @cons x y t1 t2 hxy _ ih =>
    unfold StrMap.set
    rw [← hxy.1]
    by_cases hx : x.1 = c
    · simp only [hx, if_true]
      exact List.Forall₂.cons hc (by assumption)
    · simp only [hx, if_false]
      exact List.Forall₂.cons hxy ih

theorem orderedInsert_differs {k h1 h2 : String} (rank : String → Nat) {l1 l2 : StrMap}
    (h : List.Forall₂ (DiffersAt k h1 h2) l1 l2) (x y : String × String)
    (hxy : DiffersAt k h1 h2 x y) :
    List.Forall₂ (DiffersAt k h1 h2)
      (l1.orderedInsert (fun a b => rank a.1 ≤ rank b.1) x)
      (l2.orderedInsert (fun a b => rank a.1 ≤ rank b.1) y) := by
  induction h with
  | nil => exact List.Forall₂.cons hxy List.Forall₂.nil
  | @cons a b t1 t2 hab ht ih =>
    simp only [List.orderedInsert]
    have hx : x.1 = y.1 := hxy.1
    have ha : a.1 = b.1 := hab.1
    by_cases hle : rank x.1 ≤ rank a.1
    · have hle2 : rank y.1 ≤ rank b.1 := by rw [← hx, ← ha]; exact hle
      rw [if_pos hle, if_pos hle2]
      exact List.Forall₂.cons hxy (List.Forall₂.cons hab ht)
    · have hle2 : ¬ rank y.1 ≤ rank b.1 := by rw [← hx, ← ha]; exact hle
      rw [if_neg hle, if_neg hle2]
      exact List.Forall₂.cons hab ih

theorem rangeOrder_differs {k h1 h2 : String} (rank : String → Nat) {l1 l2 : StrMap}
    (h : List.Forall₂ (DiffersAt k h1 h2) l1 l2) :
    List.Forall₂ (DiffersAt k h1 h2) (rangeOrder rank l1) (rangeOrder rank l2) := by
  unfold rangeOrder
  induction h with
  | nil => exact List.Forall₂.nil
  | @cons a b t1 t2 hab _ ih =>
    simp only [List.insertionSort]
    exact orderedInsert_differs rank ih a b hab

theorem setEnv_differs {k h1 h2 : String} {es1 es2 : List EnvVar}
    (h : List.Forall₂ (EnvDiffersAt k h1 h2) es1 es2) (c v1 v2 : String)
    (hc : DiffersAt k h1 h2 (c, v1) (c, v2)) :
    List.Forall₂ (EnvDiffersAt k h1 h2) (setEnv es1 c v1) (setEnv es2 c v2) := by
  induction h with
  | nil => exact List.Forall₂.cons hc List.Forall₂.nil
  | @cons x y t1 t2 hxy ht ih =>
    unfold setEnv
    have hn : x.Name = y.Name := hxy.1
    rw [← hn]
    by_cases hx : x.Name = c
    · simp only [hx, if_true]
      refine List.Forall₂.cons ?_ ht
      have hy : y.Name = c := by rw [← hn]; exact hx
      simpa [EnvDiffersAt, hx, hy] using hc
    · simp only [hx, if_false]
      exact List.Forall₂.cons hxy ih

theorem foldl_setEnv_differs {k h1 h2 : String} {s1 s2 : StrMap}
    (hs : List.Forall₂ (DiffersAt k h1 h2) s1 s2) :
    ∀ e1 e2 : List EnvVar, List.Forall₂ (EnvDiffersAt k h1 h2) e1 e2 →
      List.Forall₂ (EnvDiffersAt k h1 h2)
        (s1.foldl (fun es kv => setEnv es kv.1 kv.2) e1)
        (s2.foldl (fun es kv => setEnv es kv.1 kv.2) e2) := by
  induction hs with
  | nil => exact fun _ _ he => he
  | @cons a b t1 t2 hab _ ih =>
    intro e1 e2 he
    simp only [List.foldl_cons]
    apply ih
    have hk : a.1 = b.1 := hab.1
    rw [← hk]
    exact setEnv_differs he a.1 a.2 b.2 ⟨rfl, hab.2.1, hab.2.2⟩

theorem MergeEnvs_differs {k h1 h2 : String} (rank : String → Nat) {m1 m2 : StrMap}
    (h : List.Forall₂ (DiffersAt k h1 h2) m1 m2) :
    List.Forall₂ (EnvDiffersAt k h1 h2) (MergeEnvs rank [] m1) (MergeEnvs rank [] m2) :=
  foldl_setEnv_differs (rangeOrder_differs rank h) [] [] List.Forall₂.nil

theorem setEnv_names (es : List EnvVar) (n v : String) :
    (setEnv es n v).map (fun e => e.Name) =
      if n ∈ es.map (fun e => e.Name) then es.map (fun e => e.Name)
      else es.map (fun e => e.Name) ++ [n] := by
  induction es with
  | nil => simp [setEnv]
  | cons e t ih =>
    unfold setEnv
    by_cases he : e.Name = n
    · simp [he]
    · have hne : ¬ n = e.Name := fun h => he h.symm
      simp only [he, if_false, List.map_cons, ih, List.mem_cons, hne, false_or]
      split <;> simp

theorem setEnv_nodup (es : List EnvVar) (n v : String)
    (h : (es.map (fun e => e.Name)).Nodup) :
    ((setEnv es n v).map (fun e => e.Name)).Nodup := by
  rw [setEnv_names]
  split
  · exact h
  · rename_i hn
    rw [List.nodup_append]
    exact ⟨h, by simp, by simpa using hn⟩

theorem setEnv_mem (es : List EnvVar) (n v x : String)
    (h : x = n ∨ x ∈ es.map (fun e => e.Name)) :
    x ∈ (setEnv es n v).map (fun e => e.Name) := by
  rw [setEnv_names]
  split
  · rename_i hn
    rcases h with rfl | h
    · exact hn
    · exact h
  · rcases h with rfl | h
    · simp
    · exact List.mem_append_left _ h

theorem foldl_setEnv_nodup (s : StrMap) :
    ∀ es : List EnvVar, (es.map (fun e => e.Name)).Nodup →
      ((s.foldl (fun es kv => setEnv es kv.1 kv.2) es).map (fun e => e.Name)).Nodup := by
  induction s with
  | nil => exact fun _ h => h
  | cons a t ih =>
    intro es h
    simp only [List.foldl_cons]
    exact ih _ (setEnv_nodup es a.1 a.2 h)

theorem foldl_setEnv_mem (s : StrMap) :
    ∀ (es : List EnvVar) (x : String),
      (x ∈ s.map (fun kv => kv.1) ∨ x ∈ es.map (fun e => e.Name)) →
      x ∈ (s.foldl (fun es kv => setEnv es kv.1 kv.2) es).map (fun e => e.Name) := by
  induction s with
  | nil =>
    intro es x h
    simpa using h
  | cons a t ih =>
    intro es x h
    simp only [List.foldl_cons]
    apply ih
    simp only [List.map_cons, List.mem_cons] at h
    rcases h with (h | h) | h
    · exact Or.inr (setEnv_mem es a.1 a.2 x (Or.inl h))
    · exact Or.inl h
    · exact Or.inr (setEnv_mem es a.1 a.2 x (Or.inr h))

theorem MergeEnvs_nodup (rank : String → Nat) (m : StrMap) :
    ((MergeEnvs rank [] m).map (fun e => e.Name)).Nodup :=
  foldl_setEnv_nodup _ [] List.nodup_nil

theorem MergeEnvs_mem (rank : String → Nat) (m : StrMap) (x : String)
    (h : x ∈ m.map (fun kv => kv.1)) : x ∈ (MergeEnvs rank [] m).map (fun e => e.Name) := by
  apply foldl_setEnv_mem
  left
  obtain ⟨kv, hkv, rfl⟩ := List.mem_map.mp h
  exact List.mem_map.mpr ⟨kv, (List.mem_insertionSort _).mpr hkv, rfl⟩

theorem foldl_hash_acc (es : List EnvVar) :
    ∀ acc : String,
      es.foldl (fun configHash hashEnv => configHash ++ hashEnv.Value) acc =
        acc ++ es.foldl (fun configHash hashEnv => configHash ++ hashEnv.Value) "" := by
  induction es with
  | nil => intro acc; simp
  | cons e t ih =>
    intro acc
    simp only [List.foldl_cons]
    rw [ih (acc ++ e.Value), ih ("" ++ e.Value), String.empty_append, String.append_assoc]

theorem configHashOf_cons (e : EnvVar) (es : List EnvVar) :
    configHashOf (e :: es) = e.Value ++ configHashOf es := by
  unfold configHashOf
  simp only [List.foldl_cons]
  rw [foldl_hash_acc, String.empty_append]

theorem String.append_left_cancel_iff (a b c : String) : a ++ b = a ++ c ↔ b = c := by
  constructor
  · intro h
    have := congrArg String.data h
    simp only [String.data_append, List.append_cancel_left_eq] at this
    exact String.ext this
  · rintro rfl; rfl

theorem String.append_right_cancel_iff (a b c : String) : a ++ c = b ++ c ↔ a = b := by
  constructor
  · intro h
    have := congrArg String.data h
    simp only [String.data_append, List.append_cancel_right_eq] at this
    exact String.ext this
  · rintro rfl; rfl

theorem envDiffers_eq {k h1 h2 : String} {e1 e2 : List EnvVar}
    (h : List.Forall₂ (EnvDiffersAt k h1 h2) e1 e2)
    (hk : k ∉ e1.map (fun e => e.Name)) : e1 = e2 := by
  induction h with
  | nil => rfl
  | @cons x y t1 t2 hxy _ ih =>
    simp only [List.map_cons, List.mem_cons, not_or] at hk
    have hn : x.Name = y.Name := hxy.1
    have hv : x.Value = y.Value := hxy.2.1 (fun h => hk.1 h.symm)
    have hx : x = y := by
      cases x; cases y
      simp_all
    rw [hx, ih hk.2]

/-- Two lists of merged variables that differ in the value of the variable `k` only,
where `h1` is not `h2`, concatenate to different strings. -/
theorem configHashOf_differs {k h1 h2 : String} {e1 e2 : List EnvVar}
    (h : List.Forall₂ (EnvDiffersAt k h1 h2) e1 e2)
    (hnd : (e1.map (fun e => e.Name)).Nodup)
    (hk : k ∈ e1.map (fun e => e.Name)) (hne : h1 ≠ h2) :
    configHashOf e1 ≠ configHashOf e2 := by
  induction h with
  | nil => simp at hk
  | @cons x y t1 t2 hxy ht ih =>
    simp only [List.map_cons, List.nodup_cons] at hnd
    rw [configHashOf_cons, configHashOf_cons]
    by_cases hx : x.Name = k
    · have hv := hxy.2.2 hx
      simp only at hv
      have ht2 : t1 = t2 := envDiffers_eq ht (by rw [← hx]; exact hnd.1)
      rw [hv.1, hv.2, ht2, Ne, String.append_right_cancel_iff]
      exact hne
    · have hv : x.Value = y.Value := hxy.2.1 hx
      rw [hv, Ne, String.append_left_cancel_iff]
      simp only [List.map_cons, List.mem_cons] at hk
      rcases hk with hk | hk
      · exact absurd hk.symm hx
      · exact ih hnd.2 hk

theorem StrMap.mem_keys_set (m : StrMap) (c v x : String)
    (h : x = c ∨ x ∈ m.map (fun kv => kv.1)) : x ∈ (m.set c v).map (fun kv => kv.1) := by
  induction m with
  | nil =>
    rcases h with rfl | h
    · simp [StrMap.set]
    · simp at h
  | cons a t ih =>
    unfold StrMap.set
    by_cases ha : a.1 = c
    · simp only [ha, if_true, List.map_cons, List.mem_cons]
      simp only [List.map_cons, List.mem_cons, ha] at h
      rcases h with h | h | h
      · exact Or.inl h
      · exact Or.inl h
      · exact Or.inr h
    · simp only [ha, if_false, List.map_cons, List.mem_cons]
      simp only [List.map_cons, List.mem_cons] at h
      rcases h with h | h | h
      · exact Or.inr (ih (Or.inl h))
      · exact Or.inl h
      · exact Or.inr (ih (Or.inr h))

theorem cmVars_set_differs (env : Env) (b : MariaDB) (k h1 h2 : String) :
    List.Forall₂ (DiffersAt k h1 h2) ((cmVars env b).set k h1) ((cmVars env b).set k h2) := by
  unfold cmVars
  cases env.EnsureConfigMaps with
  | error e =>
    exact List.Forall₂.cons ⟨rfl, fun h => absurd rfl h, fun _ => ⟨rfl, rfl⟩⟩ List.Forall₂.nil
  | ok hash =>
    simp only [StrMap.set]
    by_cases hk : "mariadb-" ++ b.Name = k
    · rw [if_pos hk, if_pos hk]
      exact List.Forall₂.cons ⟨rfl, fun h => absurd rfl h, fun _ => ⟨rfl, rfl⟩⟩ List.Forall₂.nil
    · rw [if_neg hk, if_neg hk]
      exact List.Forall₂.cons ⟨rfl, fun _ => rfl, fun h => absurd h hk⟩
        (List.Forall₂.cons ⟨rfl, fun h => absurd rfl h, fun _ => ⟨rfl, rfl⟩⟩ List.Forall₂.nil)

/-- The maps of env setters of two passes over the same resource whose environments
differ in the hash of the TLS secret only. -/
theorem configMapVarsOf_differs (env : Env) (b : MariaDB) (l : StrMap) (h1 h2 : String)
    (hf : env.GetSecretTLS = .found l h1) (htls : b.Spec.TLS.SecretName ≠ "")
    (hca : b.Spec.TLS.CaSecretName ≠ b.Spec.TLS.SecretName) :
    List.Forall₂ (DiffersAt b.Spec.TLS.SecretName h1 h2) (configMapVarsOf env b)
        (configMapVarsOf { env with GetSecretTLS := .found l h2 } b) ∧
      b.Spec.TLS.SecretName ∈ (configMapVarsOf env b).map (fun kv => kv.1) := by
  have ht1 : tlsVars env b = (cmVars env b).set b.Spec.TLS.SecretName h1 := by
    unfold tlsVars
    rw [if_pos htls]
    simp only [hf]
  have ht2 : tlsVars { env with GetSecretTLS := .found l h2 } b =
      (cmVars env b).set b.Spec.TLS.SecretName h2 := by
    unfold tlsVars
    rw [if_pos htls]
    rfl
  have hrel : List.Forall₂ (DiffersAt b.Spec.TLS.SecretName h1 h2) (tlsVars env b)
      (tlsVars { env with GetSecretTLS := .found l h2 } b) := by
    rw [ht1, ht2]
    exact cmVars_set_differs env b _ h1 h2
  have hmem : b.Spec.TLS.SecretName ∈ (tlsVars env b).map (fun kv => kv.1) := by
    rw [ht1]
    exact StrMap.mem_keys_set _ _ _ _ (Or.inl rfl)
  unfold configMapVarsOf
  by_cases hc : b.Spec.TLS.CaSecretName ≠ ""
  · rw [if_pos hc, if_pos hc]
    show List.Forall₂ _ (match env.GetSecretCA with
        | .found _ caHash => (tlsVars env b).set b.Spec.TLS.CaSecretName caHash
        | .failed _ => tlsVars env b)
      (match env.GetSecretCA with
        | .found _ caHash =>
          (tlsVars { env with GetSecretTLS := .found l h2 } b).set b.Spec.TLS.CaSecretName caHash
        | .failed _ => tlsVars { env with GetSecretTLS := .found l h2 } b) ∧ _
    cases env.GetSecretCA with
    | failed e => exact ⟨hrel, hmem⟩
    | found labels caHash =>
      exact ⟨StrMap.set_differs hrel _ _ _ ⟨rfl, fun _ => rfl, fun h => absurd h hca⟩,
        StrMap.mem_keys_set _ _ _ _ (Or.inr hmem)⟩
  · rw [if_neg hc, if_neg hc]
    exact ⟨hrel, hmem⟩

/-- Changing the hash of the TLS secret, and nothing else, changes the configuration
hash. -/
theorem configHashFor_differs (env : Env) (b : MariaDB) (l : StrMap) (h1 h2 : String)
    (hf : env.GetSecretTLS = .found l h1) (htls : b.Spec.TLS.SecretName ≠ "")
    (hca : b.Spec.TLS.CaSecretName ≠ b.Spec.TLS.SecretName) (hne : h1 ≠ h2) :
    configHashFor env b ≠ configHashFor { env with GetSecretTLS := .found l h2 } b := by
  obtain ⟨hrel, hmem⟩ := configMapVarsOf_differs env b l h1 h2 hf htls hca
  unfold configHashFor
  exact configHashOf_differs (MergeEnvs_differs env.mapRank hrel) (MergeEnvs_nodup _ _)
    (MergeEnvs_mem _ _ _ hmem) hne

/-- A pass that issues the pod call is the pod step, run on the fetched resource and on
the configuration hash of the pass, followed by the deferred function; the pod is the
one the builder makes from that hash. -/
theorem pod_reached (env : Env) (p : Pod)
    (hp : Step.PodCreateOrPatch p ∈ (Reconcile env).2.trace) :
    ∃ inst0 s, env.Get = .ok inst0 ∧
      Reconcile env =
        finish env (afterInit inst0) (podStep env s (configHashFor env (afterInit inst0))) ∧
      Keeps jobTypes 14 (jobResource env (afterInit inst0)) s ∧
      p = mariadb.Pod env.builders s.inst (configHashFor env (afterInit inst0)) := by
  obtain ⟨i, s, hg, heq, hK, _, _⟩ :=
    (reach_pod env).of_mem _ hp (le_refl _) (by simp [Step.rank])
  refine ⟨i, s, hg, heq, hK, ?_⟩
  rw [heq, finish_snd] at hp
  rcases deferredStatus_mem env _ _ _ hp with h1 | h1
  · rw [podStep_trace] at h1
    simp only [List.mem_append, List.mem_singleton] at h1
    rcases h1 with h1 | h1
    · have := hK.below _ h1
      simp [Step.rank] at this
    · exact Step.PodCreateOrPatch.inj h1
  · simp [Step.rank] at h1

theorem mariadb.Pod_env (b : Builders) (db : MariaDB) (configHash : String) :
    (mariadb.Pod b db configHash).env "CONFIG_HASH" = some configHash := by
  simp [mariadb.Pod, Pod.env, List.find?]

/-- C9: for two passes over the same resource that differ in the content hash of the
TLS secret only (same answers of every other collaborator, same order of the map
range), the TLS secret being stored under a name of its own, the computed configHash
strings are different, and so are the CONFIG_HASH values of the pods handed to
create-or-patch. -/
theorem configHash_follows_tls_hash (env : Env) (inst0 : MariaDB) (l : StrMap)
    (h1 h2 : String) (p1 p2 : Pod)
    (hget : env.Get = .ok inst0)
    (htls : inst0.Spec.TLS.SecretName ≠ "")
    (hca : inst0.Spec.TLS.CaSecretName ≠ inst0.Spec.TLS.SecretName)
    (hf : env.GetSecretTLS = .found l h1) (hne : h1 ≠ h2)
    (hp1 : Step.PodCreateOrPatch p1 ∈ (Reconcile env).2.trace)
    (hp2 : Step.PodCreateOrPatch p2 ∈
      (Reconcile { env with GetSecretTLS := .found l h2 }).2.trace) :
    p1.env "CONFIG_HASH" = some (configHashFor env (afterInit inst0)) ∧
      p2.env "CONFIG_HASH" =
        some (configHashFor { env with GetSecretTLS := .found l h2 } (afterInit inst0)) ∧
      configHashFor env (afterInit inst0) ≠
        configHashFor { env with GetSecretTLS := .found l h2 } (afterInit inst0) ∧
      p1.env "CONFIG_HASH" ≠ p2.env "CONFIG_HASH" := by
  obtain ⟨i1, s1, hg1, _, _, hpod1⟩ := pod_reached env p1 hp1
  obtain ⟨i2, s2, hg2, _, _, hpod2⟩ := pod_reached _ p2 hp2
  rw [hget] at hg1
  cases hg1
  have hg2b : env.Get = .ok i2 := hg2
  rw [hget] at hg2b
  cases hg2b
  have hdiff := configHashFor_differs env (afterInit inst0) l h1 h2 hf
    (by rw [afterInit_spec]; exact htls) (by rw [afterInit_spec]; exact hca) hne
  have e1 : p1.env "CONFIG_HASH" = some (configHashFor env (afterInit inst0)) := by
    rw [hpod1]; exact mariadb.Pod_env _ _ _
  have e2 : p2.env "CONFIG_HASH" =
      some (configHashFor { env with GetSecretTLS := .found l h2 } (afterInit inst0)) := by
    rw [hpod2]; exact mariadb.Pod_env _ _ _
  refine ⟨e1, e2, hdiff, ?_⟩
  rw [e1, e2]
  intro h
  exact hdiff (Option.some.inj h)

theorem configHash_follows_tls_hash_witness :
    (mariadb.Pod sampleBuilders bothDb "n7fh9dqn66bh5c8n5d4h64fh").env "CONFIG_HASH" ≠
      (mariadb.Pod sampleBuilders bothDb "n7fh9dqn8ch5d7n5d4h64fh").env "CONFIG_HASH" :=
  (configHash_follows_tls_hash (envHashes "n66bh5c8" "n7fh9dq") bothDb
    [(mariaDBReconcileLabel, "openstack")] "n66bh5c8" "n8ch5d7"
    (mariadb.Pod sampleBuilders bothDb "n7fh9dqn66bh5c8n5d4h64fh")
    (mariadb.Pod sampleBuilders bothDb "n7fh9dqn8ch5d7n5d4h64fh")
    rfl (by decide) (by decide) rfl (by decide) (by decide) (by decide)).2.2.2

/-- C10: the configHash is the concatenation, without delimiter, of the values of the
merged variables, and it is not injective: with the same secret names, the hashes
(TLS "64h", CA "n5") and (TLS "4h", CA "n56") give the same configHash and the same
CONFIG_HASH on the pod. -/
theorem configHash_not_injective :
    (∀ es : List EnvVar, configHashOf es = String.join (es.map (fun e => e.Value))) ∧
      ∃ (t1 c1 t2 c2 : String) (p1 p2 : Pod),
        (t1, c1) ≠ (t2, c2) ∧
        (envHashes t1 c1).Get = (envHashes t2 c2).Get ∧
        Step.PodCreateOrPatch p1 ∈ (Reconcile (envHashes t1 c1)).2.trace ∧
        Step.PodCreateOrPatch p2 ∈ (Reconcile (envHashes t2 c2)).2.trace ∧
        configHashFor (envHashes t1 c1) bothDb = configHashFor (envHashes t2 c2) bothDb ∧
        p1.env "CONFIG_HASH" = some (configHashFor (envHashes t1 c1) bothDb) ∧
        p2.env "CONFIG_HASH" = some (configHashFor (envHashes t2 c2) bothDb) ∧
        p1.env "CONFIG_HASH" = p2.env "CONFIG_HASH" := by
  refine ⟨?_, "64h", "n5", "4h", "n56",
    mariadb.Pod sampleBuilders bothDb "n564hn5d4h64fh",
    mariadb.Pod sampleBuilders bothDb "n564hn5d4h64fh", by decide, rfl, by decide, by decide,
    by decide, by decide, by decide, rfl⟩
  intro es
  unfold configHashOf String.join
  rw [List.foldl_map]

/-! ## C12, C20: the secret watch and the label -/

theorem StrMap.get?_set_same (m : StrMap) (k v : String) : (m.set k v).get? k = some v := by
  induction m with
  | nil => simp [StrMap.set, StrMap.get?]
  | cons a t ih =>
    unfold StrMap.set
    by_cases ha : a.1 = k
    · simp [ha, StrMap.get?]
    · simp only [ha, if_false]
      unfold StrMap.get? at ih ⊢
      simpa [List.find?, ha] using ih

theorem StrMap.get?_set_other (m : StrMap) (k v x : String) (hx : x ≠ k) :
    (m.set k v).get? x = m.get? x := by
  induction m with
  | nil =>
    have hk : ¬ k = x := fun h => hx h.symm
    simp [StrMap.set, StrMap.get?, hk]
  | cons a t ih =>
    unfold StrMap.set
    by_cases ha : a.1 = k
    · have hax : ¬ a.1 = x := by rw [ha]; exact fun h => hx h.symm
      have hk : ¬ k = x := fun h => hx h.symm
      simp [ha, StrMap.get?, List.find?, hk]
    · simp only [ha, if_false]
      unfold StrMap.get? at ih ⊢
      by_cases hax : a.1 = x
      · simp [List.find?, hax]
      · simpa [List.find?, hax] using ih

theorem Merge_get?_label (labels : StrMap) (k v : String) :
    (Merge labels [(k, v)]).get? k = some v := by
  simp [Merge, StrMap.get?_set_same]

theorem labelledSecret_label (name : String) (secret : Secret) :
    (labelledSecret name secret).Labels.get? mariaDBReconcileLabel = some name := by
  unfold labelledSecret
  split
  · exact Merge_get?_label _ _ _
  · rename_i h
    simpa using h

theorem secretMapFunc_of_label (o : Secret) (v : String)
    (h : o.Labels.get? mariaDBReconcileLabel = some v) :
    secretMapFunc o = [{ Name := v, Namespace := o.Namespace }] := by
  simp [secretMapFunc, h]

/-- C12: the secret watch maps a secret that carries the label "mariadb-ref" with value
`v` to exactly one request, named `v`, in the namespace of the secret, and a secret
without that label to no request. -/
theorem secretMapFunc_spec (o : Secret) :
    (∀ v, o.Labels.get? mariaDBReconcileLabel = some v →
        secretMapFunc o = [{ Name := v, Namespace := o.Namespace }]) ∧
      (o.Labels.get? mariaDBReconcileLabel = none → secretMapFunc o = []) := by
  constructor
  · intro v h
    simp [secretMapFunc, h]
  · intro h
    simp [secretMapFunc, h]

theorem secretMapFunc_spec_witness :
    secretMapFunc (labelledSecret "openstack" certSecret) =
        [{ Name := "openstack", Namespace := "openstack" }] ∧
      secretMapFunc certSecret = [] :=
  ⟨(secretMapFunc_spec (labelledSecret "openstack" certSecret)).1 "openstack" (by decide),
    (secretMapFunc_spec certSecret).2 (by decide)⟩

/-- C20: label, then watch.  For every resource and every secret of its namespace,
whatever labels the secret carries, the secret as the labelling step leaves it is mapped
by the secret watch to exactly one request, the name and namespace of the resource; and
when a second resource labels the same secret afterwards, the watch maps the secret to
the second resource only.  The labelling step hands exactly this secret to `Update`
when the label does not name the resource yet. -/
theorem label_then_watch (db db2 : MariaDB) (secret : Secret)
    (hns : secret.Namespace = db.Namespace) :
    secretMapFunc (labelledSecret db.Name secret) =
        [{ Name := db.Name, Namespace := db.Namespace }] ∧
      secretMapFunc (labelledSecret db2.Name (labelledSecret db.Name secret)) =
        [{ Name := db2.Name, Namespace := db.Namespace }] ∧
      ∀ (update : Secret → Option Err) (call : Secret → Step) (s : PassState),
        s.inst = db → secret.Labels.get? mariaDBReconcileLabel ≠ some db.Name →
        (labelSecret update call s secret).2.trace =
          s.trace ++ [call (labelledSecret db.Name secret)] := by
  have hns1 : ∀ name sec, (labelledSecret name sec).Namespace = sec.Namespace := by
    intro name sec
    unfold labelledSecret
    split <;> rfl
  refine ⟨?_, ?_, ?_⟩
  · rw [secretMapFunc_of_label _ db.Name (labelledSecret_label _ _), hns1, hns]
  · rw [secretMapFunc_of_label _ db2.Name (labelledSecret_label _ _), hns1, hns1, hns]
  · intro update call s hs hl
    unfold labelSecret labelledSecret
    rw [hs, if_pos hl, if_pos hl]
    simp only []
    split
    · split <;> rfl
    · rfl

theorem label_then_watch_witness :
    certSecret.Namespace = freshDb.Namespace ∧
      secretMapFunc (labelledSecret freshDb.Name certSecret) =
        [{ Name := "openstack", Namespace := "openstack" }] ∧
      secretMapFunc (labelledSecret otherDb.Name (labelledSecret freshDb.Name certSecret)) =
        [{ Name := "openstack-cell1", Namespace := "openstack" }] :=
  ⟨rfl, (label_then_watch freshDb otherDb certSecret rfl).1,
    (label_then_watch freshDb otherDb certSecret rfl).2.1⟩

/-! ## C19: the pod builder -/

/-- C19: for every resource `db` and every string `h`, the pod that `Pod` builds is
named "mariadb-" + db.Name in the namespace of `db`, runs under the service account
`db.RbacResourceName()`, which is the name of the pod, and has exactly one container,
"mariadb", with the image of the spec and the env list KOLLA_CONFIG_STRATEGY =
COPY_ALWAYS, CONFIG_HASH = h.  The mutate function of the pod step writes the same image
and env to container 0: it leaves the built pod as it is, and on any pod with a
container it writes these two fields and nothing else. -/
theorem Pod_spec (b : Builders) (db : MariaDB) (h : String) :
    (mariadb.Pod b db h).Name = "mariadb-" ++ db.Name ∧
      (mariadb.Pod b db h).Namespace = db.Namespace ∧
      (mariadb.Pod b db h).ServiceAccountName = db.RbacResourceName ∧
      db.RbacResourceName = (mariadb.Pod b db h).Name ∧
      (∃ c, (mariadb.Pod b db h).Containers = [c] ∧ c.Name = "mariadb" ∧
        c.Image = db.Spec.ContainerImage ∧
        c.Env = [ { Name := "KOLLA_CONFIG_STRATEGY", Value := "COPY_ALWAYS" },
                  { Name := "CONFIG_HASH", Value := h } ]) ∧
      podMutate db h (mariadb.Pod b db h) = some (mariadb.Pod b db h) ∧
      ∀ (pod : Pod) (c : Container) (rest : List Container), pod.Containers = c :: rest →
        podMutate db h pod =
          some { pod with
            Containers :=
              { c with
                Image := db.Spec.ContainerImage
                Env := [ { Name := "KOLLA_CONFIG_STRATEGY", Value := "COPY_ALWAYS" },
                         { Name := "CONFIG_HASH", Value := h } ] } :: rest } := by
  refine ⟨rfl, rfl, rfl, rfl, ⟨_, rfl, rfl, rfl, rfl⟩, rfl, ?_⟩
  intro pod c rest hc
  unfold podMutate
  rw [hc]

/-! ## How the steps change the state of a pass -/

theorem SetsOnly.chain {T : List ConditionType} {L L1 L2 : Conditions}
    (h1 : SetsOnly T L L1) (h2 : SetsOnly T L1 L2) : SetsOnly T L L2 := by
  induction h2 with
  | refl => exact h1
  | set c _ hc ih => exact SetsOnly.set c ih hc

theorem SetsOnly.widen {T T1 : List ConditionType} {L L1 : Conditions}
    (h : SetsOnly T L L1) (hT : T ⊆ T1) : SetsOnly T1 L L1 := by
  induction h with
  | refl => exact SetsOnly.refl _
  | set c _ hc ih => exact SetsOnly.set c ih (hT hc)

theorem SetsOnly.frame {T : List ConditionType} {L L1 : Conditions} (h : SetsOnly T L L1)
    (t : ConditionType) (ht : t ∉ T) : L1.Get t = L.Get t := by
  induction h with
  | refl => rfl
  | set c _ hc ih =>
    rw [Conditions.Get_Set_other _ _ _ (fun e => ht (by rw [← e]; exact hc)), ih]

theorem Evolves.refl (T : List ConditionType) (n : Nat) (s : PassState) : Evolves T n s s :=
  { name := rfl, ns := rfl, spec := rfl, conds := SetsOnly.refl _
    trace := ⟨[], by simp, by simp⟩ }

theorem Evolves.trans {T : List ConditionType} {n : Nat} {s s1 s2 : PassState}
    (h1 : Evolves T n s s1) (h2 : Evolves T n s1 s2) : Evolves T n s s2 := by
  obtain ⟨l1, e1, b1⟩ := h1.trace
  obtain ⟨l2, e2, b2⟩ := h2.trace
  refine
    { name := h2.name.trans h1.name, ns := h2.ns.trans h1.ns, spec := h2.spec.trans h1.spec
      conds := h1.conds.chain h2.conds
      trace := ⟨l1 ++ l2, by rw [e2, e1, List.append_assoc], ?_⟩ }
  intro x hx
  rcases List.mem_append.mp hx with h | h
  · exact b1 x h
  · exact b2 x h

theorem Evolves.weaken {T T1 : List ConditionType} {n m : Nat} {s s1 : PassState}
    (h : Evolves T n s s1) (hT : T ⊆ T1) (hm : m ≤ n) : Evolves T1 m s s1 := by
  obtain ⟨l, e, b⟩ := h.trace
  exact
    { name := h.name, ns := h.ns, spec := h.spec, conds := h.conds.widen hT
      trace := ⟨l, e, fun x hx => le_trans hm (b x hx)⟩ }

theorem Evolves.logged (T : List ConditionType) {n : Nat} (s : PassState) (x : Step)
    (hx : n ≤ x.rank) : Evolves T n s (s.log x) :=
  { name := rfl, ns := rfl, spec := rfl, conds := SetsOnly.refl _
    trace := ⟨[x], rfl, by simpa using hx⟩ }

theorem Evolves.setCond {T : List ConditionType} (n : Nat) (s : PassState) (c : Condition)
    (hc : c.CondType ∈ T) : Evolves T n s (s.Set c) :=
  { name := rfl, ns := rfl, spec := rfl
    conds := SetsOnly.set c (SetsOnly.refl _) hc
    trace := ⟨[], by simp, by simp⟩ }

theorem Evolves.markTrue {T : List ConditionType} (n : Nat) (s : PassState)
    (t : ConditionType) (format : MessageFormat) (ht : t ∈ T) :
    Evolves T n s (s.MarkTrue t format) :=
  Evolves.setCond n s (TrueCondition t format []) ht

theorem Evolves.getFrame {T : List ConditionType} {n : Nat} {s s1 : PassState}
    (h : Evolves T n s s1) (t : ConditionType) (ht : t ∉ T) :
    s1.inst.conds.Get t = s.inst.conds.Get t :=
  h.conds.frame t ht

theorem Evolves.sub {T : List ConditionType} {n : Nat} {s s1 : PassState}
    (h : Evolves T n s s1) (x : Step) (hx : x ∈ s.trace) : x ∈ s1.trace := by
  obtain ⟨l, e, _⟩ := h.trace
  rw [e]
  exact List.mem_append_left _ hx

theorem Evolves.mem {T : List ConditionType} {n : Nat} {s s1 : PassState}
    (h : Evolves T n s s1) (x : Step) (hx : x ∈ s1.trace) : x ∈ s.trace ∨ n ≤ x.rank := by
  obtain ⟨l, e, b⟩ := h.trace
  rw [e] at hx
  rcases List.mem_append.mp hx with h1 | h1
  · exact Or.inl h1
  · exact Or.inr (b x h1)

theorem podStep_evolves (env : Env) {T : List ConditionType} (s : PassState)
    (configHash : String) (hD : DeploymentReadyCondition ∈ T) :
    Evolves T 14 s (podStep env s configHash).2 := by
  have hl : Evolves T 14 s
      (s.log (Step.PodCreateOrPatch (mariadb.Pod env.builders s.inst configHash))) :=
    Evolves.logged T s _ (le_refl _)
  unfold podStep
  simp only []
  split
  · exact hl.trans (Evolves.setCond _ _ _ hD)
  · exact hl.trans (Evolves.setCond _ _ _ hD)
  · split <;> split
    · exact (hl.trans (Evolves.setCond _ _ _ hD)).trans (Evolves.markTrue _ _ _ _ hD)
    · exact hl.trans (Evolves.markTrue _ _ _ _ hD)
    · exact hl.trans (Evolves.setCond _ _ _ hD)
    · exact hl

theorem jobStep_evolves (env : Env) {T : List ConditionType} (s : PassState)
    (configHash : String) (hM : MariaDBInitializedCondition ∈ T)
    (hD : DeploymentReadyCondition ∈ T) :
    Evolves T 12 s (jobStep env s configHash).2 := by
  have hl : Evolves T 12 s (s.log (Step.DoJob s.inst.Status.DbInitHash)) :=
    Evolves.logged T s _ (le_refl _)
  unfold jobStep
  simp only []
  split
  · exact hl.trans (Evolves.setCond _ _ _ hM)
  · split
    · exact hl.trans (Evolves.setCond _ _ _ hM)
    · have hst : Evolves T 12 s (storeHash env s) :=
        { name := rfl, ns := rfl, spec := rfl, conds := SetsOnly.refl _
          trace := ⟨[Step.DoJob s.inst.Status.DbInitHash,
              Step.StatusUpdateJob { s.inst.Status with
                DbInitHash := (env.DoJob s.inst.Status.DbInitHash).GetHash }],
            by simp [storeHash, PassState.log], by simp [Step.rank]⟩ }
      split
      · split
        · exact hst
        · exact (hst.trans (Evolves.markTrue _ _ _ _ hM)).trans
            ((podStep_evolves env _ configHash hD).weaken (List.Subset.refl _) (by omega))
      · exact (hl.trans (Evolves.markTrue _ _ _ _ hM)).trans
          ((podStep_evolves env _ configHash hD).weaken (List.Subset.refl _) (by omega))

theorem hashStep_evolves (env : Env) {T : List ConditionType} (s : PassState)
    (configMapVars : StrMap) (hC : ServiceConfigReadyCondition ∈ T)
    (hM : MariaDBInitializedCondition ∈ T) (hD : DeploymentReadyCondition ∈ T) :
    Evolves T 12 s (hashStep env s configMapVars).2 :=
  (Evolves.markTrue _ _ _ _ hC).trans (jobStep_evolves env _ _ hM hD)

theorem labelSecret_evolves (update : Secret → Option Err) (call : Secret → Step) (m : Nat)
    (hcall : ∀ y, (call y).rank = m) (T : List ConditionType) (s : PassState)
    (secret : Secret) : Evolves T m s (labelSecret update call s secret).2 := by
  unfold labelSecret
  split
  · simp only []
    have hl : Evolves T m s (s.log (call { secret with
        Labels := Merge secret.Labels [(mariaDBReconcileLabel, s.inst.Name)] })) :=
      Evolves.logged T s _ (le_of_eq (hcall _).symm)
    split
    · split <;> exact hl
    · exact hl
  · exact Evolves.refl _ _ _

theorem caStep_evolves (env : Env) {T : List ConditionType} (s : PassState)
    (configMapVars : StrMap) (hC : ServiceConfigReadyCondition ∈ T)
    (hM : MariaDBInitializedCondition ∈ T) (hD : DeploymentReadyCondition ∈ T) :
    Evolves T 10 s (caStep env s configMapVars).2 := by
  have hl : Evolves T 10 s (s.log (Step.GetSecretCA s.inst.Spec.TLS.CaSecretName)) :=
    Evolves.logged T s _ (le_refl _)
  unfold caStep
  split
  · simp only []
    split
    · split <;> exact hl
    · rename_i labels caHash _
      have hk := labelSecret_evolves env.UpdateSecretCA Step.UpdateSecretCA 11 (fun _ => rfl) T
        (s.log (Step.GetSecretCA s.inst.Spec.TLS.CaSecretName))
        { Name := s.inst.Spec.TLS.CaSecretName, Namespace := s.inst.Namespace, Labels := labels }
      have hk10 := hl.trans (hk.weaken (List.Subset.refl _) (show 10 ≤ 11 by omega))
      split
      · rename_i r s2 heq
        exact (congrArg (Evolves T 10 s) (congrArg Prod.snd heq)).mp hk10
      · rename_i s2 heq
        have hk2 : Evolves T 10 s s2 :=
          (congrArg (Evolves T 10 s) (congrArg Prod.snd heq)).mp hk10
        exact hk2.trans
          ((hashStep_evolves env s2 _ hC hM hD).weaken (List.Subset.refl _) (by omega))
  · exact (hashStep_evolves env s _ hC hM hD).weaken (List.Subset.refl _) (by omega)

theorem tlsStep_evolves (env : Env) {T : List ConditionType} (s : PassState)
    (configMapVars : StrMap) (hC : ServiceConfigReadyCondition ∈ T)
    (hM : MariaDBInitializedCondition ∈ T) (hD : DeploymentReadyCondition ∈ T) :
    Evolves T 8 s (tlsStep env s configMapVars).2 := by
  have hl : Evolves T 8 s (s.log (Step.GetSecretTLS s.inst.Spec.TLS.SecretName)) :=
    Evolves.logged T s _ (le_refl _)
  unfold tlsStep
  split
  · simp only []
    split
    · split <;> exact hl
    · rename_i labels tlsHash _
      have hk := labelSecret_evolves env.UpdateSecretTLS Step.UpdateSecretTLS 9 (fun _ => rfl) T
        (s.log (Step.GetSecretTLS s.inst.Spec.TLS.SecretName))
        { Name := s.inst.Spec.TLS.SecretName, Namespace := s.inst.Namespace, Labels := labels }
      have hk8 := hl.trans (hk.weaken (List.Subset.refl _) (show 8 ≤ 9 by omega))
      split
      · rename_i r s2 heq
        exact (congrArg (Evolves T 8 s) (congrArg Prod.snd heq)).mp hk8
      · rename_i s2 heq
        have hk2 : Evolves T 8 s s2 :=
          (congrArg (Evolves T 8 s) (congrArg Prod.snd heq)).mp hk8
        exact hk2.trans
          ((caStep_evolves env s2 _ hC hM hD).weaken (List.Subset.refl _) (by omega))
  · exact (caStep_evolves env s _ hC hM hD).weaken (List.Subset.refl _) (by omega)

theorem configStep_evolves (env : Env) {T : List ConditionType} (s : PassState)
    (hC : ServiceConfigReadyCondition ∈ T) (hM : MariaDBInitializedCondition ∈ T)
    (hD : DeploymentReadyCondition ∈ T) :
    Evolves T 7 (s.log Step.EnsureConfigMaps) (configStep env s).2 := by
  unfold configStep
  simp only []
  split
  · exact Evolves.setCond _ _ _ hC
  · exact (tlsStep_evolves env _ _ hC hM hD).weaken (List.Subset.refl _) (by omega)

theorem exposeError_evolves {T : List ConditionType} (n : Nat) (s : PassState) (e : Err)
    (hE : ExposeServiceReadyCondition ∈ T) : Evolves T n s (exposeError s e).2 :=
  Evolves.setCond _ _ _ hE

theorem endpointsStep_evolves (env : Env) {T : List ConditionType} (s : PassState)
    (hE : ExposeServiceReadyCondition ∈ T) (hC : ServiceConfigReadyCondition ∈ T)
    (hM : MariaDBInitializedCondition ∈ T) (hD : DeploymentReadyCondition ∈ T) :
    Evolves T 6 s (endpointsStep env s).2 := by
  have hl : Evolves T 6 s (s.log Step.EndpointsCreateOrPatch) := Evolves.logged T s _ (le_refl _)
  have hgo : ∀ s1 : PassState, Evolves T 6 s1
      (configStep env (s1.MarkTrue ExposeServiceReadyCondition .ExposeServiceReadyMessage)).2 :=
    fun s1 =>
      (Evolves.markTrue 6 s1 _ _ hE).trans
        ((Evolves.logged T _ Step.EnsureConfigMaps (by decide)).trans
          ((configStep_evolves env _ hC hM hD).weaken (List.Subset.refl _) (by omega)))
  unfold endpointsStep
  split
  · simp only []
    split
    · exact hl.trans (exposeError_evolves 6 _ _ hE)
    · exact hl.trans (exposeError_evolves 6 _ _ hE)
    · exact hl.trans (hgo _)
  · exact hgo _

theorem serviceStep_evolves (env : Env) {T : List ConditionType} (s : PassState)
    (hE : ExposeServiceReadyCondition ∈ T) (hC : ServiceConfigReadyCondition ∈ T)
    (hM : MariaDBInitializedCondition ∈ T) (hD : DeploymentReadyCondition ∈ T) :
    Evolves T 5 (s.log Step.ServiceCreateOrPatch) (serviceStep env s).2 := by
  unfold serviceStep
  simp only []
  split
  · exact exposeError_evolves 5 _ _ hE
  · exact exposeError_evolves 5 _ _ hE
  · exact (endpointsStep_evolves env _ hE hC hM hD).weaken (List.Subset.refl _) (by omega)

theorem pvcStep_evolves (env : Env) {T : List ConditionType} (s : PassState)
    (hE : ExposeServiceReadyCondition ∈ T) (hC : ServiceConfigReadyCondition ∈ T)
    (hM : MariaDBInitializedCondition ∈ T) (hD : DeploymentReadyCondition ∈ T) :
    Evolves T 4 (s.log Step.PvcCreateOrPatch) (pvcStep env s).2 := by
  have hgo : Evolves T 4 (s.log Step.PvcCreateOrPatch)
      (serviceStep env (s.log Step.PvcCreateOrPatch)).2 :=
    (Evolves.logged T _ Step.ServiceCreateOrPatch (by decide)).trans
      ((serviceStep_evolves env _ hE hC hM hD).weaken (List.Subset.refl _) (by omega))
  unfold pvcStep
  simp only []
  split
  · exact Evolves.refl _ _ _
  · split <;> exact Evolves.refl _ _ _
  · split
    · exact Evolves.refl _ _ _
    · split
      · exact Evolves.refl _ _ _
      · exact hgo

theorem rbacFold_evolves {T : List ConditionType} (n : Nat) (hT : rbacTypes ⊆ T)
    (reports : List RbacReport) :
    ∀ s : PassState,
      Evolves T n s
        { s with inst := reports.foldl (fun db r => db.RbacConditionsSet r.condition) s.inst } := by
  induction reports with
  | nil => intro s; exact Evolves.refl _ _ _
  | cons r rest ih =>
    intro s
    simp only [List.foldl_cons]
    have h1 : Evolves T n s { s with inst := s.inst.RbacConditionsSet r.condition } := by
      unfold MariaDB.RbacConditionsSet
      split
      · exact Evolves.setCond n s r.condition (hT (RbacObject.conditionType_mem r.object))
      · exact Evolves.refl _ _ _
    exact h1.trans (ih _)

theorem rbacStep_evolves (env : Env) {T : List ConditionType} (s : PassState)
    (hR : rbacTypes ⊆ T) (hE : ExposeServiceReadyCondition ∈ T)
    (hC : ServiceConfigReadyCondition ∈ T) (hM : MariaDBInitializedCondition ∈ T)
    (hD : DeploymentReadyCondition ∈ T) :
    Evolves T 3 (s.log Step.ReconcileRbac) (rbacStep env s).2 := by
  have hf := rbacFold_evolves 3 hR env.ReconcileRbac.reports (s.log Step.ReconcileRbac)
  unfold rbacStep
  simp only []
  split
  · exact hf
  · split
    · exact hf
    · exact hf.trans
        ((Evolves.logged T _ Step.PvcCreateOrPatch (by decide)).trans
          ((pvcStep_evolves env _ hE hC hM hD).weaken (List.Subset.refl _) (by omega)))

theorem deferredStatus_evolves (env : Env) {T : List ConditionType} (before : MariaDB)
    (s : PassState) (hR : ReadyCondition ∈ T) :
    Evolves T 15 s (deferredStatus env before s) := by
  unfold deferredStatus
  simp only []
  split
  · split
    · exact ((Evolves.markTrue 15 s _ _ hR).trans (Evolves.logged T _ Step.SetAfter (by decide))).trans
        (Evolves.logged T _ _ (by simp [Step.rank]))
    · exact (Evolves.markTrue 15 s _ _ hR).trans (Evolves.logged T _ Step.SetAfter (by decide))
  · split
    · exact (Evolves.logged T _ Step.SetAfter (by decide)).trans
        (Evolves.logged T _ _ (by simp [Step.rank]))
    · exact Evolves.logged T _ Step.SetAfter (by decide)

/-! ## C11: the label on a referenced secret -/

theorem configOn_config : ServiceConfigReadyCondition ∈ configOn := by decide

theorem configOn_job : MariaDBInitializedCondition ∈ configOn := by decide

theorem configOn_pod : DeploymentReadyCondition ∈ configOn := by decide

theorem StrMap.get?_cons (a : String × String) (t : StrMap) (x : String) :
    StrMap.get? (a :: t) x = if a.1 = x then some a.2 else StrMap.get? t x := by
  unfold StrMap.get?
  by_cases h : a.1 = x <;> simp [List.find?, h]

theorem StrMap.get?_of_not_mem (m : StrMap) (x : String)
    (h : x ∉ m.map (fun kv => kv.1)) : m.get? x = none := by
  induction m with
  | nil => rfl
  | cons a t ih =>
    simp only [List.map_cons, List.mem_cons, not_or] at h
    rw [StrMap.get?_cons, if_neg (fun e => h.1 e.symm)]
    exact ih h.2

theorem StrMap.get?_foldl_set (labels : StrMap) (x : String)
    (hnd : (labels.map (fun kv => kv.1)).Nodup) :
    ∀ acc : StrMap,
      StrMap.get? (labels.foldl (fun m kv => m.set kv.1 kv.2) acc) x =
        match labels.get? x with
        | some v => some v
        | none => acc.get? x := by
  induction labels with
  | nil => intro acc; rfl
  | cons a t ih =>
    intro acc
    simp only [List.map_cons, List.nodup_cons] at hnd
    simp only [List.foldl_cons]
    rw [ih hnd.2, StrMap.get?_cons]
    by_cases hax : a.1 = x
    · rw [if_pos hax, StrMap.get?_of_not_mem t x (by rw [← hax]; exact hnd.1), hax]
      simp [StrMap.get?_set_same]
    · rw [if_neg hax, StrMap.get?_set_other _ _ _ _ (fun e => hax e.symm)]

/-- The merge of the labels of a secret with the label of the resource keeps every
other label, the keys of the labels being distinct. -/
theorem Merge_get?_other (labels : StrMap) (k v x : String)
    (hnd : (labels.map (fun kv => kv.1)).Nodup) (hx : x ≠ k) :
    (Merge labels [(k, v)]).get? x = labels.get? x := by
  unfold Merge
  simp only [List.foldl_cons, List.foldl_nil]
  rw [StrMap.get?_set_other _ _ _ _ hx, StrMap.get?_foldl_set labels x hnd []]
  cases labels.get? x <;> rfl

theorem labelSecret_relabel (update : Secret → Option Err) (call : Secret → Step)
    (s : PassState) (secret : Secret)
    (hl : secret.Labels.get? mariaDBReconcileLabel ≠ some s.inst.Name) :
    labelSecret update call s secret =
      ((update (labelledSecret s.inst.Name secret)).map (fun e =>
          if IsConflict e || IsNotFound e then Return.ret { Requeue := true } (some e)
          else Return.ret {} (some e)),
        s.log (call (labelledSecret s.inst.Name secret))) := by
  unfold labelSecret labelledSecret
  rw [if_pos hl, if_pos hl]
  simp only []
  split
  · rename_i e he
    rw [he]
    simp only [Option.map]
    by_cases hc : (IsConflict e || IsNotFound e) = true
    · rw [if_pos hc, if_pos hc]
    · rw [if_neg hc, if_neg hc]
  · rename_i he
    rw [he]
    rfl

theorem tlsStep_found (env : Env) {T : List ConditionType} {b : MariaDB} {s : PassState}
    (configMapVars : StrMap) (name : String) (labels : StrMap) (hash : String)
    (hK : Keeps T 8 b s) (hf : env.GetSecretTLS = .found labels hash)
    (hmem : Step.GetSecretTLS name ∈ (tlsStep env s configMapVars).2.trace)
    (hl : labels.get? mariaDBReconcileLabel ≠ some s.inst.Name) :
    Step.UpdateSecretTLS (labelledSecret s.inst.Name
        { Name := name, Namespace := s.inst.Namespace, Labels := labels }) ∈
        (tlsStep env s configMapVars).2.trace ∧
      ∀ e, env.UpdateSecretTLS (labelledSecret s.inst.Name
          { Name := name, Namespace := s.inst.Namespace, Labels := labels }) = some e →
        (tlsStep env s configMapVars).1 =
          if IsConflict e || IsNotFound e then .ret { Requeue := true } (some e)
          else .ret {} (some e) := by
  have hnot : Step.GetSecretTLS name ∉ s.trace := by
    intro h
    have := hK.below _ h
    simp [Step.rank] at this
  by_cases hn : s.inst.Spec.TLS.SecretName ≠ ""
  · have hout : tlsStep env s configMapVars =
        match labelSecret env.UpdateSecretTLS Step.UpdateSecretTLS
            (s.log (Step.GetSecretTLS s.inst.Spec.TLS.SecretName))
            { Name := s.inst.Spec.TLS.SecretName, Namespace := s.inst.Namespace,
              Labels := labels } with
        | (some r, s1) => (r, s1)
        | (none, s1) => caStep env s1 (configMapVars.set s.inst.Spec.TLS.SecretName hash) := by
      unfold tlsStep
      rw [if_pos hn]
      simp only [hf]
      rfl
    rw [labelSecret_relabel _ _ (s.log (Step.GetSecretTLS s.inst.Spec.TLS.SecretName)) _ hl]
      at hout
    have hname : name = s.inst.Spec.TLS.SecretName := by
      rw [hout] at hmem
      cases hu : env.UpdateSecretTLS (labelledSecret s.inst.Name
            { Name := s.inst.Spec.TLS.SecretName, Namespace := s.inst.Namespace,
              Labels := labels }) with
      | some e =>
        simp only [PassState.log] at hu hmem
        rw [hu] at hmem
        simp only [Option.map, List.mem_append, List.mem_singleton] at hmem
        rcases hmem with (h | h) | h
        · exact absurd h hnot
        · exact Step.GetSecretTLS.inj h
        · exact absurd h (by simp)
      | none =>
        simp only [PassState.log] at hu hmem
        rw [hu] at hmem
        simp only [Option.map] at hmem
        rcases caStep_adds env _ _ _ hmem with h | h
        · simp only [List.mem_append, List.mem_singleton] at h
          rcases h with (h | h) | h
          · exact absurd h hnot
          · exact Step.GetSecretTLS.inj h
          · exact absurd h (by simp)
        · simp [Step.rank] at h
    subst hname
    rw [hout]
    cases hu : env.UpdateSecretTLS (labelledSecret s.inst.Name
          { Name := s.inst.Spec.TLS.SecretName, Namespace := s.inst.Namespace,
            Labels := labels }) with
    | some e =>
      simp only [PassState.log] at hu ⊢
      rw [hu]
      refine ⟨by simp [Option.map], ?_⟩
      intro e1 he1
      cases he1
      simp [Option.map]
    | none =>
      simp only [PassState.log] at hu ⊢
      rw [hu]
      refine ⟨?_, fun e1 he1 => by cases he1⟩
      simp only [Option.map]
      exact (caStep_evolves env _ _ configOn_config configOn_job configOn_pod).sub _
        (by simp)
  · exfalso
    have hout : tlsStep env s configMapVars = caStep env s configMapVars := by
      unfold tlsStep
      rw [if_neg hn]
    rw [hout] at hmem
    rcases caStep_adds env _ _ _ hmem with h | h
    · exact hnot h
    · simp [Step.rank] at h

theorem caStep_found (env : Env) {T : List ConditionType} {b : MariaDB} {s : PassState}
    (configMapVars : StrMap) (name : String) (labels : StrMap) (hash : String)
    (hK : Keeps T 10 b s) (hf : env.GetSecretCA = .found labels hash)
    (hmem : Step.GetSecretCA name ∈ (caStep env s configMapVars).2.trace)
    (hl : labels.get? mariaDBReconcileLabel ≠ some s.inst.Name) :
    Step.UpdateSecretCA (labelledSecret s.inst.Name
        { Name := name, Namespace := s.inst.Namespace, Labels := labels }) ∈
        (caStep env s configMapVars).2.trace ∧
      ∀ e, env.UpdateSecretCA (labelledSecret s.inst.Name
          { Name := name, Namespace := s.inst.Namespace, Labels := labels }) = some e →
        (caStep env s configMapVars).1 =
          if IsConflict e || IsNotFound e then .ret { Requeue := true } (some e)
          else .ret {} (some e) := by
  have hnot : Step.GetSecretCA name ∉ s.trace := by
    intro h
    have := hK.below _ h
    simp [Step.rank] at this
  by_cases hn : s.inst.Spec.TLS.CaSecretName ≠ ""
  · have hout : caStep env s configMapVars =
        match labelSecret env.UpdateSecretCA Step.UpdateSecretCA
            (s.log (Step.GetSecretCA s.inst.Spec.TLS.CaSecretName))
            { Name := s.inst.Spec.TLS.CaSecretName, Namespace := s.inst.Namespace,
              Labels := labels } with
        | (some r, s1) => (r, s1)
        | (none, s1) => hashStep env s1 (configMapVars.set s.inst.Spec.TLS.CaSecretName hash) := by
      unfold caStep
      rw [if_pos hn]
      simp only [hf]
      rfl
    rw [labelSecret_relabel _ _ (s.log (Step.GetSecretCA s.inst.Spec.TLS.CaSecretName)) _ hl]
      at hout
    have hname : name = s.inst.Spec.TLS.CaSecretName := by
      rw [hout] at hmem
      cases hu : env.UpdateSecretCA (labelledSecret s.inst.Name
            { Name := s.inst.Spec.TLS.CaSecretName, Namespace := s.inst.Namespace,
              Labels := labels }) with
      | some e =>
        simp only [PassState.log] at hu hmem
        rw [hu] at hmem
        simp only [Option.map, List.mem_append, List.mem_singleton] at hmem
        rcases hmem with (h | h) | h
        · exact absurd h hnot
        · exact Step.GetSecretCA.inj h
        · exact absurd h (by simp)
      | none =>
        simp only [PassState.log] at hu hmem
        rw [hu] at hmem
        simp only [Option.map] at hmem
        rcases hashStep_adds env _ _ _ hmem with h | h
        · simp only [List.mem_append, List.mem_singleton] at h
          rcases h with (h | h) | h
          · exact absurd h hnot
          · exact Step.GetSecretCA.inj h
          · exact absurd h (by simp)
        · simp [Step.rank] at h
    subst hname
    rw [hout]
    cases hu : env.UpdateSecretCA (labelledSecret s.inst.Name
          { Name := s.inst.Spec.TLS.CaSecretName, Namespace := s.inst.Namespace,
            Labels := labels }) with
    | some e =>
      simp only [PassState.log] at hu ⊢
      rw [hu]
      refine ⟨by simp [Option.map], ?_⟩
      intro e1 he1
      cases he1
      simp [Option.map]
    | none =>
      simp only [PassState.log] at hu ⊢
      rw [hu]
      refine ⟨?_, fun e1 he1 => by cases he1⟩
      simp only [Option.map]
      exact (hashStep_evolves env _ _ configOn_config configOn_job configOn_pod).sub _
        (by simp)
  · exfalso
    have hout : caStep env s configMapVars = hashStep env s configMapVars := by
      unfold caStep
      rw [if_neg hn]
    rw [hout] at hmem
    rcases hashStep_adds env _ _ _ hmem with h | h
    · exact hnot h
    · simp [Step.rank] at h

theorem afterInit_ns (i : MariaDB) : (afterInit i).Namespace = i.Namespace := by
  unfold afterInit
  split <;> rfl

theorem SecretRef.found_step (env : Env) (inst0 : MariaDB) (which : SecretRef) (name : String)
    (labels : StrMap) (hash : String) (hget : env.Get = .ok inst0)
    (hmem : which.fetchStep name ∈ (Reconcile env).2.trace)
    (hf : which.fetch env = .found labels hash)
    (hl : labels.get? mariaDBReconcileLabel ≠ some inst0.Name) :
    which.updateStep (labelledSecret inst0.Name
        { Name := name, Namespace := inst0.Namespace, Labels := labels }) ∈
        (Reconcile env).2.trace ∧
      ∀ e, which.update env (labelledSecret inst0.Name
          { Name := name, Namespace := inst0.Namespace, Labels := labels }) = some e →
        (Reconcile env).1 =
          if IsConflict e || IsNotFound e then .ret { Requeue := true } (some e)
          else .ret {} (some e) := by
  cases which with
  | TLS =>
    obtain ⟨i, s, hg, heq, hK⟩ :=
      (reach_tls env).of_mem _ hmem (le_refl _) (by simp [SecretRef.fetchStep, Step.rank])
    rw [hget] at hg
    cases hg
    have hm2 : Step.GetSecretTLS name ∈
        (tlsStep env s (cmVars env (afterInit inst0))).2.trace := by
      rw [heq, finish_snd] at hmem
      rcases deferredStatus_mem env _ _ _ hmem with h1 | h1
      · exact h1
      · simp [SecretRef.fetchStep, Step.rank] at h1
    have hname : s.inst.Name = inst0.Name := hK.name.trans (afterInit_name _)
    have hns : s.inst.Namespace = inst0.Namespace := hK.ns.trans (afterInit_ns _)
    have hfound := tlsStep_found env _ name labels hash hK hf hm2 (by rw [hname]; exact hl)
    rw [hname, hns] at hfound
    rw [heq]
    refine ⟨?_, fun e he => by rw [finish_fst]; exact hfound.2 e he⟩
    rw [finish_snd]
    exact (deferredStatus_evolves env (afterInit inst0) _
      (List.mem_singleton_self ReadyCondition)).sub _ hfound.1
  | CA =>
    obtain ⟨i, s, hg, heq, hK⟩ :=
      (reach_ca env).of_mem _ hmem (le_refl _) (by simp [SecretRef.fetchStep, Step.rank])
    rw [hget] at hg
    cases hg
    have hm2 : Step.GetSecretCA name ∈
        (caStep env s (tlsVars env (afterInit inst0))).2.trace := by
      rw [heq, finish_snd] at hmem
      rcases deferredStatus_mem env _ _ _ hmem with h1 | h1
      · exact h1
      · simp [SecretRef.fetchStep, Step.rank] at h1
    have hname : s.inst.Name = inst0.Name := hK.name.trans (afterInit_name _)
    have hns : s.inst.Namespace = inst0.Namespace := hK.ns.trans (afterInit_ns _)
    have hfound := caStep_found env _ name labels hash hK hf hm2 (by rw [hname]; exact hl)
    rw [hname, hns] at hfound
    rw [heq]
    refine ⟨?_, fun e he => by rw [finish_fst]; exact hfound.2 e he⟩
    rw [finish_snd]
    exact (deferredStatus_evolves env (afterInit inst0) _
      (List.mem_singleton_self ReadyCondition)).sub _ hfound.1

/-- C11: the pass finds the resource, gets as far as fetching the TLS secret, or the CA
secret, that the resource names, the secret exists, and its label "mariadb-ref" is
absent or differs from the name of the resource.  Then the pass updates the secret: it
issues one `Update` of a secret of that name in the namespace of the resource whose
label "mariadb-ref" is the name of the resource and whose other labels are those the
secret had, key by key (the keys of a label map being distinct).  When that update
fails with a conflict or not-found, the pass returns Requeue = true together with the
error; when it fails otherwise, the pass returns an empty result together with the
error. -/
theorem secret_labelled (env : Env) (inst0 : MariaDB) (which : SecretRef) (name : String)
    (labels : StrMap) (hash : String) (hget : env.Get = .ok inst0)
    (hmem : which.fetchStep name ∈ (Reconcile env).2.trace)
    (hf : which.fetch env = .found labels hash)
    (hnd : (labels.map (fun kv => kv.1)).Nodup)
    (hl : labels.get? mariaDBReconcileLabel ≠ some inst0.Name) :
    ∃ secret : Secret,
      which.updateStep secret ∈ (Reconcile env).2.trace ∧
      secret.Name = name ∧ secret.Namespace = inst0.Namespace ∧
      secret.Labels.get? mariaDBReconcileLabel = some inst0.Name ∧
      (∀ k, k ≠ mariaDBReconcileLabel → secret.Labels.get? k = labels.get? k) ∧
      ∀ e, which.update env secret = some e →
        ((IsConflict e || IsNotFound e) = true →
          (Reconcile env).1 = .ret { Requeue := true } (some e)) ∧
        ((IsConflict e || IsNotFound e) = false → (Reconcile env).1 = .ret {} (some e)) := by
  have h := SecretRef.found_step env inst0 which name labels hash hget hmem hf hl
  have hsec : labelledSecret inst0.Name
      { Name := name, Namespace := inst0.Namespace, Labels := labels } =
      { Name := name, Namespace := inst0.Namespace
        Labels := Merge labels [(mariaDBReconcileLabel, inst0.Name)] } := by
    unfold labelledSecret
    rw [if_pos hl]
  refine ⟨_, h.1, ?_, ?_, labelledSecret_label _ _, ?_, ?_⟩
  · rw [hsec]
  · rw [hsec]
  · intro k hk
    rw [hsec]
    exact Merge_get?_other labels _ _ k hnd hk
  · intro e he
    have hr := h.2 e he
    constructor
    · intro hc
      rw [hr, if_pos hc]
    · intro hc
      rw [hr, if_neg (by simp [hc])]

theorem secret_labelled_witness :
    ∃ secret : Secret,
      SecretRef.CA.updateStep secret ∈ (Reconcile envUnlabelled).2.trace ∧
      secret.Name = "ca-mariadb" ∧ secret.Namespace = bothDb.Namespace ∧
      secret.Labels.get? mariaDBReconcileLabel = some bothDb.Name ∧
      (∀ k, k ≠ mariaDBReconcileLabel → secret.Labels.get? k = StrMap.get? [] k) ∧
      ∀ e, SecretRef.CA.update envUnlabelled secret = some e →
        ((IsConflict e || IsNotFound e) = true →
          (Reconcile envUnlabelled).1 = .ret { Requeue := true } (some e)) ∧
        ((IsConflict e || IsNotFound e) = false →
          (Reconcile envUnlabelled).1 = .ret {} (some e)) :=
  secret_labelled envUnlabelled bothDb .CA "ca-mariadb" [] "n7fh9dq" rfl (by decide) rfl
    (by simp) (by decide)

/-! ## C14: the persistent volume claim -/

theorem finish_sub (env : Env) (b : MariaDB) (out : Outcome) (x : Step)
    (hx : x ∈ out.2.trace) : x ∈ (finish env b out).2.trace :=
  (deferredStatus_evolves env b out.2 (List.mem_singleton_self ReadyCondition)).sub x hx

theorem finish_mem (env : Env) (b : MariaDB) (out : Outcome) (x : Step)
    (hx : x ∈ (finish env b out).2.trace) : x ∈ out.2.trace ∨ 15 ≤ x.rank :=
  deferredStatus_mem env b out.2 x hx

theorem finish_Get (env : Env) (b : MariaDB) (out : Outcome) (t : ConditionType)
    (ht : ReadyCondition ≠ t) :
    (finish env b out).2.inst.conds.Get t = out.2.inst.conds.Get t :=
  deferredStatus_Get env b out.2 t ht

/-- C14: the pass finds the resource and gets as far as the create-or-patch of the
persistent volume claim, which returns an operation (so the storage request parsed).
When the operation is not "none", the pass returns RequeueAfter = 5 seconds with a nil
error and issues no call at the service, the endpoints, the config maps, the secrets,
the init job or the pod; when the operation is "none", the pass goes on to the
create-or-patch of the service. -/
theorem pvc_changed_requeues (env : Env) (inst0 : MariaDB) (op : OperationResult)
    (hget : env.Get = .ok inst0)
    (hmem : Step.PvcCreateOrPatch ∈ (Reconcile env).2.trace)
    (hq : env.ParseQuantity inst0.Spec.StorageRequest = none)
    (hop : env.PvcCreateOrPatch = .done op) :
    (op ≠ .OperationResultNone →
        (Reconcile env).1 = .ret { RequeueAfter := 5 * Second } none ∧
        ∀ x ∈ (Reconcile env).2.trace, x.rank ≤ 4 ∨ 15 ≤ x.rank) ∧
      (op = .OperationResultNone → Step.ServiceCreateOrPatch ∈ (Reconcile env).2.trace) := by
  obtain ⟨i, s, hg, heq, hK⟩ :=
    (reach_pvc env).of_mem _ hmem (le_refl _) (by simp [Step.rank])
  rw [hget] at hg
  cases hg
  have hspec : s.inst.Spec = inst0.Spec := hK.spec.trans (afterInit_spec _)
  have hout : pvcStep env s =
      if op ≠ .OperationResultNone then
        (.ret { RequeueAfter := 5 * Second } none, s.log Step.PvcCreateOrPatch)
      else serviceStep env (s.log Step.PvcCreateOrPatch) := by
    unfold pvcStep
    simp only [hop, PassState.log, hspec, hq]
  constructor
  · intro hne
    rw [if_pos hne] at hout
    rw [heq, hout]
    refine ⟨rfl, ?_⟩
    intro x hx
    rcases finish_mem env _ _ x hx with h | h
    · simp only [PassState.mem_log] at h
      rcases h with h | h
      · exact Or.inl (by have := hK.below x h; omega)
      · rw [h]
        exact Or.inl (le_refl _)
    · exact Or.inr h
  · intro he
    rw [if_neg (by simp [he])] at hout
    rw [heq, hout]
    apply finish_sub
    exact (serviceStep_evolves env (T := exposeOn) _ (by decide) (by decide) (by decide)
      (by decide)).sub _ (by simp)

theorem pvc_changed_requeues_witness :
    ((Reconcile envPvcCreated).1 = .ret { RequeueAfter := 5 * Second } none ∧
        ∀ x ∈ (Reconcile envPvcCreated).2.trace, x.rank ≤ 4 ∨ 15 ≤ x.rank) ∧
      Step.ServiceCreateOrPatch ∈ (Reconcile (sampleEnv freshDb)).2.trace :=
  ⟨(pvc_changed_requeues envPvcCreated freshDb .OperationResultCreated rfl (by decide)
      (by decide) rfl).1 (by decide),
    (pvc_changed_requeues (sampleEnv freshDb) freshDb .OperationResultNone rfl (by decide)
      (by decide) rfl).2 rfl⟩

/-! ## C15: the initialisation of the status -/

theorem helperStep_evolves (env : Env) (s : PassState) :
    Evolves passTypes 2 s (helperStep env s).2 := by
  have hl : Evolves passTypes 2 s (s.log Step.NewHelper) := Evolves.logged _ s _ (le_refl _)
  unfold helperStep
  simp only []
  split
  · exact hl
  · refine hl.trans ((Evolves.logged _ _ Step.ReconcileRbac (by decide)).trans ?_)
    refine Evolves.trans
      ((rbacStep_evolves env (T := passTypes) _ (by decide) (by decide) (by decide)
        (by decide) (by decide)).weaken (List.Subset.refl _) (by omega)) ?_
    exact (deferredStatus_evolves env _ _ (by decide)).weaken (List.Subset.refl _) (by omega)

theorem initialConditions_once :
    ∀ t ∈ constituentTypes,
      ((Option.getD (some (Conditions.Init [] initialConditions)) []).filter
          (fun c => c.CondType = t)).length = 1 ∧
        ∀ c ∈ Option.getD (some (Conditions.Init [] initialConditions)) [],
          c.CondType = t → c.Status = ConditionUnknown := by
  decide

/-- C15: the pass finds a resource whose condition list is nil.  Then the first call
after the fetch is the status update, and the status it persists holds each of the
seven condition types exactly once, with status Unknown; when that update fails with
an error, the pass returns the error with an empty result and issues no further
call. -/
theorem status_initialised (env : Env) (inst0 : MariaDB) (hget : env.Get = .ok inst0)
    (hnil : inst0.Status.Conditions = none) :
    ∃ (st : MariaDBStatus) (rest : List Step),
      (Reconcile env).2.trace = Step.Get :: Step.StatusUpdateInit st :: rest ∧
      (∀ t ∈ constituentTypes,
        ((st.Conditions.getD []).filter (fun c => c.CondType = t)).length = 1 ∧
        ∀ c ∈ st.Conditions.getD [], c.CondType = t → c.Status = ConditionUnknown) ∧
      ∀ e, env.StatusUpdateInit = some e →
        (Reconcile env).1 = .ret {} (some e) ∧ rest = [] := by
  have hinit := initialConditions_once
  cases hu : env.StatusUpdateInit with
  | some e =>
    refine ⟨{ inst0.Status with Conditions := some (Conditions.Init [] initialConditions) },
      [], ?_, hinit, ?_⟩
    · unfold Reconcile
      simp only [hget]
      unfold initStep
      rw [if_pos hnil]
      simp only [hu]
      rfl
    · intro e1 he1
      cases he1
      refine ⟨?_, rfl⟩
      unfold Reconcile
      simp only [hget]
      unfold initStep
      rw [if_pos hnil]
      simp only [hu]
  | none =>
    have hrec : Reconcile env =
        helperStep env
          { inst := inst0.withConds (Conditions.Init [] initialConditions)
            trace := [Step.Get, Step.StatusUpdateInit
              { inst0.Status with Conditions := some (Conditions.Init [] initialConditions) }] } := by
      unfold Reconcile
      simp only [hget]
      unfold initStep
      rw [if_pos hnil]
      simp only [hu]
      rfl
    obtain ⟨l, hl, _⟩ := (helperStep_evolves env
      { inst := inst0.withConds (Conditions.Init [] initialConditions)
        trace := [Step.Get, Step.StatusUpdateInit
          { inst0.Status with Conditions := some (Conditions.Init [] initialConditions) }] }).trace
    refine ⟨{ inst0.Status with Conditions := some (Conditions.Init [] initialConditions) },
      l, ?_, hinit, fun e he => by cases he⟩
    rw [hrec, hl]
    rfl

theorem status_initialised_witness :
    ∃ (st : MariaDBStatus) (rest : List Step),
      (Reconcile envInitUpdateFails).2.trace = Step.Get :: Step.StatusUpdateInit st :: rest ∧
      (∀ t ∈ constituentTypes,
        ((st.Conditions.getD []).filter (fun c => c.CondType = t)).length = 1 ∧
        ∀ c ∈ st.Conditions.getD [], c.CondType = t → c.Status = ConditionUnknown) ∧
      ∀ e, envInitUpdateFails.StatusUpdateInit = some e →
        (Reconcile envInitUpdateFails).1 = .ret {} (some e) ∧ rest = [] :=
  status_initialised envInitUpdateFails freshDb rfl rfl

/-! ## C13: the service and the endpoints -/

theorem exposeError_Get (s : PassState) (e : Err) :
    (exposeError s e).2.inst.conds.Get ExposeServiceReadyCondition =
      some (FalseCondition ExposeServiceReadyCondition ErrorReason SeverityWarning
        ExposeServiceReadyErrorMessage [e.Error]) :=
  PassState.get_Set s _

theorem serviceStep_failed (env : Env) (s : PassState) (e : Err)
    (h : env.ServiceCreateOrPatch.error = some e) :
    serviceStep env s = exposeError (s.log Step.ServiceCreateOrPatch) e := by
  unfold serviceStep
  simp only []
  cases hc : env.ServiceCreateOrPatch with
  | getFailed e1 =>
    rw [hc] at h
    cases h
    rfl
  | failed e1 =>
    rw [hc] at h
    cases h
    rfl
  | done op =>
    rw [hc] at h
    cases h

theorem serviceStep_done (env : Env) (s : PassState)
    (h : env.ServiceCreateOrPatch.error = none) :
    serviceStep env s = endpointsStep env (s.log Step.ServiceCreateOrPatch) := by
  unfold serviceStep
  simp only []
  cases hc : env.ServiceCreateOrPatch with
  | getFailed e1 =>
    rw [hc] at h
    cases h
  | failed e1 =>
    rw [hc] at h
    cases h
  | done op => rfl

theorem endpointsStep_failed (env : Env) {T : List ConditionType} {b : MariaDB}
    {s : PassState} (e : Err) (hK : Keeps T 6 b s)
    (hmem : Step.EndpointsCreateOrPatch ∈ (endpointsStep env s).2.trace)
    (h : env.EndpointsCreateOrPatch.error = some e) :
    endpointsStep env s = exposeError (s.log Step.EndpointsCreateOrPatch) e := by
  have hnot : Step.EndpointsCreateOrPatch ∉ s.trace := by
    intro h1
    have := hK.below _ h1
    simp [Step.rank] at this
  unfold endpointsStep at hmem ⊢
  by_cases hb : env.Endpoints s.inst = true
  · rw [if_pos hb]
    simp only []
    cases hc : env.EndpointsCreateOrPatch with
    | getFailed e1 =>
      rw [hc] at h
      cases h
      rfl
    | failed e1 =>
      rw [hc] at h
      cases h
      rfl
    | done op =>
      rw [hc] at h
      cases h
  · exfalso
    rw [if_neg hb] at hmem
    have hev := (Evolves.logged configOn _ Step.EnsureConfigMaps (le_refl 7)).trans
      (configStep_evolves env
        (s.MarkTrue ExposeServiceReadyCondition ExposeServiceReadyMessage)
        configOn_config configOn_job configOn_pod)
    rcases hev.mem _ hmem with h1 | h1
    · exact hnot h1
    · simp [Step.rank] at h1

theorem endpointsStep_head (env : Env) (s : PassState) (hb : env.Endpoints s.inst = true) :
    Step.EndpointsCreateOrPatch ∈ (endpointsStep env s).2.trace := by
  unfold endpointsStep
  rw [if_pos hb]
  simp only []
  split
  · simp [exposeError, PassState.Set, PassState.log]
  · simp [exposeError, PassState.Set, PassState.log]
  · exact ((Evolves.logged configOn _ Step.EnsureConfigMaps (le_refl 7)).trans
      (configStep_evolves env _ configOn_config configOn_job configOn_pod)).sub _
      (by simp [PassState.MarkTrue, PassState.log])

theorem endpointsStep_done (env : Env) (s : PassState)
    (h : Step.EndpointsCreateOrPatch ∈ (endpointsStep env s).2.trace →
      env.EndpointsCreateOrPatch.error = none) :
    ∃ s1 : PassState, endpointsStep env s =
        configStep env (s1.MarkTrue ExposeServiceReadyCondition ExposeServiceReadyMessage) ∧
      ∀ x ∈ s.trace, x ∈ s1.trace := by
  by_cases hb : env.Endpoints s.inst = true
  · have hnone := h (endpointsStep_head env s hb)
    refine ⟨s.log Step.EndpointsCreateOrPatch, ?_, fun x hx => by simp [PassState.log, hx]⟩
    unfold endpointsStep
    rw [if_pos hb]
    simp only []
    cases hc : env.EndpointsCreateOrPatch with
    | getFailed e1 =>
      rw [hc] at hnone
      cases hnone
    | failed e1 =>
      rw [hc] at hnone
      cases hnone
    | done op => rfl
  · refine ⟨s, ?_, fun x hx => hx⟩
    unfold endpointsStep
    rw [if_neg hb]

theorem configStep_exposed (env : Env) (s : PassState) :
    Step.EnsureConfigMaps ∈
        (configStep env
          (s.MarkTrue ExposeServiceReadyCondition ExposeServiceReadyMessage)).2.trace ∧
      (configStep env
          (s.MarkTrue ExposeServiceReadyCondition ExposeServiceReadyMessage)).2.inst.conds.Get
          ExposeServiceReadyCondition =
        some (TrueCondition ExposeServiceReadyCondition ExposeServiceReadyMessage []) := by
  have hev := configStep_evolves env
    (s.MarkTrue ExposeServiceReadyCondition ExposeServiceReadyMessage)
    configOn_config configOn_job configOn_pod
  refine ⟨hev.sub _ (by simp), ?_⟩
  rw [hev.getFrame ExposeServiceReadyCondition (by decide)]
  exact PassState.get_Set s _

/-- C13: the pass finds the resource and gets as far as the create-or-patch of the
service.  When that create-or-patch fails with an error `e`, or when the pass issues
the create-or-patch of the endpoints (the builder returned an object) and that one
fails with `e`, the pass leaves ExposeServiceReady False with reason Error and severity
Warning, returns `e` with an empty result, and issues no call of a later step.  When
the create-or-patch of the service succeeds and that of the endpoints, if issued,
succeeds, the pass goes on to the config maps and ExposeServiceReady is True. -/
theorem expose_step (env : Env) (inst0 : MariaDB) (hget : env.Get = .ok inst0)
    (hmem : Step.ServiceCreateOrPatch ∈ (Reconcile env).2.trace) :
    (∀ e, env.ServiceCreateOrPatch.error = some e →
        (Reconcile env).1 = .ret {} (some e) ∧
        (Reconcile env).2.inst.conds.Get ExposeServiceReadyCondition =
          some (FalseCondition ExposeServiceReadyCondition ErrorReason SeverityWarning
            ExposeServiceReadyErrorMessage [e.Error]) ∧
        ∀ x ∈ (Reconcile env).2.trace, x.rank ≤ 5 ∨ 15 ≤ x.rank) ∧
      (∀ e, Step.EndpointsCreateOrPatch ∈ (Reconcile env).2.trace →
        env.EndpointsCreateOrPatch.error = some e →
        (Reconcile env).1 = .ret {} (some e) ∧
        (Reconcile env).2.inst.conds.Get ExposeServiceReadyCondition =
          some (FalseCondition ExposeServiceReadyCondition ErrorReason SeverityWarning
            ExposeServiceReadyErrorMessage [e.Error]) ∧
        ∀ x ∈ (Reconcile env).2.trace, x.rank ≤ 6 ∨ 15 ≤ x.rank) ∧
      (env.ServiceCreateOrPatch.error = none →
        (Step.EndpointsCreateOrPatch ∈ (Reconcile env).2.trace →
          env.EndpointsCreateOrPatch.error = none) →
        Step.EnsureConfigMaps ∈ (Reconcile env).2.trace ∧
        (Reconcile env).2.inst.conds.Get ExposeServiceReadyCondition =
          some (TrueCondition ExposeServiceReadyCondition ExposeServiceReadyMessage [])) := by
  obtain ⟨i, s, hg, heq, hK, -, -⟩ :=
    (reach_service env).of_mem _ hmem (le_refl _) (by simp [Step.rank])
  rw [hget] at hg
  cases hg
  refine ⟨?_, ?_, ?_⟩
  · intro e he
    rw [heq, serviceStep_failed env s e he]
    refine ⟨rfl, ?_, ?_⟩
    · rw [finish_Get _ _ _ _ (by decide)]
      exact exposeError_Get _ e
    · intro x hx
      rcases finish_mem env _ _ x hx with h | h
      · have h1 : x ∈ s.trace ∨ x = Step.ServiceCreateOrPatch := by
          simpa [exposeError, PassState.Set, PassState.log] using h
        rcases h1 with h1 | h1
        · exact Or.inl (by have := hK.below x h1; omega)
        · rw [h1]
          exact Or.inl (le_refl _)
      · exact Or.inr h
  · intro e hin he
    obtain ⟨i2, s2, hg2, heq2, hK2⟩ :=
      (reach_endpoints env).of_mem _ hin (le_refl _) (by simp [Step.rank])
    rw [hget] at hg2
    cases hg2
    have hin2 : Step.EndpointsCreateOrPatch ∈ (endpointsStep env s2).2.trace := by
      rw [heq2] at hin
      rcases finish_mem env _ _ _ hin with h | h
      · exact h
      · simp [Step.rank] at h
    rw [heq2, endpointsStep_failed env e hK2 hin2 he]
    refine ⟨rfl, ?_, ?_⟩
    · rw [finish_Get _ _ _ _ (by decide)]
      exact exposeError_Get _ e
    · intro x hx
      rcases finish_mem env _ _ x hx with h | h
      · have h1 : x ∈ s2.trace ∨ x = Step.EndpointsCreateOrPatch := by
          simpa [exposeError, PassState.Set, PassState.log] using h
        rcases h1 with h1 | h1
        · exact Or.inl (by have := hK2.below x h1; omega)
        · rw [h1]
          exact Or.inl (le_refl _)
      · exact Or.inr h
  · intro hs hep
    have hsd := serviceStep_done env s hs
    obtain ⟨s1, hs1, -⟩ := endpointsStep_done env (s.log Step.ServiceCreateOrPatch) (by
      intro hin
      apply hep
      rw [heq, hsd]
      exact finish_sub env _ _ _ hin)
    rw [heq, hsd, hs1]
    refine ⟨finish_sub env _ _ _ (configStep_exposed env s1).1, ?_⟩
    rw [finish_Get _ _ _ _ (by decide)]
    exact (configStep_exposed env s1).2

theorem expose_step_witness :
    ((Reconcile envServiceFails).1 =
          .ret {} (some (.status .Other "services \"openstack\" is forbidden")) ∧
        (Reconcile envServiceFails).2.inst.conds.Get ExposeServiceReadyCondition =
          some (FalseCondition ExposeServiceReadyCondition ErrorReason SeverityWarning
            ExposeServiceReadyErrorMessage
            [(Err.status .Other "services \"openstack\" is forbidden").Error]) ∧
        ∀ x ∈ (Reconcile envServiceFails).2.trace, x.rank ≤ 5 ∨ 15 ≤ x.rank) ∧
      ((Reconcile envEndpointsFails).1 =
          .ret {} (some (.status .Other "endpoints \"openstack\" is forbidden")) ∧
        (Reconcile envEndpointsFails).2.inst.conds.Get ExposeServiceReadyCondition =
          some (FalseCondition ExposeServiceReadyCondition ErrorReason SeverityWarning
            ExposeServiceReadyErrorMessage
            [(Err.status .Other "endpoints \"openstack\" is forbidden").Error]) ∧
        ∀ x ∈ (Reconcile envEndpointsFails).2.trace, x.rank ≤ 6 ∨ 15 ≤ x.rank) ∧
      (Step.EnsureConfigMaps ∈ (Reconcile (sampleEnv redirectDb)).2.trace ∧
        (Reconcile (sampleEnv redirectDb)).2.inst.conds.Get ExposeServiceReadyCondition =
          some (TrueCondition ExposeServiceReadyCondition ExposeServiceReadyMessage [])) :=
  ⟨(expose_step envServiceFails freshDb rfl (by decide)).1 _ rfl,
    (expose_step envEndpointsFails redirectDb rfl (by decide)).2.1 _ (by decide) rfl,
    (expose_step (sampleEnv redirectDb) redirectDb rfl (by decide)).2.2 rfl (fun _ => rfl)⟩

/-! ## C16: the deferred status step -/

theorem Reconcile_helper (env : Env) (inst0 : MariaDB) (hget : env.Get = .ok inst0)
    (hinit : inst0.Status.Conditions = none → env.StatusUpdateInit = none)
    (hhelper : env.NewHelper = none) :
    ∃ s : PassState, Reconcile env = finish env (afterInit inst0) (rbacStep env s) ∧
      s.inst = afterInit inst0 ∧ Keeps [] 3 (afterInit inst0) s := by
  by_cases hnil : inst0.Status.Conditions = none
  · refine ⟨{ inst := afterInit inst0
              trace := [Step.Get, Step.StatusUpdateInit (afterInit inst0).Status,
                Step.NewHelper] }, ?_, rfl,
      keeps_start _ _ (by simp [Step.rank]) (by simp [Step.rank])⟩
    unfold Reconcile
    simp only [hget]
    unfold initStep
    rw [if_pos hnil]
    simp only [hinit hnil]
    unfold helperStep
    simp only [hhelper]
    unfold afterInit
    rw [if_pos hnil]
    rfl
  · refine ⟨{ inst := afterInit inst0, trace := [Step.Get, Step.NewHelper] }, ?_, rfl,
      keeps_start _ _ (by simp [Step.rank]) (by simp [Step.rank])⟩
    unfold Reconcile
    simp only [hget]
    unfold initStep
    rw [if_neg hnil]
    unfold helperStep
    simp only [hhelper]
    unfold afterInit
    rw [if_neg hnil]
    rfl

theorem deferredStatus_patch (env : Env) (before : MariaDB) (s : PassState)
    (hs : ∀ x ∈ s.trace, x.rank < 15) (hset : env.SetAfter = none) (st : MariaDBStatus) :
    Step.StatusPatch st ∈ (deferredStatus env before s).trace ↔
      st = (deferredStatus env before s).inst.Status ∧
        (deferredStatus env before s).inst.Status ≠ before.Status := by
  have hnot : Step.StatusPatch st ∉ s.trace := by
    intro h
    have := hs _ h
    simp [Step.rank] at this
  unfold deferredStatus
  simp only [hset, Option.isNone_none, true_and]
  split <;> split <;> rename_i hch <;>
    simp [PassState.log, PassState.MarkTrue, hnot] at hch ⊢
  all_goals exact fun _ => hch

theorem Reconcile_ignores_patch (env : Env) (x : Option Err) :
    Reconcile { env with StatusPatch := x } = Reconcile env := rfl

theorem rbacStep_below (env : Env) {b : MariaDB} {s : PassState} (hK : Keeps [] 3 b s) :
    ∀ x ∈ (rbacStep env s).2.trace, x.rank < 15 := by
  have lt : ∀ (n : Nat) (o : Outcome), (∀ x ∈ o.2.trace, x.rank < n) → n ≤ 15 →
      ∀ x ∈ o.2.trace, x.rank < 15 :=
    fun n o h hn x hx => lt_of_lt_of_le (h x hx) hn
  have hsub : rbacTypes ⊆ podTypes := by decide
  rcases rbacStep_cases env (hK.mono (List.nil_subset podTypes) (le_refl _)) hsub with
    h | ⟨s1, e1, k1⟩
  · exact lt 4 _ h (by omega)
  rw [e1]
  rcases pvcStep_cases env k1 with h | ⟨s2, e2, k2, -, -⟩
  · exact lt 5 _ h (by omega)
  rw [e2]
  rcases serviceStep_cases env k2 with h | ⟨s3, e3, k3⟩
  · exact lt 6 _ h (by omega)
  rw [e3]
  rcases endpointsStep_cases env k3 (by decide) with h | ⟨s4, e4, k4⟩
  · exact lt 7 _ h (by omega)
  rw [e4]
  rcases configStep_cases env k4 with h | ⟨s5, e5, k5⟩
  · exact lt 8 _ h (by omega)
  rw [e5]
  rcases tlsStep_cases env k5 with h | ⟨s6, e6, k6⟩
  · exact lt 10 _ h (by omega)
  rw [e6]
  rcases caStep_cases env k6 with h | ⟨s7, e7, k7⟩
  · exact lt 12 _ h (by omega)
  rw [e7, hashStep_eq]
  rcases jobStep_cases env (configHashFor env b)
      (k7.MarkTrue ServiceConfigReadyCondition ServiceConfigReadyMessage (by decide))
      (by decide) with h | ⟨s8, e8, k8, -, -⟩
  · exact lt 14 _ h (by omega)
  rw [e8]
  exact podStep_below env _ k8

/-- C16, as stated, fails.  The fetch finds the resource `freshDb`, whose condition list
is nil, and the status update that follows the initialisation fails: the pass returns
the error without reaching the deferred function, so readiness is not recomputed and no
patch is issued, although the status in memory differs from the one fetched.  The same
holds when the helper cannot be built.  And when the helper cannot take its snapshot at
exit, the deferred function runs but issues no patch, although the status changed. -/
theorem status_on_exit_counterexample :
    (envInitUpdateFails.Get = .ok freshDb ∧
        (Reconcile envInitUpdateFails).1 =
          .ret {} (some (.status .Other "etcdserver: request timed out")) ∧
        (Reconcile envInitUpdateFails).2.inst.Status ≠ freshDb.Status ∧
        ∀ x ∈ (Reconcile envInitUpdateFails).2.trace, x.rank < 15) ∧
      (envHelperFails.Get = .ok freshDb ∧
        (Reconcile envHelperFails).1 = .ret {} (some (.errorf "failed to build scheme")) ∧
        ∀ x ∈ (Reconcile envHelperFails).2.trace, x.rank < 15) ∧
      (envSetAfterFails.Get = .ok freshDb ∧
        Step.SetAfter ∈ (Reconcile envSetAfterFails).2.trace ∧
        (Reconcile envSetAfterFails).2.inst.Status ≠ (afterInit freshDb).Status ∧
        ∀ x ∈ (Reconcile envSetAfterFails).2.trace, x.rank < 16) :=
  ⟨⟨rfl, by decide, by decide, by decide⟩, ⟨rfl, by decide, by decide⟩,
    ⟨rfl, by decide, by decide, by decide⟩⟩

/-- C16, amended.  The pass finds the resource, the status update of the
initialisation, if any, succeeds, and the helper is built.  Then, however the pass
ends, the deferred function runs: overall readiness is recomputed (Ready is True at
exit when DeploymentReady is); when the helper takes its snapshot, a status patch is
issued exactly when the status at exit differs from the status the helper saw when it
was built, and it carries the status at exit; and the answer of that patch changes
nothing of what the pass returns or does. -/
theorem status_on_exit (env : Env) (inst0 : MariaDB) (hget : env.Get = .ok inst0)
    (hinit : inst0.Status.Conditions = none → env.StatusUpdateInit = none)
    (hhelper : env.NewHelper = none) :
    Step.SetAfter ∈ (Reconcile env).2.trace ∧
      ((Reconcile env).2.inst.conds.IsTrue DeploymentReadyCondition = true →
        (Reconcile env).2.inst.conds.IsTrue ReadyCondition = true) ∧
      (env.SetAfter = none → ∀ st,
        Step.StatusPatch st ∈ (Reconcile env).2.trace ↔
          st = (Reconcile env).2.inst.Status ∧
            (Reconcile env).2.inst.Status ≠ (afterInit inst0).Status) ∧
      ∀ x : Option Err, Reconcile { env with StatusPatch := x } = Reconcile env := by
  obtain ⟨s, heq, -, hK⟩ := Reconcile_helper env inst0 hget hinit hhelper
  refine ⟨?_, ?_, ?_, fun _ => rfl⟩
  · rw [heq, finish_snd]
    obtain ⟨l, hl, -⟩ := deferredStatus_trace env (afterInit inst0) (rbacStep env s).2
    rw [hl]
    simp
  · rw [heq, finish_snd]
    exact deferredStatus_ready env _ _
  · intro hset st
    rw [heq, finish_snd]
    exact deferredStatus_patch env _ _ (rbacStep_below env hK) hset st

theorem status_on_exit_witness :
    Step.SetAfter ∈ (Reconcile envPatchConflict).2.trace ∧
      ((Reconcile envPatchConflict).2.inst.conds.IsTrue DeploymentReadyCondition = true →
        (Reconcile envPatchConflict).2.inst.conds.IsTrue ReadyCondition = true) ∧
      (envPatchConflict.SetAfter = none → ∀ st,
        Step.StatusPatch st ∈ (Reconcile envPatchConflict).2.trace ↔
          st = (Reconcile envPatchConflict).2.inst.Status ∧
            (Reconcile envPatchConflict).2.inst.Status ≠ (afterInit freshDb).Status) ∧
      ∀ x : Option Err,
        Reconcile { envPatchConflict with StatusPatch := x } = Reconcile envPatchConflict :=
  status_on_exit envPatchConflict freshDb rfl (fun _ => rfl) rfl

/-! ## C18: the account rotation protocol -/

theorem mem_addFinalizer (fin : String) (a : Account) : fin ∈ (addFinalizer fin a).Finalizers := by
  unfold addFinalizer
  split
  · assumption
  · simp

theorem completed_addFinalizer (fin : String) (a : Account) :
    (addFinalizer fin a).completed = a.completed := by
  unfold addFinalizer
  split <;> rfl

theorem not_mem_removeFinalizer (fin : String) (a : Account) :
    fin ∉ (removeFinalizer fin a).Finalizers := by
  simp [removeFinalizer]

theorem Rotating.step {fin old new : String} {c : Cluster} (hne : old ≠ new)
    (h : Rotating fin old new c) :
    Rotating fin old new (consumerReconcile fin c) ∧
      hasFinalizer fin new (consumerReconcile fin c) = true := by
  have hp : ((c.accounts new).getD {}).completed = false := by
    have := h.pending
    unfold isCompleted at this
    cases hc : c.accounts new with
    | none => rfl
    | some a =>
      rw [hc] at this
      simpa using this
  have hrec : consumerReconcile fin c =
      { c with
        accounts := fun x =>
          if x = new then some (addFinalizer fin ((c.accounts new).getD {}))
          else c.accounts x } := by
    unfold consumerReconcile
    rw [h.ref]
    simp only [completed_addFinalizer, hp]
    rfl
  rw [hrec]
  refine ⟨⟨h.ref, ?_, ?_⟩, ?_⟩
  · have := h.old
    unfold hasFinalizer at this ⊢
    simpa [hne] using this
  · unfold isCompleted
    simp [completed_addFinalizer, hp]
  · unfold hasFinalizer
    simp [mem_addFinalizer]

theorem Rotating.steps {fin old new : String} {c : Cluster} (hne : old ≠ new)
    (h : Rotating fin old new c) (n : Nat) :
    Rotating fin old new (Nat.iterate (consumerReconcile fin) n c) ∧
      (1 ≤ n → hasFinalizer fin new (Nat.iterate (consumerReconcile fin) n c) = true) := by
  induction n with
  | zero => exact ⟨h, fun h0 => absurd h0 (by omega)⟩
  | succ k ih =>
    rw [Function.iterate_succ_apply']
    exact ⟨(ih.1.step hne).1, fun _ => (ih.1.step hne).2⟩

theorem Adopted.pass {fin old new : String} {c : Cluster} (hne : old ≠ new)
    (h : Adopted new c) :
    Adopted new (consumerReconcile fin c) ∧
      hasFinalizer fin new (consumerReconcile fin c) = true ∧
      hasFinalizer fin old (consumerReconcile fin c) = false := by
  have hp : ((c.accounts new).getD {}).completed = true := by
    have := h.done
    unfold isCompleted at this
    cases hc : c.accounts new with
    | none =>
      rw [hc] at this
      cases this
    | some a =>
      rw [hc] at this
      simpa using this
  have hrec : consumerReconcile fin c =
      { c with
        accounts := fun x =>
          if x = new then some (addFinalizer fin ((c.accounts new).getD {}))
          else (c.accounts x).map (removeFinalizer fin) } := by
    unfold consumerReconcile
    rw [h.ref]
    simp only [completed_addFinalizer, hp]
    rfl
  rw [hrec]
  refine ⟨⟨h.ref, ?_⟩, ?_, ?_⟩
  · unfold isCompleted
    simp [completed_addFinalizer, hp]
  · unfold hasFinalizer
    simp [mem_addFinalizer]
  · unfold hasFinalizer
    simp only [if_neg hne]
    cases c.accounts old with
    | none => rfl
    | some a => simp [not_mem_removeFinalizer]

theorem Adopted.passes {fin old new : String} {c : Cluster} (hne : old ≠ new)
    (h : Adopted new c) (m : Nat) (hm : 1 ≤ m) :
    Adopted new (Nat.iterate (consumerReconcile fin) m c) ∧
      hasFinalizer fin new (Nat.iterate (consumerReconcile fin) m c) = true ∧
      hasFinalizer fin old (Nat.iterate (consumerReconcile fin) m c) = false := by
  induction m with
  | zero => omega
  | succ k ih =>
    rw [Function.iterate_succ_apply']
    by_cases hk : 1 ≤ k
    · exact (ih hk).1.pass hne
    · have hk0 : k = 0 := by omega
      subst hk0
      exact h.pass hne

/-- C18: the account rotation of the spec, on the consumer controller it describes.
The CR references the account `old`, which carries the finalizer; the reference is
switched to another account `new` that has not completed.  Then after any number of
passes of the controller the old account still carries the finalizer and the new
account is still not completed, and from the first pass on the new account carries the
finalizer.  Once the new account is completed, after any number of passes (one at
least) the finalizer is present on the new account and absent from the old one. -/
theorem account_rotation (fin old new : String) (c : Cluster) (hne : old ≠ new)
    (hold : hasFinalizer fin old c = true) (hnew : isCompleted new c = false) :
    (∀ n, hasFinalizer fin old
          (Nat.iterate (consumerReconcile fin) n (updateAccount new c)) = true ∧
        isCompleted new (Nat.iterate (consumerReconcile fin) n (updateAccount new c)) = false ∧
        (1 ≤ n → hasFinalizer fin new
          (Nat.iterate (consumerReconcile fin) n (updateAccount new c)) = true)) ∧
      ∀ n m, 1 ≤ n → 1 ≤ m →
        hasFinalizer fin new
            (Nat.iterate (consumerReconcile fin) m
              (simulateCompleted new
                (Nat.iterate (consumerReconcile fin) n (updateAccount new c)))) = true ∧
          hasFinalizer fin old
            (Nat.iterate (consumerReconcile fin) m
              (simulateCompleted new
                (Nat.iterate (consumerReconcile fin) n (updateAccount new c)))) = false := by
  have h0 : Rotating fin old new (updateAccount new c) := ⟨rfl, hold, hnew⟩
  constructor
  · intro n
    have h := h0.steps hne n
    exact ⟨h.1.old, h.1.pending, h.2⟩
  · intro n m hn hm
    have h := h0.steps hne n
    have hex : hasFinalizer fin new
        (Nat.iterate (consumerReconcile fin) n (updateAccount new c)) = true := h.2 hn
    have had : Adopted new (simulateCompleted new
        (Nat.iterate (consumerReconcile fin) n (updateAccount new c))) := by
      refine ⟨h.1.ref, ?_⟩
      unfold hasFinalizer at hex
      unfold isCompleted simulateCompleted
      cases hc : (Nat.iterate (consumerReconcile fin) n (updateAccount new c)).accounts new with
      | none =>
        rw [hc] at hex
        cases hex
      | some a => simp [hc]
    exact (had.passes hne m hm).2

theorem account_rotation_witness :
    (∀ n, hasFinalizer "openstack.org/keystone" "some-old-account"
          (Nat.iterate (consumerReconcile "openstack.org/keystone") n
            (updateAccount "some-new-account" rotationStart)) = true ∧
        isCompleted "some-new-account"
          (Nat.iterate (consumerReconcile "openstack.org/keystone") n
            (updateAccount "some-new-account" rotationStart)) = false ∧
        (1 ≤ n → hasFinalizer "openstack.org/keystone" "some-new-account"
          (Nat.iterate (consumerReconcile "openstack.org/keystone") n
            (updateAccount "some-new-account" rotationStart)) = true)) ∧
      ∀ n m, 1 ≤ n → 1 ≤ m →
        hasFinalizer "openstack.org/keystone" "some-new-account"
            (Nat.iterate (consumerReconcile "openstack.org/keystone") m
              (simulateCompleted "some-new-account"
                (Nat.iterate (consumerReconcile "openstack.org/keystone") n
                  (updateAccount "some-new-account" rotationStart)))) = true ∧
          hasFinalizer "openstack.org/keystone" "some-old-account"
            (Nat.iterate (consumerReconcile "openstack.org/keystone") m
              (simulateCompleted "some-new-account"
                (Nat.iterate (consumerReconcile "openstack.org/keystone") n
                  (updateAccount "some-new-account" rotationStart)))) = false :=
  account_rotation "openstack.org/keystone" "some-old-account" "some-new-account"
    rotationStart (by decide) (by decide) (by decide)

/-! ## C17: a second pass over the state a pass left -/

theorem Conditions.Get_cons (x : Condition) (t : Conditions) (ty : ConditionType) :
    Conditions.Get (x :: t) ty = if x.CondType = ty then some x else Conditions.Get t ty := by
  unfold Conditions.Get
  by_cases h : x.CondType = ty <;> simp [List.find?, h]

theorem Conditions.Set_of_Get (cs : Conditions) (c : Condition)
    (h : cs.Get c.CondType = some c) : cs.Set c = cs := by
  induction cs with
  | nil => simp [Conditions.Get] at h
  | cons x t ih =>
    rw [Conditions.Get_cons] at h
    unfold Conditions.Set
    by_cases hx : x.CondType = c.CondType
    · rw [if_pos hx] at h ⊢
      cases h
      rfl
    · rw [if_neg hx] at h ⊢
      rw [ih h]

theorem Conditions.Replace_eq (cs : Conditions) (c : Condition) :
    cs.Replace c = if cs.Has c.CondType then cs.Set c else cs := by
  induction cs with
  | nil => simp [Conditions.Replace, Conditions.Has, Conditions.Get]
  | cons x t ih =>
    unfold Conditions.Replace Conditions.Set
    by_cases hx : x.CondType = c.CondType
    · simp [hx, Conditions.Has, Conditions.Get_cons]
    · rw [if_neg hx, if_neg hx, ih]
      simp only [Conditions.Has, Conditions.Get_cons, if_neg hx]
      split <;> rfl

theorem Conditions.Replace_absorb (cs : Conditions) (a b : Condition)
    (h : a.CondType = b.CondType) : (cs.Replace b).Replace a = cs.Replace a := by
  induction cs with
  | nil => rfl
  | cons x t ih =>
    by_cases hx : x.CondType = b.CondType
    · have hxa : x.CondType = a.CondType := hx.trans h.symm
      simp [Conditions.Replace, hx, hxa, h.symm]
    · have hxa : ¬ x.CondType = a.CondType := fun e => hx (e.trans h)
      simp [Conditions.Replace, hx, hxa, ih]

theorem Conditions.Replace_comm (cs : Conditions) (a b : Condition)
    (h : a.CondType ≠ b.CondType) : (cs.Replace b).Replace a = (cs.Replace a).Replace b := by
  induction cs with
  | nil => rfl
  | cons x t ih =>
    by_cases hb : x.CondType = b.CondType
    · have ha : ¬ x.CondType = a.CondType := fun e => h (e.symm.trans hb)
      have hba : ¬ b.CondType = a.CondType := fun e => h e.symm
      simp [Conditions.Replace, hb, ha, hba]
    · by_cases ha : x.CondType = a.CondType
      · simp [Conditions.Replace, hb, ha, h]
      · simp [Conditions.Replace, hb, ha, ih]

theorem Conditions.Replace_Set (cs : Conditions) (a c : Condition)
    (h : a.CondType ≠ c.CondType) : (cs.Set c).Replace a = (cs.Replace a).Set c := by
  induction cs with
  | nil =>
    have hca : ¬ c.CondType = a.CondType := fun e => h e.symm
    simp [Conditions.Replace, Conditions.Set, hca]
  | cons x t ih =>
    by_cases hc : x.CondType = c.CondType
    · have ha : ¬ x.CondType = a.CondType := fun e => h (e.symm.trans hc)
      have hca : ¬ c.CondType = a.CondType := fun e => h e.symm
      simp [Conditions.Replace, Conditions.Set, hc, ha, hca]
    · by_cases ha : x.CondType = a.CondType
      · simp [Conditions.Replace, Conditions.Set, hc, ha, h]
      · simp [Conditions.Replace, Conditions.Set, hc, ha, ih]

theorem foldl_Replace_absorb (cs : List Condition) (b : Condition) :
    ∀ M : Conditions,
      (cs.foldl Conditions.Replace (M.Replace b)).Replace b =
        (cs.foldl Conditions.Replace M).Replace b := by
  induction cs with
  | nil => intro M; exact Conditions.Replace_absorb M b b rfl
  | cons c t ih =>
    intro M
    simp only [List.foldl_cons]
    by_cases hcb : c.CondType = b.CondType
    · rw [Conditions.Replace_absorb M c b hcb]
    · rw [Conditions.Replace_comm M c b hcb, ih]

theorem foldl_Replace_twice (t : List Condition) :
    ∀ (cs : List Condition) (M : Conditions),
      t.foldl Conditions.Replace (cs.foldl Conditions.Replace (t.foldl Conditions.Replace M)) =
        t.foldl Conditions.Replace (cs.foldl Conditions.Replace M) := by
  induction t with
  | nil => intro cs M; rfl
  | cons b u ih =>
    intro cs M
    simp only [List.foldl_cons]
    have h1 := ih (cs ++ [b]) (M.Replace b)
    simp only [List.foldl_append, List.foldl_cons, List.foldl_nil] at h1
    rw [h1, foldl_Replace_absorb cs b M]

theorem rbacList_eq (reports : List RbacReport) (L : Conditions) :
    rbacList reports L = (reports.map RbacReport.condition).foldl Conditions.Replace L := by
  unfold rbacList
  rw [List.foldl_map]

theorem rbacList_idem (reports : List RbacReport) (L : Conditions) :
    rbacList reports (rbacList reports L) = rbacList reports L := by
  rw [rbacList_eq, rbacList_eq]
  exact foldl_Replace_twice _ [] L

theorem rbacList_Set (reports : List RbacReport) (c : Condition)
    (hc : c.CondType ∉ rbacTypes) :
    ∀ L : Conditions, rbacList reports (L.Set c) = (rbacList reports L).Set c := by
  induction reports with
  | nil => intro L; rfl
  | cons r t ih =>
    intro L
    have hr : r.condition.CondType ≠ c.CondType := by
      intro e
      apply hc
      rw [← e]
      exact RbacObject.conditionType_mem r.object
    simp only [rbacList, List.foldl_cons] at ih ⊢
    rw [Conditions.Replace_Set L r.condition c hr, ih]

/-- The RBAC reconciler leaves a list as it is when the list is what later steps made
of a list the reconciler has been over. -/
theorem rbacList_stable (reports : List RbacReport) {T : List ConditionType}
    (hT : ∀ t ∈ T, t ∉ rbacTypes) {L0 L : Conditions}
    (h : SetsOnly T (rbacList reports L0) L) : rbacList reports L = L := by
  induction h with
  | refl => exact rbacList_idem reports L0
  | set c _ hc ih => rw [rbacList_Set reports c (hT _ hc), ih]

theorem MariaDB.withConds_conds (db : MariaDB) (h : db.Status.Conditions ≠ none) :
    db.withConds db.conds = db := by
  cases db with
  | mk n ns sp st =>
    cases st with
    | mk hash cs =>
      cases cs with
      | none => exact absurd rfl h
      | some L => rfl

theorem MariaDB.RbacConditionsSet_eq (db : MariaDB) (c : Condition)
    (h : db.Status.Conditions ≠ none) :
    db.RbacConditionsSet c = db.withConds (db.conds.Replace c) := by
  unfold MariaDB.RbacConditionsSet
  rw [Conditions.Replace_eq]
  split
  · rfl
  · exact (MariaDB.withConds_conds db h).symm

theorem MariaDB.withConds_withConds (db : MariaDB) (a b : Conditions) :
    (db.withConds a).withConds b = db.withConds b := rfl

theorem MariaDB.withConds_init (db : MariaDB) (a : Conditions) :
    (db.withConds a).Status.Conditions ≠ none := by
  simp [MariaDB.withConds]

theorem rbacFold_eq (reports : List RbacReport) :
    ∀ db : MariaDB, db.Status.Conditions ≠ none →
      reports.foldl (fun db r => db.RbacConditionsSet r.condition) db =
        db.withConds (rbacList reports db.conds) := by
  induction reports with
  | nil => intro db h; exact (MariaDB.withConds_conds db h).symm
  | cons r t ih =>
    intro db h
    simp only [List.foldl_cons, rbacList]
    rw [MariaDB.RbacConditionsSet_eq db _ h, ih _ (MariaDB.withConds_init _ _)]
    rfl

theorem PassState.Set_idle (s : PassState) (c : Condition)
    (hi : s.inst.Status.Conditions ≠ none) (hg : s.inst.conds.Get c.CondType = some c) :
    s.Set c = s := by
  unfold PassState.Set
  rw [Conditions.Set_of_Get _ _ hg, MariaDB.withConds_conds _ hi]

theorem PassState.MarkTrue_idle (s : PassState) (t : ConditionType) (format : MessageFormat)
    (hi : s.inst.Status.Conditions ≠ none)
    (hg : s.inst.conds.Get t = some (TrueCondition t format [])) :
    s.MarkTrue t format = s :=
  PassState.Set_idle s (TrueCondition t format []) hi hg

theorem Settled.afterLog {reports : List RbacReport} {L0 : Conditions} {got : List Condition}
    {s : PassState} (h : Settled reports L0 got s) (x : Step) :
    Settled reports L0 got (s.log x) :=
  ⟨h.init, h.stable, h.got⟩

theorem Settled.afterSet {reports : List RbacReport} {L0 : Conditions} {got : List Condition}
    {s : PassState} (h : Settled reports L0 got s) (c : Condition)
    (hc : c.CondType ∈ laterTypes) (hfresh : ∀ g ∈ got, c.CondType ≠ g.CondType) :
    Settled reports L0 (c :: got) (s.Set c) := by
  refine ⟨MariaDB.withConds_init _ _, SetsOnly.set c h.stable hc, ?_⟩
  intro g hg
  rcases List.mem_cons.mp hg with rfl | hg
  · exact PassState.get_Set s g
  · show (s.inst.conds.Set c).Get g.CondType = some g
    rw [Conditions.Get_Set_other _ _ _ (hfresh g hg)]
    exact h.got g hg

theorem Settled.afterMarkTrue {reports : List RbacReport} {L0 : Conditions} {got : List Condition}
    {s : PassState} (h : Settled reports L0 got s) (t : ConditionType) (format : MessageFormat)
    (hc : t ∈ laterTypes) (hfresh : ∀ g ∈ got, t ≠ g.CondType) :
    Settled reports L0 (TrueCondition t format [] :: got) (s.MarkTrue t format) :=
  h.afterSet (TrueCondition t format []) hc hfresh

theorem Settled.of_inst {reports : List RbacReport} {L0 : Conditions} {got : List Condition}
    {s s1 : PassState} (h : Settled reports L0 got s)
    (hc : s1.inst.Status.Conditions = s.inst.Status.Conditions) :
    Settled reports L0 got s1 := by
  have hcs : s1.inst.conds = s.inst.conds := by
    unfold MariaDB.conds
    rw [hc]
  exact ⟨by rw [hc]; exact h.init, by rw [hcs]; exact h.stable,
    fun g hg => by rw [hcs]; exact h.got g hg⟩

theorem Settled.forget {reports : List RbacReport} {L0 : Conditions} {got : List Condition}
    {s : PassState} (h : Settled reports L0 got s) :
    Settled reports L0 [] s :=
  ⟨h.init, h.stable, fun _ hg => absurd hg (List.not_mem_nil _)⟩

theorem Settled.rbacFix {reports : List RbacReport} {L0 : Conditions} {got : List Condition}
    {s : PassState} (h : Settled reports L0 got s) :
    reports.foldl (fun db r => db.RbacConditionsSet r.condition) s.inst = s.inst := by
  rw [rbacFold_eq reports _ h.init,
    rbacList_stable reports (T := laterTypes) (by decide) h.stable,
    MariaDB.withConds_conds _ h.init]

theorem pod_not_below (p : Pod) (l : List Step) (hs : ∀ x ∈ l, x.rank < 14) :
    Step.PodCreateOrPatch p ∉ l := by
  intro h
  have := hs _ h
  simp [Step.rank] at this

theorem Reconcile_through (env : Env) (inst0 : MariaDB) (p : Pod) (hget : env.Get = .ok inst0)
    (hp : Step.PodCreateOrPatch p ∈ (Reconcile env).2.trace) :
    env.NewHelper = none ∧ (inst0.Status.Conditions = none → env.StatusUpdateInit = none) := by
  constructor
  · cases hh : env.NewHelper with
    | none => rfl
    | some e =>
      exfalso
      unfold Reconcile at hp
      simp only [hget] at hp
      unfold initStep at hp
      split at hp
      · simp only [] at hp
        split at hp
        · simp [PassState.log] at hp
        · unfold helperStep at hp
          simp [hh, PassState.log] at hp
      · unfold helperStep at hp
        simp [hh, PassState.log] at hp
  · intro hnil
    cases hu : env.StatusUpdateInit with
    | none => rfl
    | some e =>
      exfalso
      unfold Reconcile at hp
      simp only [hget] at hp
      unfold initStep at hp
      rw [if_pos hnil] at hp
      simp [hu, PassState.log] at hp

theorem rbacStep_through (env : Env) (s : PassState) (p : Pod)
    (hs : ∀ x ∈ s.trace, x.rank < 14)
    (hp : Step.PodCreateOrPatch p ∈ (rbacStep env s).2.trace) :
    env.ReconcileRbac.err = none ∧ env.ReconcileRbac.result = {} ∧
      rbacStep env s =
        pvcStep env
          { inst := env.ReconcileRbac.reports.foldl
              (fun db r => db.RbacConditionsSet r.condition) s.inst
            trace := s.trace ++ [Step.ReconcileRbac] } := by
  have hnot := pod_not_below p s.trace hs
  cases herr : env.ReconcileRbac.err with
  | some e =>
    exfalso
    unfold rbacStep at hp
    simp [herr, PassState.log, hnot] at hp
  | none =>
    by_cases hres : env.ReconcileRbac.result = {}
    · refine ⟨rfl, hres, ?_⟩
      unfold rbacStep
      simp only [herr, hres, PassState.log]
      simp
    · exfalso
      unfold rbacStep at hp
      simp [herr, hres, PassState.log, hnot] at hp

theorem pvcStep_through (env : Env) (s : PassState) (p : Pod)
    (hs : ∀ x ∈ s.trace, x.rank < 14)
    (hp : Step.PodCreateOrPatch p ∈ (pvcStep env s).2.trace) :
    env.ParseQuantity s.inst.Spec.StorageRequest = none ∧
      env.PvcCreateOrPatch = .done .OperationResultNone ∧
      pvcStep env s = serviceStep env (s.log Step.PvcCreateOrPatch) := by
  have hnot := pod_not_below p s.trace hs
  unfold pvcStep at hp ⊢
  simp only [] at hp ⊢
  cases hc : env.PvcCreateOrPatch with
  | getFailed e =>
    exfalso
    simp [hc, PassState.log, hnot] at hp
  | failed e =>
    exfalso
    rw [hc] at hp
    simp only [] at hp
    split at hp <;> simp [PassState.log, hnot] at hp
  | done op =>
    rw [hc] at hp
    simp only [] at hp ⊢
    cases hq : env.ParseQuantity s.inst.Spec.StorageRequest with
    | some pe =>
      exfalso
      simp [PassState.log, hq, hnot] at hp
    | none =>
      simp only [PassState.log] at hp ⊢
      rw [hq] at hp ⊢
      simp only [] at hp ⊢
      by_cases hop : op = .OperationResultNone
      · subst hop
        simp
      · exfalso
        simp [hop, hnot] at hp

theorem serviceStep_through (env : Env) (s : PassState) (p : Pod)
    (hs : ∀ x ∈ s.trace, x.rank < 14)
    (hp : Step.PodCreateOrPatch p ∈ (serviceStep env s).2.trace) :
    env.ServiceCreateOrPatch.error = none ∧
      serviceStep env s = endpointsStep env (s.log Step.ServiceCreateOrPatch) := by
  have hnot := pod_not_below p s.trace hs
  cases he : env.ServiceCreateOrPatch.error with
  | none => exact ⟨rfl, serviceStep_done env s he⟩
  | some e =>
    exfalso
    rw [serviceStep_failed env s e he] at hp
    simp [exposeError, PassState.Set, PassState.log, hnot] at hp

theorem endpointsStep_through (env : Env) (s : PassState) (p : Pod)
    (hs : ∀ x ∈ s.trace, x.rank < 14)
    (hp : Step.PodCreateOrPatch p ∈ (endpointsStep env s).2.trace) :
    (env.Endpoints s.inst = true → env.EndpointsCreateOrPatch.error = none) ∧
      ∃ s1 : PassState,
        endpointsStep env s =
          configStep env (s1.MarkTrue ExposeServiceReadyCondition ExposeServiceReadyMessage) ∧
        s1.inst = s.inst ∧ ∀ x ∈ s1.trace, x.rank < 14 := by
  have hnot := pod_not_below p s.trace hs
  by_cases hb : env.Endpoints s.inst = true
  · have hl : ∀ x ∈ (s.log Step.EndpointsCreateOrPatch).trace, x.rank < 14 := by
      intro x hx
      rcases (PassState.mem_log _ _ _).mp hx with h | h
      · exact hs x h
      · rw [h]
        decide
    cases he : env.EndpointsCreateOrPatch.error with
    | some e =>
      exfalso
      unfold endpointsStep at hp
      rw [if_pos hb] at hp
      simp only [] at hp
      cases hc : env.EndpointsCreateOrPatch with
      | getFailed e1 =>
        rw [hc] at hp
        simp [exposeError, PassState.Set, PassState.log, hnot] at hp
      | failed e1 =>
        rw [hc] at hp
        simp [exposeError, PassState.Set, PassState.log, hnot] at hp
      | done op =>
        rw [hc] at he
        cases he
    | none =>
      refine ⟨fun _ => rfl, s.log Step.EndpointsCreateOrPatch, ?_, rfl, hl⟩
      unfold endpointsStep
      rw [if_pos hb]
      simp only []
      cases hc : env.EndpointsCreateOrPatch with
      | getFailed e1 =>
        rw [hc] at he
        cases he
      | failed e1 =>
        rw [hc] at he
        cases he
      | done op => rfl
  · refine ⟨fun h => absurd h hb, s, ?_, rfl, hs⟩
    unfold endpointsStep
    rw [if_neg hb]

theorem configStep_through (env : Env) (s : PassState) (p : Pod)
    (hs : ∀ x ∈ s.trace, x.rank < 14)
    (hp : Step.PodCreateOrPatch p ∈ (configStep env s).2.trace) :
    (∃ hash, env.EnsureConfigMaps = .ok hash) ∧
      configStep env s = tlsStep env (s.log Step.EnsureConfigMaps) (cmVars env s.inst) := by
  have hnot := pod_not_below p s.trace hs
  unfold configStep at hp ⊢
  unfold cmVars
  simp only [] at hp ⊢
  cases hc : env.EnsureConfigMaps with
  | error e =>
    exfalso
    rw [hc] at hp
    simp [PassState.Set, PassState.log, hnot] at hp
  | ok hash => exact ⟨⟨hash, rfl⟩, rfl⟩

theorem labelSecret_state (update : Secret → Option Err) (call : Secret → Step)
    (s : PassState) (secret : Secret) :
    (labelSecret update call s secret).2.inst = s.inst ∧
      ∀ x ∈ (labelSecret update call s secret).2.trace,
        x ∈ s.trace ∨ x = call (labelledSecret s.inst.Name secret) := by
  by_cases hl : secret.Labels.get? mariaDBReconcileLabel ≠ some s.inst.Name
  · rw [labelSecret_relabel update call s secret hl]
    exact ⟨rfl, fun x hx => (PassState.mem_log _ _ _).mp hx⟩
  · have h : labelSecret update call s secret = (none, s) := by
      unfold labelSecret
      rw [if_neg hl]
    rw [h]
    exact ⟨rfl, fun x hx => Or.inl hx⟩

theorem tlsStep_through (env : Env) (s : PassState) (p : Pod)
    (hs : ∀ x ∈ s.trace, x.rank < 14)
    (hp : Step.PodCreateOrPatch p ∈ (tlsStep env s (cmVars env s.inst)).2.trace) :
    (s.inst.Spec.TLS.SecretName ≠ "" → ∃ labels hash, env.GetSecretTLS = .found labels hash) ∧
      ∃ s1 : PassState,
        tlsStep env s (cmVars env s.inst) = caStep env s1 (tlsVars env s.inst) ∧
        s1.inst = s.inst ∧ ∀ x ∈ s1.trace, x.rank < 14 := by
  have hnot := pod_not_below p s.trace hs
  by_cases hn : s.inst.Spec.TLS.SecretName ≠ ""
  · cases hf : env.GetSecretTLS with
    | failed e =>
      exfalso
      unfold tlsStep at hp
      rw [if_pos hn] at hp
      simp only [hf] at hp
      split at hp <;> simp [PassState.log, hnot] at hp
    | found labels hash =>
      have hst := labelSecret_state env.UpdateSecretTLS Step.UpdateSecretTLS
        (s.log (Step.GetSecretTLS s.inst.Spec.TLS.SecretName))
        { Name := s.inst.Spec.TLS.SecretName, Namespace := s.inst.Namespace, Labels := labels }
      have hout : tlsStep env s (cmVars env s.inst) =
          match labelSecret env.UpdateSecretTLS Step.UpdateSecretTLS
              (s.log (Step.GetSecretTLS s.inst.Spec.TLS.SecretName))
              { Name := s.inst.Spec.TLS.SecretName, Namespace := s.inst.Namespace,
                Labels := labels } with
          | (some r, s1) => (r, s1)
          | (none, s1) =>
            caStep env s1 ((cmVars env s.inst).set s.inst.Spec.TLS.SecretName hash) := by
        unfold tlsStep
        rw [if_pos hn]
        simp only [hf]
        rfl
      have hv : tlsVars env s.inst = (cmVars env s.inst).set s.inst.Spec.TLS.SecretName hash := by
        unfold tlsVars
        rw [if_pos hn]
        simp only [hf]
      have hbound : ∀ x ∈ (labelSecret env.UpdateSecretTLS Step.UpdateSecretTLS
              (s.log (Step.GetSecretTLS s.inst.Spec.TLS.SecretName))
              { Name := s.inst.Spec.TLS.SecretName, Namespace := s.inst.Namespace,
                Labels := labels }).2.trace, x.rank < 14 := by
        intro x hx
        rcases hst.2 x hx with h | h
        · rcases (PassState.mem_log _ _ _).mp h with h1 | h1
          · exact hs x h1
          · rw [h1]
            simp [Step.rank]
        · rw [h]
          simp [Step.rank]
      refine ⟨fun _ => ⟨labels, hash, rfl⟩, ?_⟩
      rw [hout] at hp ⊢
      rw [hv]
      revert hp hst hbound
      generalize labelSecret env.UpdateSecretTLS Step.UpdateSecretTLS
        (s.log (Step.GetSecretTLS s.inst.Spec.TLS.SecretName))
        { Name := s.inst.Spec.TLS.SecretName, Namespace := s.inst.Namespace,
          Labels := labels } = ls
      intro hp hst hbound
      obtain ⟨o, s2⟩ := ls
      cases o with
      | some r =>
        exfalso
        exact pod_not_below p s2.trace hbound hp
      | none => exact ⟨s2, rfl, hst.1, hbound⟩
  · refine ⟨fun h => absurd h hn, s, ?_, rfl, hs⟩
    unfold tlsStep tlsVars
    rw [if_neg hn, if_neg hn]

theorem caStep_through (env : Env) (s : PassState) (b : MariaDB) (p : Pod)
    (hb : s.inst.Spec = b.Spec) (hs : ∀ x ∈ s.trace, x.rank < 14)
    (hp : Step.PodCreateOrPatch p ∈ (caStep env s (tlsVars env b)).2.trace) :
    (s.inst.Spec.TLS.CaSecretName ≠ "" → ∃ labels hash, env.GetSecretCA = .found labels hash) ∧
      ∃ s1 : PassState,
        caStep env s (tlsVars env b) = hashStep env s1 (configMapVarsOf env b) ∧
        s1.inst = s.inst ∧ ∀ x ∈ s1.trace, x.rank < 14 := by
  have hnot := pod_not_below p s.trace hs
  by_cases hn : s.inst.Spec.TLS.CaSecretName ≠ ""
  · cases hf : env.GetSecretCA with
    | failed e =>
      exfalso
      unfold caStep at hp
      rw [if_pos hn] at hp
      simp only [hf] at hp
      split at hp <;> simp [PassState.log, hnot] at hp
    | found labels hash =>
      have hst := labelSecret_state env.UpdateSecretCA Step.UpdateSecretCA
        (s.log (Step.GetSecretCA s.inst.Spec.TLS.CaSecretName))
        { Name := s.inst.Spec.TLS.CaSecretName, Namespace := s.inst.Namespace, Labels := labels }
      have hout : caStep env s (tlsVars env b) =
          match labelSecret env.UpdateSecretCA Step.UpdateSecretCA
              (s.log (Step.GetSecretCA s.inst.Spec.TLS.CaSecretName))
              { Name := s.inst.Spec.TLS.CaSecretName, Namespace := s.inst.Namespace,
                Labels := labels } with
          | (some r, s1) => (r, s1)
          | (none, s1) =>
            hashStep env s1 ((tlsVars env b).set s.inst.Spec.TLS.CaSecretName hash) := by
        unfold caStep
        rw [if_pos hn]
        simp only [hf]
        rfl
      have hv : configMapVarsOf env b =
          (tlsVars env b).set s.inst.Spec.TLS.CaSecretName hash := by
        unfold configMapVarsOf
        rw [← hb, if_pos hn]
        simp only [hf]
      have hbound : ∀ x ∈ (labelSecret env.UpdateSecretCA Step.UpdateSecretCA
              (s.log (Step.GetSecretCA s.inst.Spec.TLS.CaSecretName))
              { Name := s.inst.Spec.TLS.CaSecretName, Namespace := s.inst.Namespace,
                Labels := labels }).2.trace, x.rank < 14 := by
        intro x hx
        rcases hst.2 x hx with h | h
        · rcases (PassState.mem_log _ _ _).mp h with h1 | h1
          · exact hs x h1
          · rw [h1]
            simp [Step.rank]
        · rw [h]
          simp [Step.rank]
      refine ⟨fun _ => ⟨labels, hash, rfl⟩, ?_⟩
      rw [hout] at hp ⊢
      rw [hv]
      revert hp hst hbound
      generalize labelSecret env.UpdateSecretCA Step.UpdateSecretCA
        (s.log (Step.GetSecretCA s.inst.Spec.TLS.CaSecretName))
        { Name := s.inst.Spec.TLS.CaSecretName, Namespace := s.inst.Namespace,
          Labels := labels } = ls
      intro hp hst hbound
      obtain ⟨o, s2⟩ := ls
      cases o with
      | some r =>
        exfalso
        exact pod_not_below p s2.trace hbound hp
      | none => exact ⟨s2, rfl, hst.1, hbound⟩
  · refine ⟨fun h => absurd h hn, s, ?_, rfl, hs⟩
    unfold caStep configMapVarsOf
    rw [← hb, if_neg hn, if_neg hn]

theorem jobStep_through (env : Env) (s : PassState) (configHash : String) (p : Pod)
    (hs : ∀ x ∈ s.trace, x.rank < 14)
    (hp : Step.PodCreateOrPatch p ∈ (jobStep env s configHash).2.trace) :
    (env.DoJob s.inst.Status.DbInitHash).result = {} ∧
      (env.DoJob s.inst.Status.DbInitHash).err = none ∧
      ∃ s1 : PassState,
        jobStep env s configHash =
          podStep env
            (s1.MarkTrue MariaDBInitializedCondition MariaDBInitializedReadyMessage)
            configHash ∧
        s1.inst.Name = s.inst.Name ∧ s1.inst.Namespace = s.inst.Namespace ∧
        s1.inst.Spec = s.inst.Spec ∧
        s1.inst.Status.Conditions = s.inst.Status.Conditions ∧
        ∀ x ∈ s1.trace, x.rank < 14 := by
  have hnot := pod_not_below p s.trace hs
  by_cases hres : (env.DoJob s.inst.Status.DbInitHash).result = {}
  · cases herr : (env.DoJob s.inst.Status.DbInitHash).err with
    | some e =>
      exfalso
      rw [jobStep_error env s configHash e hres herr] at hp
      simp [PassState.Set, PassState.log, hnot] at hp
    | none =>
      refine ⟨hres, rfl, ?_⟩
      cases hch : (env.DoJob s.inst.Status.DbInitHash).HasChanged with
      | true =>
        rw [jobStep_changed env s configHash hres herr hch] at hp ⊢
        have hb : ∀ x ∈ (storeHash env s).trace, x.rank < 14 := by
          intro x hx
          simp only [storeHash, PassState.log, List.mem_append, List.mem_singleton] at hx
          rcases hx with (h | h) | h
          · exact hs x h
          · rw [h]
            simp [Step.rank]
          · rw [h]
            simp [Step.rank]
        cases hu : env.StatusUpdateJob with
        | some e =>
          exfalso
          rw [hu] at hp
          exact pod_not_below p _ hb hp
        | none => exact ⟨storeHash env s, rfl, rfl, rfl, rfl, rfl, hb⟩
      | false =>
        rw [jobStep_unchanged env s configHash hres herr hch]
        refine ⟨s.log (Step.DoJob s.inst.Status.DbInitHash), rfl, rfl, rfl, rfl, rfl, ?_⟩
        intro x hx
        rcases (PassState.mem_log _ _ _).mp hx with h | h
        · exact hs x h
        · rw [h]
          simp [Step.rank]
  · exfalso
    rw [jobStep_running env s configHash hres] at hp
    simp [PassState.Set, PassState.log, hnot] at hp

theorem podStep_idle {env : Env} {F : MariaDB} (h : Converged env F) (s : PassState)
    (hs : s.inst = F) :
    podStep env s (configHashFor env F) =
      (.ret {} none,
        s.log (Step.PodCreateOrPatch (mariadb.Pod env.builders F (configHashFor env F)))) := by
  unfold podStep
  simp only [hs, h.podNone]
  by_cases hph : (env.PodCreateOrPatch (mariadb.Pod env.builders F (configHashFor env F))).Phase =
      .PodRunning
  · simp only [hph, ne_eq, not_true_eq_false, if_false, if_true]
    rw [PassState.MarkTrue_idle _ _ _ (by simpa [PassState.log, hs] using h.init)
      (by simpa [PassState.log, hs] using h.podPhase hph)]
  · simp only [hph, ne_eq, not_true_eq_false, if_false]

theorem jobStep_idle {env : Env} {F : MariaDB} (h : Converged env F) (s : PassState)
    (hs : s.inst = F) :
    jobStep env s (configHashFor env F) =
      (.ret {} none, { inst := F, trace := s.trace ++ idleJob env F }) := by
  rw [jobStep_unchanged env s _ (by rw [hs]; exact h.jobResult) (by rw [hs]; exact h.jobErr)
    (by rw [hs]; exact h.jobSame)]
  rw [PassState.MarkTrue_idle _ _ _ (by simpa [PassState.log, hs] using h.init)
    (by simpa [PassState.log, hs] using h.initialized)]
  rw [podStep_idle h _ (by simp [PassState.log, hs])]
  simp [PassState.log, idleJob, hs]

theorem hashStep_idle {env : Env} {F : MariaDB} (h : Converged env F) (s : PassState)
    (hs : s.inst = F) :
    hashStep env s (configMapVarsOf env F) =
      (.ret {} none, { inst := F, trace := s.trace ++ idleJob env F }) := by
  rw [hashStep_eq, PassState.MarkTrue_idle _ _ _ (by rw [hs]; exact h.init)
    (by rw [hs]; exact h.config)]
  exact jobStep_idle h s hs

theorem labelSecret_idle (update : Secret → Option Err) (call : Secret → Step)
    (s : PassState) (secret : Secret)
    (hl : secret.Labels.get? mariaDBReconcileLabel = some s.inst.Name) :
    labelSecret update call s secret = (none, s) := by
  unfold labelSecret
  rw [if_neg (by simp [hl])]

theorem caStep_idle {env : Env} {F : MariaDB} (h : Converged env F) (s : PassState)
    (hs : s.inst = F) :
    caStep env s (tlsVars env F) =
      (.ret {} none,
        { inst := F
          trace := s.trace ++
            ((if F.Spec.TLS.CaSecretName ≠ "" then [Step.GetSecretCA F.Spec.TLS.CaSecretName]
              else []) ++ idleJob env F) }) := by
  by_cases hn : F.Spec.TLS.CaSecretName ≠ ""
  · obtain ⟨labels, hash, hf, hl⟩ := h.ca hn
    have hv : configMapVarsOf env F = (tlsVars env F).set F.Spec.TLS.CaSecretName hash := by
      unfold configMapVarsOf
      rw [if_pos hn]
      simp only [hf]
    unfold caStep
    rw [hs, if_pos hn]
    simp only [hf]
    rw [labelSecret_idle _ _ _ _ (by simpa [PassState.log, hs] using hl)]
    simp only [PassState.log, hs]
    rw [← hv, hashStep_idle h _ rfl]
    simp [hn]
  · have hv : configMapVarsOf env F = tlsVars env F := by
      unfold configMapVarsOf
      rw [if_neg hn]
    unfold caStep
    rw [hs, if_neg hn, ← hv, hashStep_idle h _ hs]
    simp [hn]

theorem tlsStep_idle {env : Env} {F : MariaDB} (h : Converged env F) (s : PassState)
    (hs : s.inst = F) :
    tlsStep env s (cmVars env F) =
      (.ret {} none, { inst := F, trace := s.trace ++ idleSecrets env F }) := by
  by_cases hn : F.Spec.TLS.SecretName ≠ ""
  · obtain ⟨labels, hash, hf, hl⟩ := h.tls hn
    have hv : tlsVars env F = (cmVars env F).set F.Spec.TLS.SecretName hash := by
      unfold tlsVars
      rw [if_pos hn]
      simp only [hf]
    unfold tlsStep
    rw [hs, if_pos hn]
    simp only [hf]
    rw [labelSecret_idle _ _ _ _ (by simpa [PassState.log, hs] using hl)]
    simp only [PassState.log, hs]
    rw [← hv, caStep_idle h _ rfl]
    simp [idleSecrets, hn]
  · have hv : tlsVars env F = cmVars env F := by
      unfold tlsVars
      rw [if_neg hn]
    unfold tlsStep
    rw [hs, if_neg hn, ← hv, caStep_idle h _ hs]
    simp [idleSecrets, hn]

theorem configStep_idle {env : Env} {F : MariaDB} (h : Converged env F) (s : PassState)
    (hs : s.inst = F) :
    configStep env s =
      (.ret {} none,
        { inst := F, trace := s.trace ++ Step.EnsureConfigMaps :: idleSecrets env F }) := by
  obtain ⟨hash, hc⟩ := h.configMaps
  have hv : cmVars env F = StrMap.set [] ("mariadb-" ++ F.Name) hash := by
    unfold cmVars
    simp only [hc]
  unfold configStep
  simp only [hc]
  rw [show (s.log Step.EnsureConfigMaps).inst.Name = F.Name by simp [PassState.log, hs], ← hv,
    tlsStep_idle h _ (by simp [PassState.log, hs])]
  simp [PassState.log]

theorem endpointsStep_idle {env : Env} {F : MariaDB} (h : Converged env F) (s : PassState)
    (hs : s.inst = F) :
    endpointsStep env s =
      (.ret {} none,
        { inst := F
          trace := s.trace ++
            ((if env.Endpoints F then [Step.EndpointsCreateOrPatch] else []) ++
              Step.EnsureConfigMaps :: idleSecrets env F) }) := by
  unfold endpointsStep
  rw [hs]
  by_cases hb : env.Endpoints F = true
  · rw [if_pos hb]
    simp only []
    have he := h.endpoints hb
    cases hc : env.EndpointsCreateOrPatch with
    | getFailed e =>
      rw [hc] at he
      cases he
    | failed e =>
      rw [hc] at he
      cases he
    | done op =>
      simp only []
      rw [PassState.MarkTrue_idle _ _ _ (by simpa [PassState.log, hs] using h.init)
        (by simpa [PassState.log, hs] using h.expose),
        configStep_idle h _ (by simp [PassState.log, hs])]
      simp [PassState.log, hb]
  · rw [if_neg hb]
    rw [PassState.MarkTrue_idle _ _ _ (by rw [hs]; exact h.init) (by rw [hs]; exact h.expose),
      configStep_idle h _ hs]
    simp [hb]

theorem serviceStep_idle {env : Env} {F : MariaDB} (h : Converged env F) (s : PassState)
    (hs : s.inst = F) :
    serviceStep env s = (.ret {} none, { inst := F, trace := s.trace ++ idleExpose env F }) := by
  rw [serviceStep_done env s h.service, endpointsStep_idle h _ (by simp [PassState.log, hs])]
  simp [PassState.log, idleExpose]

theorem rbacStep_idle {env : Env} {F : MariaDB} (h : Converged env F) (s : PassState)
    (hs : s.inst = F) :
    rbacStep env s =
      (.ret {} none,
        { inst := F
          trace := s.trace ++
            Step.ReconcileRbac :: Step.PvcCreateOrPatch :: idleExpose env F }) := by
  have hpvc : ∀ s1 : PassState, s1.inst = F →
      pvcStep env s1 =
        (.ret {} none,
          { inst := F, trace := s1.trace ++ Step.PvcCreateOrPatch :: idleExpose env F }) := by
    intro s1 hs1
    unfold pvcStep
    simp only [h.pvc, PassState.log, hs1, h.quantity]
    have := serviceStep_idle h { inst := F, trace := s1.trace ++ [Step.PvcCreateOrPatch] } rfl
    simpa using this
  unfold rbacStep
  simp only [h.rbacErr, h.rbacResult, PassState.log, hs, h.rbacFix]
  have := hpvc { inst := F, trace := s.trace ++ [Step.ReconcileRbac] } rfl
  simpa using this

/-- A pass over a converged resource returns an empty result and a nil error, leaves the
resource as it is, and issues the calls of `idleTrace`. -/
theorem Reconcile_idle {env : Env} {F : MariaDB} (h : Converged env F)
    (hget : env.Get = .ok F) :
    Reconcile env = (.ret {} none, { inst := F, trace := idleTrace env F }) := by
  unfold Reconcile
  simp only [hget]
  unfold initStep
  rw [if_neg h.init]
  unfold helperStep
  simp only [h.helper]
  rw [rbacStep_idle h _ (by simp [PassState.log])]
  simp only [PassState.log]
  unfold deferredStatus
  by_cases hr : F.IsReady = true
  · simp only [hr, if_true]
    rw [PassState.MarkTrue_idle _ _ _ h.init (h.ready hr)]
    simp [PassState.log, idleTrace]
  · simp [hr, PassState.log, idleTrace]

theorem idleTrace_reads (env : Env) (F : MariaDB) :
    ∀ x ∈ idleTrace env F, x.isWrite = false := by
  have hall : (idleTrace env F).all (fun x => !x.isWrite) = true := by
    unfold idleTrace idleExpose idleSecrets idleJob
    by_cases h1 : env.Endpoints F = true <;> by_cases h2 : F.Spec.TLS.SecretName = "" <;>
      by_cases h3 : F.Spec.TLS.CaSecretName = "" <;> simp [h1, h2, h3, Step.isWrite]
  intro x hx
  have := List.all_eq_true.mp hall x hx
  simpa using this

theorem afterInit_init (i : MariaDB) : (afterInit i).Status.Conditions ≠ none := by
  unfold afterInit
  split
  · exact MariaDB.withConds_init _ _
  · assumption

theorem mariadb.Pod_congr (b : Builders) (a a1 : MariaDB) (h : String)
    (hn : a.Name = a1.Name) (hns : a.Namespace = a1.Namespace) (hsp : a.Spec = a1.Spec)
    (hv : b.getVolumeMounts a = b.getVolumeMounts a1 ∧ b.getVolumes a = b.getVolumes a1) :
    mariadb.Pod b a h = mariadb.Pod b a1 h := by
  unfold mariadb.Pod MariaDB.RbacResourceName
  rw [hn, hns, hsp, hv.1, hv.2]

theorem configMapVarsOf_congr (env : Env) (a a1 : MariaDB) (hn : a.Name = a1.Name)
    (hsp : a.Spec = a1.Spec) : configMapVarsOf env a = configMapVarsOf env a1 := by
  unfold configMapVarsOf tlsVars cmVars
  rw [hn, hsp]

theorem configHashFor_congr (env : Env) (a a1 : MariaDB) (hn : a.Name = a1.Name)
    (hsp : a.Spec = a1.Spec) : configHashFor env a = configHashFor env a1 := by
  unfold configHashFor
  rw [configMapVarsOf_congr env a a1 hn hsp]

theorem configHashFor_nextPass (env : Env) (rank : String → Nat) (a : MariaDB)
    (hrank : rangeOrder rank (configMapVarsOf env a) =
      rangeOrder env.mapRank (configMapVarsOf env a)) :
    configHashFor (nextPass env rank) a = configHashFor env a := by
  have h1 : cmVars (nextPass env rank) a = cmVars env a := rfl
  have h2 : tlsVars (nextPass env rank) a = tlsVars env a := by
    unfold tlsVars
    rw [h1]
    split
    · show (match env.GetSecretTLS.labelled _ with
          | .found _ tlsHash => (cmVars env a).set a.Spec.TLS.SecretName tlsHash
          | .failed _ => cmVars env a) = _
      cases env.GetSecretTLS <;> rfl
    · rfl
  have h3 : configMapVarsOf (nextPass env rank) a = configMapVarsOf env a := by
    unfold configMapVarsOf
    rw [h2]
    split
    · show (match env.GetSecretCA.labelled _ with
          | .found _ caHash => (tlsVars env a).set a.Spec.TLS.CaSecretName caHash
          | .failed _ => tlsVars env a) = _
      cases env.GetSecretCA <;> rfl
    · rfl
  unfold configHashFor MergeEnvs
  rw [h3]
  show configHashOf ((rangeOrder rank (configMapVarsOf env a)).foldl _ []) = _
  rw [hrank]

theorem idleTrace_endpoints (env : Env) (F : MariaDB)
    (h : Step.EndpointsCreateOrPatch ∈ idleTrace env F) : env.Endpoints F = true := by
  by_contra hb
  unfold idleTrace idleExpose idleSecrets idleJob at h
  by_cases h2 : F.Spec.TLS.SecretName = "" <;>
    by_cases h3 : F.Spec.TLS.CaSecretName = "" <;> simp [hb, h2, h3] at h

theorem idleTrace_pod (env : Env) (F : MariaDB) (q : Pod)
    (h : Step.PodCreateOrPatch q ∈ idleTrace env F) :
    q = mariadb.Pod env.builders F (configHashFor env F) := by
  unfold idleTrace idleExpose idleSecrets idleJob at h
  by_cases h1 : env.Endpoints F = true <;> by_cases h2 : F.Spec.TLS.SecretName = "" <;>
    by_cases h3 : F.Spec.TLS.CaSecretName = "" <;> simpa [h1, h2, h3] using h

theorem GetSecretOutcome.labelled_found (name : String) (labels : StrMap) (hash : String) :
    ∃ labels1, (GetSecretOutcome.found labels hash).labelled name = .found labels1 hash ∧
      labels1.get? mariaDBReconcileLabel = some name :=
  ⟨_, rfl, labelledSecret_label name _⟩

theorem Along.afterLogged {reports : List RbacReport} {got : List Condition} {b : MariaDB}
    {s : PassState} (h : Along reports got b s) (x : Step) (hx : x.rank < 14) :
    Along reports got b (s.log x) :=
  { settled := h.settled.afterLog x, name := h.name, ns := h.ns, spec := h.spec
    below := fun y hy => by
      rcases (PassState.mem_log _ _ _).mp hy with h1 | h1
      · exact h.below y h1
      · rw [h1]
        exact hx }

theorem Along.afterMarked {reports : List RbacReport} {got : List Condition} {b : MariaDB}
    {s : PassState} (h : Along reports got b s) (t : ConditionType) (format : MessageFormat)
    (hc : t ∈ laterTypes) (hfresh : ∀ g ∈ got, t ≠ g.CondType) :
    Along reports (TrueCondition t format [] :: got) b (s.MarkTrue t format) :=
  { settled := h.settled.afterMarkTrue t format hc hfresh, name := h.name, ns := h.ns
    spec := h.spec, below := h.below }

theorem Along.transfer {reports : List RbacReport} {got : List Condition} {b : MariaDB}
    {s s1 : PassState} (h : Along reports got b s) (hn : s1.inst.Name = s.inst.Name)
    (hns : s1.inst.Namespace = s.inst.Namespace) (hsp : s1.inst.Spec = s.inst.Spec)
    (hc : s1.inst.Status.Conditions = s.inst.Status.Conditions)
    (hb : ∀ x ∈ s1.trace, x.rank < 14) : Along reports got b s1 :=
  { settled := h.settled.of_inst hc, name := hn.trans h.name, ns := hns.trans h.ns
    spec := hsp.trans h.spec, below := hb }

theorem Along.start (env : Env) (b : MariaDB) (s0 : PassState) (hs0 : s0.inst = b)
    (hi : b.Status.Conditions ≠ none) (hb : ∀ x ∈ s0.trace, x.rank < 3) :
    Along env.ReconcileRbac.reports [] b
      { inst := env.ReconcileRbac.reports.foldl
          (fun db r => db.RbacConditionsSet r.condition) s0.inst
        trace := s0.trace ++ [Step.ReconcileRbac] } := by
  rw [hs0, rbacFold_eq _ _ hi]
  exact
    { settled :=
        { init := MariaDB.withConds_init _ _
          stable := SetsOnly.refl _
          got := fun _ hg => absurd hg (List.not_mem_nil _) }
      name := rfl, ns := rfl, spec := rfl
      below := fun x hx => by
        rcases List.mem_append.mp hx with h | h
        · exact lt_trans (hb x h) (by omega)
        · rw [List.mem_singleton.mp h]
          decide }

theorem Settled.of_eq {reports : List RbacReport} {L0 : Conditions} {got : List Condition}
    {s s1 : PassState} (h : Settled reports L0 got s) (he : s1.inst = s.inst) :
    Settled reports L0 got s1 :=
  h.of_inst (by rw [he])

theorem Settled.tail {reports : List RbacReport} {L0 : Conditions} {c : Condition}
    {got : List Condition} {s : PassState} (h : Settled reports L0 (c :: got) s) :
    Settled reports L0 got s :=
  ⟨h.init, h.stable, fun g hg => h.got g (List.mem_cons_of_mem _ hg)⟩

theorem deferredStatus_settled (env : Env) (before : MariaDB) {reports : List RbacReport}
    {L0 : Conditions} {got : List Condition} {s : PassState} (h : Settled reports L0 got s)
    (hfresh : ∀ g ∈ got, ReadyCondition ≠ g.CondType) :
    Settled reports L0 got (deferredStatus env before s) ∧
      ((deferredStatus env before s).inst.IsReady = true →
        (deferredStatus env before s).inst.conds.Get ReadyCondition =
          some (TrueCondition ReadyCondition ReadyMessage [])) := by
  have hinst := deferredStatus_inst env before s
  by_cases hr : s.inst.IsReady = true
  · rw [if_pos hr] at hinst
    have hm := h.afterMarkTrue ReadyCondition ReadyMessage (by decide) hfresh
    refine ⟨hm.tail.of_eq hinst, fun _ => ?_⟩
    rw [hinst]
    exact hm.got _ (List.mem_cons_self _ _)
  · rw [if_neg hr] at hinst
    refine ⟨h.of_eq hinst, fun hf => ?_⟩
    rw [hinst] at hf
    exact absurd hf hr

theorem podStep_none (env : Env) (s : PassState) (configHash : String)
    (hop : (env.PodCreateOrPatch (mariadb.Pod env.builders s.inst configHash)).outcome =
      .done .OperationResultNone) :
    podStep env s configHash =
      (.ret {} none,
        if (env.PodCreateOrPatch (mariadb.Pod env.builders s.inst configHash)).Phase =
            .PodRunning then
          (s.log (Step.PodCreateOrPatch (mariadb.Pod env.builders s.inst configHash))).MarkTrue
            DeploymentReadyCondition DeploymentReadyMessage
        else s.log (Step.PodCreateOrPatch (mariadb.Pod env.builders s.inst configHash))) := by
  unfold podStep
  simp only [hop, ne_eq, not_true_eq_false, if_false]

/-- A pass that reaches the pod step has had every earlier call succeed; when the
create-or-patch of the pod then reports "none", the pass returns an empty result and a
nil error, and the resource it ends with has converged with the cluster it leaves. -/
theorem pass_settles (env : Env) (inst0 : MariaDB) (p : Pod) (rank : String → Nat)
    (hget : env.Get = .ok inst0)
    (hpod : Step.PodCreateOrPatch p ∈ (Reconcile env).2.trace)
    (hop : (env.PodCreateOrPatch p).outcome = .done .OperationResultNone)
    (hjob : (env.DoJob (Reconcile env).2.inst.Status.DbInitHash).result = {} ∧
      (env.DoJob (Reconcile env).2.inst.Status.DbInitHash).err = none ∧
      (env.DoJob (Reconcile env).2.inst.Status.DbInitHash).HasChanged = false)
    (hE : ∀ a b : MariaDB, a.Spec = b.Spec → env.Endpoints a = env.Endpoints b)
    (hV : ∀ a b : MariaDB, a.Name = b.Name → a.Namespace = b.Namespace → a.Spec = b.Spec →
      env.builders.getVolumeMounts a = env.builders.getVolumeMounts b ∧
        env.builders.getVolumes a = env.builders.getVolumes b)
    (hrank : rangeOrder rank (configMapVarsOf env (Reconcile env).2.inst) =
      rangeOrder env.mapRank (configMapVarsOf env (Reconcile env).2.inst)) :
    Converged (nextPass env rank) (Reconcile env).2.inst ∧
      (Reconcile env).1 = .ret {} none ∧
      (env.Endpoints (Reconcile env).2.inst = true →
        Step.EndpointsCreateOrPatch ∈ (Reconcile env).2.trace) ∧
      mariadb.Pod env.builders (Reconcile env).2.inst
        (configHashFor (nextPass env rank) (Reconcile env).2.inst) = p := by
  obtain ⟨hhelper, hinit⟩ := Reconcile_through env inst0 p hget hpod
  obtain ⟨s0, heq, hs0, hK0⟩ := Reconcile_helper env inst0 hget hinit hhelper
  have hp0 : Step.PodCreateOrPatch p ∈ (rbacStep env s0).2.trace := by
    rw [heq] at hpod
    rcases finish_mem env _ _ _ hpod with h | h
    · exact h
    · simp [Step.rank] at h
  -- the RBAC step
  obtain ⟨hrerr, hrres, e1⟩ := rbacStep_through env s0 p
    (fun x hx => lt_trans (hK0.below x hx) (by omega)) hp0
  have a1 := Along.start env (afterInit inst0) s0 hs0 (afterInit_init inst0) hK0.below
  obtain ⟨s1, e1, a1⟩ : ∃ s1 : PassState, rbacStep env s0 = pvcStep env s1 ∧
      Along env.ReconcileRbac.reports [] (afterInit inst0) s1 := ⟨_, e1, a1⟩
  rw [e1] at hp0
  -- the claim
  obtain ⟨hq, hpvc, e2⟩ := pvcStep_through env s1 p a1.below hp0
  have a2 := a1.afterLogged Step.PvcCreateOrPatch (by decide)
  rw [e2] at hp0
  -- the service
  obtain ⟨hsvc, e3⟩ := serviceStep_through env _ p a2.below hp0
  have a3 := a2.afterLogged Step.ServiceCreateOrPatch (by decide)
  rw [e3] at hp0
  -- the endpoints
  obtain ⟨hep, s4, e4, hi4, hb4⟩ := endpointsStep_through env _ p a3.below hp0
  have a4 : Along env.ReconcileRbac.reports [] (afterInit inst0) s4 :=
    a3.transfer (by rw [hi4]) (by rw [hi4]) (by rw [hi4]) (by rw [hi4]) hb4
  have a5 := a4.afterMarked ExposeServiceReadyCondition ExposeServiceReadyMessage (by decide)
    (fun _ hg => absurd hg (List.not_mem_nil _))
  rw [e4] at hp0
  -- the config maps
  obtain ⟨hcm, e5⟩ := configStep_through env _ p a5.below hp0
  have a6 := a5.afterLogged Step.EnsureConfigMaps (by decide)
  rw [e5] at hp0
  obtain ⟨s6, e5, a6, hp0⟩ : ∃ s6 : PassState,
      configStep env (s4.MarkTrue ExposeServiceReadyCondition ExposeServiceReadyMessage) =
        tlsStep env s6 (cmVars env s6.inst) ∧
      Along env.ReconcileRbac.reports
        [TrueCondition ExposeServiceReadyCondition ExposeServiceReadyMessage []]
        (afterInit inst0) s6 ∧
      Step.PodCreateOrPatch p ∈ (tlsStep env s6 (cmVars env s6.inst)).2.trace :=
    ⟨_, e5, a6, hp0⟩
  -- the secrets
  obtain ⟨htls, s7, e6, hi7, hb7⟩ := tlsStep_through env _ p a6.below hp0
  have a7 : Along env.ReconcileRbac.reports
      [TrueCondition ExposeServiceReadyCondition ExposeServiceReadyMessage []]
      (afterInit inst0) s7 :=
    a6.transfer (by rw [hi7]) (by rw [hi7]) (by rw [hi7]) (by rw [hi7]) hb7
  rw [e6] at hp0
  obtain ⟨hca, s8, e7, hi8, hb8⟩ := caStep_through env s7 _ p (by rw [hi7]) hb7 hp0
  have a8 : Along env.ReconcileRbac.reports
      [TrueCondition ExposeServiceReadyCondition ExposeServiceReadyMessage []]
      (afterInit inst0) s8 :=
    a7.transfer (by rw [hi8]) (by rw [hi8]) (by rw [hi8]) (by rw [hi8]) hb8
  rw [e7, hashStep_eq] at hp0
  have a9 := a8.afterMarked ServiceConfigReadyCondition ServiceConfigReadyMessage (by decide)
    (by decide)
  -- the job
  obtain ⟨hjres, hjerr, s10, e8, hn10, hns10, hsp10, hc10, hb10⟩ :=
    jobStep_through env _ _ p a9.below hp0
  have a10 := a9.transfer hn10 hns10 hsp10 hc10 hb10
  have a11 := a10.afterMarked MariaDBInitializedCondition MariaDBInitializedReadyMessage
    (by decide) (by decide)
  rw [e8] at hp0
  obtain ⟨s11, e8, a11, hp0⟩ : ∃ s11 : PassState,
      jobStep env (s8.MarkTrue ServiceConfigReadyCondition ServiceConfigReadyMessage)
          (configHashFor env s6.inst) =
        podStep env s11 (configHashFor env s6.inst) ∧
      Along env.ReconcileRbac.reports
        [TrueCondition MariaDBInitializedCondition MariaDBInitializedReadyMessage [],
          TrueCondition ServiceConfigReadyCondition ServiceConfigReadyMessage [],
          TrueCondition ExposeServiceReadyCondition ExposeServiceReadyMessage []]
        (afterInit inst0) s11 ∧
      Step.PodCreateOrPatch p ∈ (podStep env s11 (configHashFor env s6.inst)).2.trace :=
    ⟨_, e8, a11, hp0⟩
  -- the pod
  have hpq : p = mariadb.Pod env.builders s11.inst (configHashFor env s6.inst) := by
    rw [podStep_trace] at hp0
    rcases List.mem_append.mp hp0 with h | h
    · exact absurd h (pod_not_below p _ a11.below)
    · exact Step.PodCreateOrPatch.inj (List.mem_singleton.mp h)
  have htotal : Reconcile env =
      finish env (afterInit inst0) (podStep env s11 (configHashFor env s6.inst)) := by
    rw [heq, e1, e2, e3, e4, e5, e6, e7, hashStep_eq, e8]
  have hout := podStep_none env s11 (configHashFor env s6.inst) (by rw [← hpq]; exact hop)
  rw [← hpq] at hout
  have hev := podStep_evolves env (T := podOn) s11 (configHashFor env s6.inst) (by decide)
  have hdv := deferredStatus_evolves env (T := [ReadyCondition]) (afterInit inst0)
    (podStep env s11 (configHashFor env s6.inst)).2 (by decide)
  have hF : (Reconcile env).2.inst =
      (deferredStatus env (afterInit inst0)
        (podStep env s11 (configHashFor env s6.inst)).2).inst := by
    rw [htotal]
    rfl
  have hnF : (Reconcile env).2.inst.Name = (afterInit inst0).Name := by
    rw [hF]
    exact hdv.name.trans (hev.name.trans a11.name)
  have hnsF : (Reconcile env).2.inst.Namespace = (afterInit inst0).Namespace := by
    rw [hF]
    exact hdv.ns.trans (hev.ns.trans a11.ns)
  have hspF : (Reconcile env).2.inst.Spec = (afterInit inst0).Spec := by
    rw [hF]
    exact hdv.spec.trans (hev.spec.trans a11.spec)
  -- the conditions after the pod step
  have h12 : Settled env.ReconcileRbac.reports (afterInit inst0).conds
        [TrueCondition MariaDBInitializedCondition MariaDBInitializedReadyMessage [],
          TrueCondition ServiceConfigReadyCondition ServiceConfigReadyMessage [],
          TrueCondition ExposeServiceReadyCondition ExposeServiceReadyMessage []]
        (podStep env s11 (configHashFor env s6.inst)).2 ∧
      ((env.PodCreateOrPatch p).Phase = .PodRunning →
        (podStep env s11 (configHashFor env s6.inst)).2.inst.conds.Get
            DeploymentReadyCondition =
          some (TrueCondition DeploymentReadyCondition DeploymentReadyMessage [])) := by
    rw [hout]
    by_cases hph : (env.PodCreateOrPatch p).Phase = .PodRunning
    · rw [if_pos hph]
      have hm := (a11.settled.afterLog (Step.PodCreateOrPatch p)).afterMarkTrue
        DeploymentReadyCondition DeploymentReadyMessage (by decide) (by decide)
      exact ⟨hm.tail, fun _ => hm.got _ (List.mem_cons_self _ _)⟩
    · rw [if_neg hph]
      exact ⟨a11.settled.afterLog _, fun h => absurd h hph⟩
  obtain ⟨hsF, hready⟩ := deferredStatus_settled env (afterInit inst0) h12.1 (by decide)
  rw [← hF] at hready
  have hsF1 : Settled env.ReconcileRbac.reports (afterInit inst0).conds
        [TrueCondition MariaDBInitializedCondition MariaDBInitializedReadyMessage [],
          TrueCondition ServiceConfigReadyCondition ServiceConfigReadyMessage [],
          TrueCondition ExposeServiceReadyCondition ExposeServiceReadyMessage []]
        { inst := (Reconcile env).2.inst, trace := [] } :=
    hsF.of_eq hF
  have hDF : (env.PodCreateOrPatch p).Phase = .PodRunning →
      (Reconcile env).2.inst.conds.Get DeploymentReadyCondition =
        some (TrueCondition DeploymentReadyCondition DeploymentReadyMessage []) := by
    intro hph
    rw [hF, deferredStatus_Get env _ _ _ (by decide)]
    exact h12.2 hph
  have hpe : mariadb.Pod env.builders (Reconcile env).2.inst
      (configHashFor (nextPass env rank) (Reconcile env).2.inst) = p := by
    rw [configHashFor_nextPass env rank _ hrank, hpq,
      configHashFor_congr env (Reconcile env).2.inst s6.inst (hnF.trans a6.name.symm)
        (hspF.trans a6.spec.symm)]
    exact mariadb.Pod_congr _ _ _ _ (hnF.trans a11.name.symm) (hnsF.trans a11.ns.symm)
      (hspF.trans a11.spec.symm)
      (hV _ _ (hnF.trans a11.name.symm) (hnsF.trans a11.ns.symm) (hspF.trans a11.spec.symm))
  have hendp : env.Endpoints (Reconcile env).2.inst = true →
      env.Endpoints ((s1.log Step.PvcCreateOrPatch).log Step.ServiceCreateOrPatch).inst = true := by
    intro h
    rw [← hE (Reconcile env).2.inst _ (hspF.trans a3.spec.symm)]
    exact h
  refine ⟨?_, ?_, ?_, hpe⟩
  · exact
      { init := hsF1.init
        helper := hhelper
        rbacErr := hrerr
        rbacResult := hrres
        rbacFix := hsF1.rbacFix
        quantity := by
          show env.ParseQuantity (Reconcile env).2.inst.Spec.StorageRequest = none
          rw [hspF, ← a1.spec]
          exact hq
        pvc := hpvc
        service := hsvc
        endpoints := fun h => hep (hendp h)
        expose := hsF1.got
          (TrueCondition ExposeServiceReadyCondition ExposeServiceReadyMessage []) (by simp)
        configMaps := hcm
        tls := by
          intro hn
          obtain ⟨labels, hash, hf⟩ := htls (by rw [a6.spec, ← hspF]; exact hn)
          obtain ⟨l1, h1, h2⟩ := GetSecretOutcome.labelled_found (Reconcile env).2.inst.Name
            labels hash
          exact ⟨l1, hash, by
            show env.GetSecretTLS.labelled _ = _
            rw [hf]
            exact h1, h2⟩
        ca := by
          intro hn
          obtain ⟨labels, hash, hf⟩ := hca (by rw [a7.spec, ← hspF]; exact hn)
          obtain ⟨l1, h1, h2⟩ := GetSecretOutcome.labelled_found (Reconcile env).2.inst.Name
            labels hash
          exact ⟨l1, hash, by
            show env.GetSecretCA.labelled _ = _
            rw [hf]
            exact h1, h2⟩
        config := hsF1.got
          (TrueCondition ServiceConfigReadyCondition ServiceConfigReadyMessage []) (by simp)
        jobResult := hjob.1
        jobErr := hjob.2.1
        jobSame := hjob.2.2
        initialized := hsF1.got
          (TrueCondition MariaDBInitializedCondition MariaDBInitializedReadyMessage [])
          (by simp)
        podNone := by
          show (env.PodCreateOrPatch (mariadb.Pod env.builders (Reconcile env).2.inst
            (configHashFor (nextPass env rank) (Reconcile env).2.inst))).outcome = _
          rw [hpe]
          exact hop
        podPhase := by
          show (env.PodCreateOrPatch (mariadb.Pod env.builders (Reconcile env).2.inst
            (configHashFor (nextPass env rank) (Reconcile env).2.inst))).Phase = _ → _
          rw [hpe]
          exact hDF
        ready := hready }
  · rw [htotal, finish_fst, hout]
  · intro h
    rw [heq, e1, e2, e3]
    exact finish_sub env _ _ _ (endpointsStep_head env _ (hendp h))

/-- C17, as stated, fails.  The first pass over `bothDb` in the cluster `envRunning`
ends with every condition True, an empty result and a nil error, and every
create-or-patch it issues reports "none"; its pod carries the configuration hash
`n7fh9dqn66bh5c8n5d4h64fh`.  The second pass runs in the cluster as the first left it
and ranges over the map of env setters in another order, longer names first.  It
computes another configuration hash, so the create-or-patch of the pod updates the pod,
DeploymentReady is set False, the status is patched, and the resource it ends with is
not the one the first pass left. -/
theorem second_pass_counterexample :
    ((∀ t ∈ ReadyCondition :: constituentTypes,
          (Reconcile envRunning).2.inst.conds.IsTrue t = true) ∧
        (Reconcile envRunning).1 = .ret {} none ∧
        envRunning.PvcCreateOrPatch = .done .OperationResultNone ∧
        envRunning.ServiceCreateOrPatch = .done .OperationResultNone ∧
        Step.EndpointsCreateOrPatch ∉ (Reconcile envRunning).2.trace ∧
        ∃ q ∈ (Reconcile envRunning).2.trace.filterMap
            (fun x => match x with | .PodCreateOrPatch q => some q | _ => none),
          q.env "CONFIG_HASH" = some "n7fh9dqn66bh5c8n5d4h64fh" ∧
            (envRunning.PodCreateOrPatch q).outcome = .done .OperationResultNone) ∧
      (∃ q ∈ (Reconcile (nextPass envRunning longestFirst)).2.trace.filterMap
            (fun x => match x with | .PodCreateOrPatch q => some q | _ => none),
          q.env "CONFIG_HASH" = some "n5d4h64fhn66bh5c8n7fh9dq" ∧
            ((nextPass envRunning longestFirst).PodCreateOrPatch q).outcome =
              .done .OperationResultUpdated) ∧
      (∃ x ∈ (Reconcile (nextPass envRunning longestFirst)).2.trace, x.isWrite = true) ∧
      (Reconcile (nextPass envRunning longestFirst)).2.inst.conds.IsTrue
          DeploymentReadyCondition = false ∧
      (Reconcile (nextPass envRunning longestFirst)).2.inst ≠ (Reconcile envRunning).2.inst := by
  decide

/-- C17, amended: a second pass over the state a pass left, the map of env setters
being ranged over in the same order.  The first pass finds the resource and gets as far
as the create-or-patch of the pod, and every create-or-patch reports "none": that of
the claim (or the pass would have stopped), of the service, of the endpoints if issued,
and of the pod.  The second pass runs in the cluster as the first left it (`nextPass`):
the fetch returns the resource the first pass ended with, the secrets carry the label,
the job runner finds the job of the stored hash complete and unchanged, and every other
call answers as before; the builders of the endpoints, the volumes and the mounts read
the name, the namespace and the spec of the resource only.  The second pass ranges over
its map of env setters in an order `rank` of its own, and that order visits the entries
of the map as the first pass did.  Then the second pass returns an empty result and a
nil error, leaves the resource as it is, and issues no write: no update of a secret, no
update of the status, no patch of the status, and every create-or-patch it issues
reports "none". -/
theorem second_pass_idle (env : Env) (inst0 : MariaDB) (p : Pod) (rank : String → Nat)
    (hget : env.Get = .ok inst0)
    (hpod : Step.PodCreateOrPatch p ∈ (Reconcile env).2.trace)
    (hsvc : env.ServiceCreateOrPatch = .done .OperationResultNone)
    (hep : Step.EndpointsCreateOrPatch ∈ (Reconcile env).2.trace →
      env.EndpointsCreateOrPatch = .done .OperationResultNone)
    (hop : (env.PodCreateOrPatch p).outcome = .done .OperationResultNone)
    (hjob : (env.DoJob (Reconcile env).2.inst.Status.DbInitHash).result = {} ∧
      (env.DoJob (Reconcile env).2.inst.Status.DbInitHash).err = none ∧
      (env.DoJob (Reconcile env).2.inst.Status.DbInitHash).HasChanged = false)
    (hE : ∀ a b : MariaDB, a.Spec = b.Spec → env.Endpoints a = env.Endpoints b)
    (hV : ∀ a b : MariaDB, a.Name = b.Name → a.Namespace = b.Namespace → a.Spec = b.Spec →
      env.builders.getVolumeMounts a = env.builders.getVolumeMounts b ∧
        env.builders.getVolumes a = env.builders.getVolumes b)
    (hrank : rangeOrder rank (configMapVarsOf env (Reconcile env).2.inst) =
      rangeOrder env.mapRank (configMapVarsOf env (Reconcile env).2.inst)) :
    (Reconcile (nextPass env rank)).1 = .ret {} none ∧
      (Reconcile (nextPass env rank)).2.inst = (Reconcile env).2.inst ∧
      (∀ x ∈ (Reconcile (nextPass env rank)).2.trace, x.isWrite = false) ∧
      (nextPass env rank).PvcCreateOrPatch = .done .OperationResultNone ∧
      (nextPass env rank).ServiceCreateOrPatch = .done .OperationResultNone ∧
      (Step.EndpointsCreateOrPatch ∈ (Reconcile (nextPass env rank)).2.trace →
        (nextPass env rank).EndpointsCreateOrPatch = .done .OperationResultNone) ∧
      ∀ q, Step.PodCreateOrPatch q ∈ (Reconcile (nextPass env rank)).2.trace →
        ((nextPass env rank).PodCreateOrPatch q).outcome = .done .OperationResultNone := by
  obtain ⟨hC, -, hepin, hpe⟩ := pass_settles env inst0 p rank hget hpod hop hjob hE hV hrank
  have hid := Reconcile_idle hC rfl
  rw [hid]
  refine ⟨rfl, rfl, idleTrace_reads _ _, hC.pvc, hsvc, ?_, ?_⟩
  · intro h
    exact hep (hepin (idleTrace_endpoints (nextPass env rank) _ h))
  · intro q hq
    have hq1 := idleTrace_pod (nextPass env rank) _ q hq
    have hq2 : q = p := hq1.trans hpe
    rw [hq2]
    exact hop

theorem second_pass_idle_witness :
    (Step.UpdateSecretTLS (labelledSecret "openstack"
          { Name := "cert-mariadb", Namespace := "openstack", Labels := certSecret.Labels }) ∈
        (Reconcile envRunning).2.trace ∧
      (∀ t ∈ ReadyCondition :: constituentTypes,
        (Reconcile envRunning).2.inst.conds.IsTrue t = true) ∧
      rangeOrder shortestFirst (configMapVarsOf envRunning (Reconcile envRunning).2.inst) =
        rangeOrder envRunning.mapRank
          (configMapVarsOf envRunning (Reconcile envRunning).2.inst)) ∧
      (Reconcile (nextPass envRunning shortestFirst)).1 = .ret {} none ∧
      (Reconcile (nextPass envRunning shortestFirst)).2.inst = (Reconcile envRunning).2.inst ∧
      (∀ x ∈ (Reconcile (nextPass envRunning shortestFirst)).2.trace, x.isWrite = false) ∧
      (nextPass envRunning shortestFirst).PvcCreateOrPatch = .done .OperationResultNone ∧
      (nextPass envRunning shortestFirst).ServiceCreateOrPatch = .done .OperationResultNone ∧
      (Step.EndpointsCreateOrPatch ∈ (Reconcile (nextPass envRunning shortestFirst)).2.trace →
        (nextPass envRunning shortestFirst).EndpointsCreateOrPatch =
          .done .OperationResultNone) ∧
      ∀ q, Step.PodCreateOrPatch q ∈ (Reconcile (nextPass envRunning shortestFirst)).2.trace →
        ((nextPass envRunning shortestFirst).PodCreateOrPatch q).outcome =
          .done .OperationResultNone :=
  ⟨⟨by decide, by decide, by decide⟩,
    second_pass_idle envRunning bothDb
      (mariadb.Pod sampleBuilders bothDb (configHashFor envRunning bothDb)) shortestFirst rfl
      (by decide) rfl (fun _ => rfl) (by decide) ⟨by decide, by decide, by decide⟩
      (fun a b h => by simp [envRunning, envFirst, sampleEnv, h])
      (fun _ _ _ _ _ => ⟨rfl, rfl⟩) (by decide)⟩

end MariaDBOperator
